import Mathlib

/-!
Verification of the merge engine (`merger/merger.go`) and the directory
walker (`walk/walk.go`, `walk/config.go`) of bazel-gazelle, via a shallow
embedding of the relevant Go code in Lean.

Build-file expressions (`github.com/bazelbuild/buildtools/build`, imported
as `bf` in the Go source) are embedded as the inductive `Expr` below; Go's
nil `bf.Expr` interface value is represented by the constructor `Expr.nilE`,
and Go's typed nil pointers (`*bf.ListExpr`, `*bf.DictExpr`) by `Option`.
-/

namespace Gazelle

/-! ### Kernel-computable string helpers

The Go standard-library string functions used by the embedded code
(`strings.TrimSpace`, `strings.Split`, `strings.TrimPrefix`, slicing,
byte-wise comparison) are implemented here over character lists by
structural recursion, so that every definition in this file evaluates
inside the kernel. For the ASCII strings the merger and walker handle,
character positions coincide with Go's byte offsets. -/

/-- Trim whitespace from both ends of a character list. -/
def trimChars (l : List Char) : List Char :=
  ((l.dropWhile Char.isWhitespace).reverse.dropWhile Char.isWhitespace).reverse

/-- `strings.TrimSpace`. -/
def goTrim (s : String) : String := ⟨trimChars s.toList⟩

/-- Split a character list at a separator character. -/
def splitOnCharAux (sep : Char) : List Char → List Char → List (List Char)
  | [], acc => [acc.reverse]
  | c :: rest, acc =>
    if c == sep then acc.reverse :: splitOnCharAux sep rest []
    else splitOnCharAux sep rest (c :: acc)

/-- `strings.Split` with a one-character separator. -/
def splitOnChar (sep : Char) (s : String) : List String :=
  (splitOnCharAux sep s.toList []).map List.asString

/-- String slice `s[:n]` (`n` in characters). -/
def strTake (s : String) (n : Nat) : String := ⟨s.toList.take n⟩

/-- String slice `s[n:]` (`n` in characters). -/
def strDrop (s : String) (n : Nat) : String := ⟨s.toList.drop n⟩

/-- Whether `pre` is a leading piece of `s`. -/
def strStartsWith (s pre : String) : Bool :=
  s.toList.take pre.toList.length == pre.toList

/-- `strings.Join`. -/
def joinSep (sep : String) : List String → String
  | [] => ""
  | [x] => x
  | x :: rest => x ++ sep ++ joinSep sep rest

/-- Byte-wise lexicographic `≤` on character lists. -/
def lexLe : List Char → List Char → Bool
  | [], _ => true
  | _ :: _, [] => false
  | a :: as, b :: bs => if a == b then lexLe as bs else decide (a.toNat < b.toNat)

/-- Go's string `<=` (byte-wise; equal to character-wise on ASCII). -/
def strLe (a b : String) : Bool := lexLe a.toList b.toList

/-- Comment sets attached to a buildtools expression (`bf.Comments`:
`Before`, `Suffix`, `After`), each a list of raw comment token strings. -/
structure Comments where
  before : List String
  suffix : List String
  after : List String
deriving DecidableEq, Repr

/-- The empty comment set (Go zero value). -/
def noCom : Comments := ⟨[], [], []⟩

/-- Shallow embedding of buildtools expressions (`bf.Expr`), restricted to
the constructors handled by the merger: string literals, identifiers
(`bf.LiteralExpr`), lists, dicts, key-value pairs, calls and binary
operators. `nilE` stands for a nil `bf.Expr` interface value. -/
inductive Expr where
  | nilE : Expr
  | stringE (value : String) (com : Comments)
  | literalE (token : String) (com : Comments)
  | listE (elems : List Expr) (fml : Bool) (com : Comments)
  | dictE (elems : List Expr) (fml : Bool) (com : Comments)
  | kvE (key val : Expr) (com : Comments)
  | callE (fn : Expr) (args : List Expr) (com : Comments)
  | binaryE (op : String) (x y : Expr) (com : Comments)

open Expr

/-- The comment set attached to an expression (`e.Comment()` in Go;
a nil expression has no comments). -/
def commentsOf : Expr → Comments
  | nilE => noCom
  | stringE _ c => c
  | literalE _ c => c
  | listE _ _ c => c
  | dictE _ _ c => c
  | kvE _ _ c => c
  | callE _ _ c => c
  | binaryE _ _ _ c => c

/-- One comment token, stripped of a leading `#` and surrounding space
(`strings.TrimSpace(strings.TrimPrefix(c.Token, "#"))` in `shouldKeep`). -/
def stripComment (t : String) : String :=
  if strStartsWith t "#" then goTrim (strDrop t 1) else goTrim t

/-- Whether a comment set contains a `keep` marker among the `Before` and
`Suffix` comments (the `append(e.Comment().Before, e.Comment().Suffix...)`
loop of `shouldKeep` in merger.go). -/
def hasKeep (c : Comments) : Bool :=
  (c.before ++ c.suffix).any (fun t => stripComment t == "keep")

/-- merger.go `shouldKeep`: an expression from the original file should be
preserved iff it has a prefix or end-of-line comment that is exactly
`keep` after trimming. -/
def shouldKeep (e : Expr) : Bool := hasKeep (commentsOf e)

/-- merger.go `isScalar`: strings and identifiers are scalars. -/
def isScalar : Expr → Bool
  | stringE _ _ => true
  | literalE _ _ => true
  | _ => false

/-- merger.go `stringValue`: the value of a string expression, `""` for
anything else. -/
def stringValue : Expr → String
  | stringE v _ => v
  | _ => ""

/-- A buildtools call expression (`*bf.CallExpr`): callee, argument list
and attached comments. -/
structure Call where
  fn : Expr
  args : List Expr
  com : Comments

/-- Re-inject a call into `Expr`. -/
def Call.toExpr (c : Call) : Expr := callE c.fn c.args c.com

/-- The Go type assertion `s.(*bf.CallExpr)`. -/
def Expr.asCall : Expr → Option Call
  | callE f a c => some ⟨f, a, c⟩
  | _ => none

/-- Whether an expression is the nil expression (Go `== nil` tests on
`bf.Expr` values). -/
def isNilE : Expr → Bool
  | nilE => true
  | _ => false

/-- Whether an argument is a keyword argument, i.e. a `=` binary
expression (the test used by `isEmpty` and by the unnamed-argument copy in
`mergeRule`). -/
def isBinEq : Expr → Bool
  | binaryE op _ _ _ => op == "="
  | _ => false

/-- The identifier token of an expression (`*bf.LiteralExpr`). -/
def litToken : Expr → Option String
  | literalE t _ => some t
  | _ => none

/-- The attribute key of an argument: the token of the left-hand side of a
`=` binary expression when that side is an identifier (`bf.Rule.AttrKeys`
collects exactly these). -/
def binKey : Expr → Option String
  | binaryE op x _ _ => if op == "=" then litToken x else none
  | _ => none

/-- The right-hand side of a binary expression (`bf.BinaryExpr.Y`);
`nilE` for other expressions. -/
def binY : Expr → Expr
  | binaryE _ _ y _ => y
  | _ => nilE

/-- Replace the right-hand side of a binary expression, keeping operator,
key and comments (the struct copy `mergedAttr := *oldAttr;
mergedAttr.Y = mergedExpr` in `mergeRule`). -/
def setY (b v : Expr) : Expr :=
  match b with
  | binaryE op x _ c => binaryE op x v c
  | e => e

/-- `bf.Rule.AttrKeys` over an argument list: keys of the keyword
arguments whose key is an identifier, in order. -/
def attrKeysA (args : List Expr) : List String := args.filterMap binKey

/-- `bf.Rule.AttrKeys` for a call. -/
def attrKeys (c : Call) : List String := attrKeysA c.args

/-- `bf.Rule.AttrDefn` over an argument list: the first keyword argument
with the given key. -/
def attrDefnA (args : List Expr) (k : String) : Option Expr :=
  args.find? (fun a => binKey a == some k)

/-- `bf.Rule.AttrDefn` for a call. -/
def attrDefn (c : Call) (k : String) : Option Expr := attrDefnA c.args k

/-- `bf.Rule.Attr` over an argument list: the value bound to the key, the
nil expression when the key is absent. -/
def attrValA (args : List Expr) (k : String) : Expr :=
  match attrDefnA args k with
  | some b => binY b
  | none => nilE

/-- `bf.Rule.Attr` for a call. -/
def attrVal (c : Call) (k : String) : Expr := attrValA c.args k

/-- merger.go `kind` / `bf.Rule.Kind` restricted to the identifier case:
the token of the callee (rules generated and merged by gazelle always have
an identifier callee; other callee shapes yield `""`). -/
def kindOf (c : Call) : String :=
  match c.fn with
  | literalE t _ => t
  | _ => ""

/-- merger.go `name` / `bf.Rule.Name`: the string value of the `name`
attribute (`""` when absent or not a string). -/
def nameOf (c : Call) : String := stringValue (attrVal c "name")

/-- merger.go `isEmpty`: every argument is a keyword argument whose key is
the identifier `name` or `visibility`. -/
def isEmptyCall (c : Call) : Bool :=
  c.args.all fun a =>
    match binKey a with
    | some t => t == "name" || t == "visibility"
    | none => false

/-- The mergeable-attribute table (`merger.MergeableAttrs`), read as a
total function with Go's absent-key-means-false map semantics:
`attrs kind attrName` is `attrs[kind][attrName]`. -/
def MergeableAttrs := String → String → Bool

/-- A `*bf.ListExpr`: element list, `ForceMultiLine` flag, comments. -/
structure ListX where
  elems : List Expr
  fml : Bool
  com : Comments

/-- Re-inject a list expression into `Expr`. -/
def ListX.toExpr (l : ListX) : Expr := listE l.elems l.fml l.com

/-- A `*bf.DictExpr`: entry list, `ForceMultiLine` flag, comments. -/
structure DictX where
  elems : List Expr
  fml : Bool
  com : Comments

/-- Re-inject a dict expression into `Expr`. -/
def DictX.toExpr (d : DictX) : Expr := dictE d.elems d.fml d.com

/-- merger.go `mergeList`. `none` models a nil `*bf.ListExpr`.
The old list is scanned keeping elements that carry a `keep` marker or
whose string value occurs in the generated list; generated elements whose
string value was not kept are then appended. An empty merge result is
returned as `none` (nil). -/
def mergeList (gen old : Option ListX) : Option ListX :=
  match old with
  | none => gen
  | some o =>
    let g := gen.getD ⟨[], false, noCom⟩
    let genSet : List String := g.elems.foldl
      (fun s v => if stringValue v ≠ "" then s ++ [stringValue v] else s) []
    let st := o.elems.foldl
      (fun (st : List Expr × List String × Bool) v =>
        if shouldKeep v || genSet.contains (stringValue v) then
          (st.1 ++ [v],
           if stringValue v ≠ "" then st.2.1 ++ [stringValue v] else st.2.1,
           st.2.2 || shouldKeep v)
        else st)
      ([], [], false)
    let merged := st.1 ++ g.elems.filter (fun v => !(st.2.1.contains (stringValue v)))
    if merged.isEmpty then none
    else some ⟨merged, g.fml || o.fml || st.2.2, noCom⟩

/-- merger.go `dictEntry`: one key of a select dict during merging. -/
structure DictEntry where
  key : String
  oldValue : Option ListX
  genValue : Option ListX
  mergedValue : Option ListX

/-- merger.go `dictEntryKeyValue`: a dict entry must be a key-value pair
with a string key and a list value. -/
def dictEntryKeyValue (e : Expr) : Except String (String × ListX) :=
  match e with
  | kvE (stringE k _) (listE es f c) _ => .ok (k, ⟨es, f, c⟩)
  | kvE (stringE _ _) _ _ => .error "dict value was not list"
  | kvE _ _ _ => .error "dict key was not string"
  | _ => .error "dict entry was not a key-value pair"

/-- Insertion of a string into a sorted list (ascending, lexicographic). -/
def insSorted (x : String) : List String → List String
  | [] => [x]
  | y :: ys => if strLe x y then x :: y :: ys else y :: insSorted x ys

/-- `sort.Strings`: sort a list of keys ascending (insertion sort; the Go
byte-wise order and Lean's `String` order agree on the ASCII select keys
handled by the merger). -/
def sortStrings (l : List String) : List String := l.foldr insSorted []

/-- The default select case key. -/
def condDefault : String := "//conditions:default"

/-- merger.go `mergeDict`. `none` models a nil `*bf.DictExpr`. -/
def mergeDict (gen old : Option DictX) : Except String (Option DictX) :=
  match old with
  | none => .ok gen
  | some o => do
    let g := gen.getD ⟨[], false, noCom⟩
    let oldEntries ← o.elems.foldlM
      (fun (acc : List DictEntry) kv => do
        let (k, v) ← dictEntryKeyValue kv
        if acc.any (fun e => e.key == k) then
          throw ("old dict contains more than one case named " ++ k)
        pure (acc ++ [⟨k, some v, none, none⟩]))
      []
    let entries ← g.elems.foldlM
      (fun (acc : List DictEntry) kv => do
        let (k, v) ← dictEntryKeyValue kv
        if acc.any (fun e => e.key == k) then
          pure (acc.map fun e => if e.key == k then { e with genValue := some v } else e)
        else
          pure (acc ++ [⟨k, none, some v, none⟩]))
      oldEntries
    let entries := entries.map fun e => { e with mergedValue := mergeList e.genValue e.oldValue }
    let haveDefault := entries.any (fun e => e.key == condDefault)
    -- "Keep the default case, even if it's empty."
    let entries := entries.map fun e =>
      if e.key == condDefault && e.mergedValue.isNone then
        { e with mergedValue := some ⟨[], false, noCom⟩ }
      else e
    let keys := entries.filterMap fun e =>
      if e.key ≠ condDefault && e.mergedValue.isSome then some e.key else none
    let defaultElems :=
      ((entries.find? (fun e => e.key == condDefault)).bind (·.mergedValue)).elim [] (·.elems)
    if keys.isEmpty && (!haveDefault || defaultElems.isEmpty) then
      pure none
    else
      let keys := sortStrings keys ++ (if haveDefault then [condDefault] else [])
      let mergedEntries := keys.map fun k =>
        let v := ((entries.find? (fun e => e.key == k)).bind (·.mergedValue)).getD ⟨[], false, noCom⟩
        kvE (stringE k noCom) v.toExpr noCom
      pure (some ⟨mergedEntries, true, noCom⟩)

/-- merger.go `platformStringsExprs`: the decomposition of a mergeable
non-scalar attribute value into an optional plain list and up to three
select dicts (OS-specific, architecture-specific, platform-specific). -/
structure PlatformStringsExprs where
  generic : Option ListX
  os : Option DictX
  arch : Option DictX
  platform : Option DictX

/-- The empty decomposition (all fields nil). -/
def psEmpty : PlatformStringsExprs := ⟨none, none, none, none⟩

/-- Modelled from the spec: `config.KnownOSSet` lives in the config
package, which is not among the provided sources. The spec only says
select keys are classified by OS name; this set lists the usual Go OS
names, which is enough for the classification structure. -/
def knownOS : List String :=
  ["android", "darwin", "dragonfly", "freebsd", "ios", "linux", "netbsd",
   "openbsd", "plan9", "solaris", "windows"]

/-- Modelled from the spec: `config.KnownArchSet`, as for `knownOS`. -/
def knownArch : List String :=
  ["386", "amd64", "arm", "arm64", "mips", "mips64", "ppc64", "s390x"]

/-- Modelled from the spec: `resolve.ParseLabel` is in the resolve
package, which is not among the provided sources. Select keys are labels
such as `@io_bazel_rules_go//go/platform:linux`; the classification in
`extractPlatformStringsExprs` only uses the label's name, which is the
part after the last `:`, or the last `/`-segment when there is no `:`.
(Malformed labels, which `ParseLabel` would reject, are not modelled; the
classification then fails on the unknown name instead.) -/
def labelName (s : String) : String :=
  if s.toList.contains ':' then (splitOnChar ':' s).getLastD s
  else (splitOnChar '/' s).getLastD s

/-- Which select dict slot a key belongs to. -/
inductive DictSlot where
  | osSlot | archSlot | platformSlot

/-- The key-classification loop inside `extractPlatformStringsExprs`:
scan the dict entries, skip the default case, and classify the dict by its
first decisive key; `none` when the dict is empty or default-only.
A non-key-value entry would make the Go code panic on a type assertion
(`kv := item.(*bf.KeyValueExpr)`); that panic is modelled as an error. -/
def classifyDictItems : List Expr → Except String (Option DictSlot)
  | [] => .ok none
  | kvE (stringE k _) _ _ :: rest =>
    if k == condDefault then classifyDictItems rest
    else
      let nm := labelName k
      if knownOS.contains nm then .ok (some .osSlot)
      else if knownArch.contains nm then .ok (some .archSlot)
      else
        match splitOnChar '_' nm with
        | [o, a] =>
          if knownOS.contains o && knownArch.contains a then .ok (some .platformSlot)
          else .error ("expression could not be matched: dict key contains unknown platform: " ++ k)
        | _ => .error ("expression could not be matched: dict key contains unknown platform: " ++ k)
  | kvE _ _ _ :: _ => .error "expression could not be matched: dict keys are not all strings"
  | _ :: _ => .error "panic: dict item is not a key-value pair"

/-- The decomposition of an expression into the parts of a `+` chain, in
the order the Go loop produces them: the right operand of each binary
expression from the outside in, then the innermost left operand. (The Go
loop matches any `*bf.BinaryExpr`, not only `+`.) -/
def exprParts : Expr → List Expr
  | binaryE op x y com =>
    -- the operator and comments of the chain nodes are discarded by the Go code
    let _ := op; let _ := com
    y :: exprParts x
  | e => [e]

/-- Process one part in `extractPlatformStringsExprs`: a list fills the
generic slot, a `select` call fills the dict slot its keys classify to
(the platform slot for an empty or default-only dict), and any other
expression is silently ignored (the Go type switch has no default case). -/
def extractPart (ps : PlatformStringsExprs) (part : Expr) : Except String PlatformStringsExprs :=
  match part with
  | listE es f c =>
    if ps.generic.isSome then
      .error "expression could not be matched: multiple list expressions"
    else .ok { ps with generic := some ⟨es, f, c⟩ }
  | callE (literalE "select" _) [dictE des df dc] _ => do
    let slot ← classifyDictItems des
    -- an unidentified (empty or default-only) dict is called the platform dict
    let slot := slot.getD .platformSlot
    match slot with
    | .osSlot =>
      if ps.os.isSome then
        .error "expression could not be matched: multiple selects that are either os-specific, arch-specific, or platform-specific"
      else .ok { ps with os := some ⟨des, df, dc⟩ }
    | .archSlot =>
      if ps.arch.isSome then
        .error "expression could not be matched: multiple selects that are either os-specific, arch-specific, or platform-specific"
      else .ok { ps with arch := some ⟨des, df, dc⟩ }
    | .platformSlot =>
      if ps.platform.isSome then
        .error "expression could not be matched: multiple selects that are either os-specific, arch-specific, or platform-specific"
      else .ok { ps with platform := some ⟨des, df, dc⟩ }
  | callE _ _ _ =>
    .error "expression could not be matched: callee other than select or wrong number of args"
  | _ => .ok ps

/-- merger.go `extractPlatformStringsExprs`. -/
def extractPlatformStringsExprs (e : Expr) : Except String PlatformStringsExprs :=
  match e with
  | nilE => .ok psEmpty
  | e => (exprParts e).foldlM extractPart psEmpty

/-- The `makeSelect` helper of `makePlatformStringsExpr`: a fresh
`select` call around the dict. -/
def makeSelect (d : DictX) : Expr :=
  callE (literalE "select" noCom) [d.toExpr] noCom

/-- The `forceMultiline` helper of `makePlatformStringsExpr`: set the
`ForceMultiLine` flag of a list, or of the dict argument of a select. -/
def forceML : Expr → Expr
  | listE es _ c => listE es true c
  | callE fn [dictE des _ dc] com => callE fn [dictE des true dc] com
  | e => e

/-- merger.go `makePlatformStringsExpr`: reassemble the four parts into a
single expression (nil when all parts are absent; a lone part is returned
as is; two or more parts are combined with `+` and forced multi-line). -/
def makePlatformStringsExpr (ps : PlatformStringsExprs) : Expr :=
  let parts : List Expr :=
    (ps.generic.map ListX.toExpr).toList ++
    (ps.os.map makeSelect).toList ++
    (ps.arch.map makeSelect).toList ++
    (ps.platform.map makeSelect).toList
  match parts with
  | [] => nilE
  | [p] => p
  | p :: rest => rest.foldl (fun acc part => binaryE "+" acc (forceML part) noCom) (forceML p)

/-- merger.go `mergePlatformStringsExprs`: merge the four parts
independently. -/
def mergePlatformStringsExprs (gen old : PlatformStringsExprs) :
    Except String PlatformStringsExprs := do
  let generic := mergeList gen.generic old.generic
  let os ← mergeDict gen.os old.os
  let arch ← mergeDict gen.arch old.arch
  let platform ← mergeDict gen.platform old.platform
  pure ⟨generic, os, arch, platform⟩

/-- merger.go `mergeExpr`: keep-marked old values win; a nil generated
value against a nil or scalar old value merges to nil; a scalar generated
value wins outright; otherwise both sides are decomposed into
platform-strings shape, merged part-wise, and reassembled. -/
def mergeExpr (gen old : Expr) : Except String Expr :=
  if shouldKeep old then .ok old
  else if isNilE gen && (isNilE old || isScalar old) then
    .ok nilE
  else if isScalar gen then .ok gen
  else do
    let genExprs ← extractPlatformStringsExprs gen
    let oldExprs ← extractPlatformStringsExprs old
    let merged ← mergePlatformStringsExprs genExprs oldExprs
    pure (makePlatformStringsExpr merged)

/-- A merge-log entry: `mergeRule` logs, with the file name, each
attribute whose value shapes could not be merged (`log.Printf("%s:...:
could not merge expression", filename, ...)`); the source logs the
attribute's source span, which the embedding identifies by its key. -/
abbrev LogEntry := String × String

/-- The body of the old-attribute loop of `mergeRule` for one attribute
key `k` with definition `b` (a keyword argument of the old rule):
non-mergeable or keep-marked attributes are preserved verbatim; otherwise
the values are merged, a merge error preserves the old value and logs,
and a nil merged value drops the attribute. -/
def attrStep (attrs : MergeableAttrs) (kind path : String) (gen : Call)
    (k : String) (b : Expr) : Option Expr × List LogEntry :=
  if !(attrs kind k) || shouldKeep b then (some b, [])
  else
    let oldExpr := binY b
    let genExpr := attrVal gen k
    match mergeExpr genExpr oldExpr with
    | .error _ => (some (setY b oldExpr), [(path, k)])
    | .ok m => if isNilE m then (none, []) else (some (setY b m), [])

/-- `bf.Rule.SetAttr` on an argument list: replace the value of the first
keyword argument with the given identifier key, or append a fresh keyword
argument. -/
def setAttrA : List Expr → String → Expr → List Expr
  | [], k, v => [binaryE "=" (literalE k noCom) v noCom]
  | a :: as, k, v =>
    if binKey a == some k then setY a v :: as else a :: setAttrA as k v

/-- The merged-argument contribution of one old attribute key: the
looked-up definition (`AttrDefn`, always found for keys produced by
`AttrKeys`) pushed through `attrStep`; an empty list when the attribute
is dropped. -/
def oldAttrContrib (attrs : MergeableAttrs) (kind path : String) (gen old : Call)
    (k : String) : List Expr :=
  match attrDefn old k with
  | none => []
  | some b => (attrStep attrs kind path gen k b).1.toList

/-- The log contribution of one old attribute key. -/
def oldAttrLog (attrs : MergeableAttrs) (kind path : String) (gen old : Call)
    (k : String) : List LogEntry :=
  match attrDefn old k with
  | none => []
  | some b => (attrStep attrs kind path gen k b).2

/-- One step of the trailing `mergeRule` loop copying generated
attributes that are not yet present (`if mergedRule.Attr(k) == nil {
mergedRule.SetAttr(k, genRule.Attr(k)) }`). -/
def genExtraStep (gen : Call) (as : List Expr) (k : String) : List Expr :=
  if isNilE (attrValA as k) then setAttrA as k (attrVal gen k) else as

/-- The argument list and merge log built by `mergeRule` (before the
`isEmpty` check): unnamed arguments copied from the old rule up to its
first keyword argument, then the old attributes processed in `AttrKeys`
order, then the generated attributes not already present. The merged call
keeps the old rule's callee and comments (`merged := *old`). -/
def mergeRuleCall (gen old : Call) (attrs : MergeableAttrs) (path : String) :
    Call × List LogEntry :=
  let unnamed := old.args.takeWhile (fun a => !isBinEq a)
  let kind := kindOf old
  let st := (attrKeys old).foldl
    (fun (st : List Expr × List LogEntry) k =>
      (st.1 ++ oldAttrContrib attrs kind path gen old k,
       st.2 ++ oldAttrLog attrs kind path gen old k))
    ([], [])
  let finalArgs := (attrKeys gen).foldl (genExtraStep gen) (unnamed ++ st.1)
  (⟨old.fn, finalArgs, old.com⟩, st.2)

/-- merger.go `mergeRule`: a keep-marked old rule is returned unmodified;
otherwise the rule is rebuilt attribute by attribute, and a rule that
merged to only `name`/`visibility` attributes becomes `none` (nil),
telling the caller to delete the statement. -/
def mergeRule (gen old : Call) (attrs : MergeableAttrs) (path : String) :
    Option Call × List LogEntry :=
  if shouldKeep old.toExpr then (some old, [])
  else
    let r := mergeRuleCall gen old attrs path
    (if isEmptyCall r.1 then none else some r.1, r.2)

/-- merger.go `match`, scanning statements with their index. -/
def matchRuleAux (x : Call) : List Expr → Nat → Option (Call × Nat × Bool)
  | [], _ => none
  | s :: rest, i =>
    match s.asCall with
    | none => matchRuleAux x rest (i + 1)
    | some y =>
      if nameOf x == nameOf y then some (y, i, kindOf x == kindOf y)
      else matchRuleAux x rest (i + 1)

/-- merger.go `match`: the first call statement whose `name` attribute
matches, its index, and whether the kinds also match; `none` when no
statement matches by name. -/
def matchRule (stmts : List Expr) (x : Call) : Option (Call × Nat × Bool) :=
  matchRuleAux x stmts 0

/-- A gazelle directive parsed from a comment. -/
structure Directive where
  key : String
  value : String

/-- Modelled from the spec: `config.ParseDirectives` is in the config
package, which is not among the provided sources. Per the source comment
on `shouldIgnore` in merger.go, a directive is a comment of the form
`# gazelle:key value` appearing before or after a top-level statement. -/
def commentDirective (t : String) : Option Directive :=
  let s := stripComment t
  if strStartsWith s "gazelle:" then
    let rest := strDrop s 8
    let parts := splitOnChar ' ' rest
    some ⟨parts.headD "", goTrim (joinSep " " parts.tail)⟩
  else none

/-- A parsed build file (`*bf.File`): source path and top-level
statements. -/
structure BzlFile where
  path : String
  stmts : List Expr

/-- Modelled from the spec (see `commentDirective`): all directives in
comments attached to top-level statements of a file. -/
def fileDirectives (f : BzlFile) : List Directive :=
  f.stmts.foldl
    (fun acc s =>
      let c := commentsOf s
      acc ++ (c.before ++ c.suffix ++ c.after).filterMap commentDirective)
    []

/-- merger.go `shouldIgnore`: whether a `gazelle:ignore` directive appears
on any top-level statement. -/
def shouldIgnoreF (f : BzlFile) : Bool :=
  (fileDirectives f).any (fun d => d.key == "ignore")

/-- The first loop of `MergeFile` applied to one old statement: a call
statement that fully matches (name and kind) a rule of the `empty` list is
merged with it, and dropped when the merge result is nil; all other
statements pass through. -/
def phase1Step (empty : List Expr) (attrs : MergeableAttrs) (path : String)
    (s : Expr) : Option Expr :=
  match s.asCall with
  | some c =>
    match matchRule empty c with
    | some (g, _, true) => ((mergeRule g c attrs path).1).map Call.toExpr
    | _ => some s
  | none => some s

/-- The second loop of `MergeFile`: each generated rule is matched against
the first `oldCount` statements of the current statement list; an
unmatched rule is appended, a fully matched rule is merged in place (the
merge result replaces the statement at the matched index, a nil result
overwriting it with a nil statement), and a name match with a different
kind leaves everything unchanged. Returns the statement list and the
merged-rules list. -/
def phase2 (attrs : MergeableAttrs) (path : String) (oldCount : Nat) :
    List Call → List Expr → List Expr → List Expr × List Expr
  | [], stmts, acc => (stmts, acc)
  | g :: gs, stmts, acc =>
    match matchRule (stmts.take oldCount) g with
    | none => phase2 attrs path oldCount gs (stmts ++ [g.toExpr]) (acc ++ [g.toExpr])
    | some (y, i, true) =>
      let me :=
        match (mergeRule g y attrs path).1 with
        | some c => c.toExpr
        | none => nilE
      phase2 attrs path oldCount gs (stmts.set i me) (acc ++ [me])
    | some (_, _, false) => phase2 attrs path oldCount gs stmts acc

/-- merger.go `MergeFile`. With no old file the generated rules become the
whole document; a file carrying a `gazelle:ignore` directive is returned
as `(none, [])` without merging; otherwise empty rules are merged into the
old statements (first loop) and the generated rules are merged or appended
(second loop). -/
def mergeFile (genRules : List Call) (empty : List Expr)
    (oldFile : Option BzlFile) (attrs : MergeableAttrs) :
    Option BzlFile × List Expr :=
  match oldFile with
  | none => (some ⟨"", genRules.map Call.toExpr⟩, genRules.map Call.toExpr)
  | some f =>
    if shouldIgnoreF f then (none, [])
    else
      let s1 := f.stmts.filterMap (phase1Step empty attrs f.path)
      let r := phase2 attrs f.path s1.length genRules s1 []
      (some ⟨f.path, r.1⟩, r.2)

/-! ## The walk package -/

/-- Segment-level wildcard matching for the doublestar glob library used
by walk/config.go (an external dependency): `*` matches any run of
characters within a segment, `?` a single character. Character classes
are not modelled; the patterns exercised here do not use them. The
explicit fuel makes the backtracking structurally recursive (hence
kernel-computable); every recursive call shrinks `ps.length + cs.length`,
so the fuel provided by `segMatch` is never exhausted. -/
def segMatchFuel : Nat → List Char → List Char → Bool
  | 0, _, _ => false
  | fuel + 1, ps0, cs =>
    match ps0, cs with
    | [], [] => true
    | '*' :: ps, cs =>
      segMatchFuel fuel ps cs ||
        (match cs with
         | [] => false
         | _ :: t => segMatchFuel fuel ('*' :: ps) t)
    | '?' :: ps, _ :: cs => segMatchFuel fuel ps cs
    | c :: ps, c' :: cs => c == c' && segMatchFuel fuel ps cs
    | _, _ => false

/-- Wildcard matching of one path segment. -/
def segMatch (pat seg : String) : Bool :=
  segMatchFuel (pat.toList.length + seg.toList.length + 1) pat.toList seg.toList

/-- Path matching with `**` spanning zero or more segments
(`doublestar.MatchUnvalidated` over already-split segments), fueled like
`segMatchFuel`. -/
def globSegsFuel : Nat → List String → List String → Bool
  | 0, _, _ => false
  | fuel + 1, ps0, segs =>
    match ps0, segs with
    | [], [] => true
    | "**" :: ps, segs =>
      globSegsFuel fuel ps segs ||
        (match segs with
         | [] => false
         | _ :: t => globSegsFuel fuel ("**" :: ps) t)
    | p :: ps, s :: ss => segMatch p s && globSegsFuel fuel ps ss
    | _, _ => false

/-- Glob matching over split path segments. -/
def globSegs (ps segs : List String) : Bool :=
  globSegsFuel (ps.length + segs.length + 1) ps segs

/-- `doublestar.MatchUnvalidated pattern path` restricted to the `*`,
`?`, `**` constructs. -/
def matchGlob (pattern p : String) : Bool :=
  globSegs (splitOnChar '/' pattern) (splitOnChar '/' p)

/-- walk/config.go `matchAnyGlob`. -/
def matchAnyGlob (patterns : List String) (p : String) : Bool :=
  patterns.any (fun x => matchGlob x p)

/-- walk/config.go `checkPathMatchPattern`: validity of a glob pattern.
Every pattern of the modelled doublestar subset is valid, so this is
constantly true (the invalid-pattern-dropped paths are never taken in the
model). -/
def checkPathMatchPattern (_p : String) : Bool := true

/-- walk/config.go `walkConfig`: the per-directory walk configuration
snapshot. -/
structure WalkConfig where
  updateOnly : Bool
  excludes : List String
  ignore : Bool
  follow : List String
  validBuildFileNames : List String

/-- walk/config.go `walkConfig.isExcluded`. -/
def WalkConfig.isExcluded (wc : WalkConfig) (p : String) : Bool :=
  matchAnyGlob wc.excludes p

/-- walk/config.go `walkConfig.shouldFollow`. -/
def WalkConfig.shouldFollow (wc : WalkConfig) (p : String) : Bool :=
  matchAnyGlob wc.follow p

/-- walk/config.go `walkConfig.newChild`: a copy of the parent snapshot
with the ignore flag cleared. -/
def newChild (wc : WalkConfig) : WalkConfig :=
  { wc with ignore := false }

/-- A gazelle directive comment parsed from a build file, as the walk
package sees it (`rule.File.Directives`). -/
structure RuleFile where
  pkg : String
  directives : List Directive

/-- `path.Join` restricted to already-clean slash paths (no `.` or `..`
segments), which is how the walker uses it. -/
def joinPath (a b : String) : String :=
  if a == "" then b else if b == "" then a else a ++ "/" ++ b

/-- One directive application in walk/config.go `readConfig`. The
`generation_mode` fall-through calls `log.Fatalf`, which kills the
process; it is modelled as a no-op since no modelled run reaches it. -/
def readConfigStep (rel : String) (wc : WalkConfig) (d : Directive) : WalkConfig :=
  match d.key with
  | "build_file_name" => { wc with validBuildFileNames := splitOnChar ',' (goTrim d.value) }
  | "generation_mode" =>
    match goTrim d.value with
    | "update_only" => { wc with updateOnly := true }
    | "create_and_update" => { wc with updateOnly := false }
    | _ => wc
  | "exclude" =>
    if checkPathMatchPattern (joinPath rel d.value) then
      { wc with excludes := wc.excludes ++ [joinPath rel d.value] }
    else wc
  | "follow" =>
    if checkPathMatchPattern (joinPath rel d.value) then
      { wc with follow := wc.follow ++ [joinPath rel d.value] }
    else wc
  | "ignore" => { wc with ignore := true }
  | _ => wc

/-- walk/config.go `walkConfig.readConfig`: scan the build file's
directives in order, updating the snapshot. -/
def readConfig (rel : String) (f : Option RuleFile) (wc : WalkConfig) : WalkConfig :=
  match f with
  | none => wc
  | some f => f.directives.foldl (readConfigStep rel) wc

/-- walk.go `Mode`. -/
inductive Mode where
  | visitAllUpdateSubdirs
  | visitAllUpdateDirs
  | updateDirs
  | updateSubdirs
deriving DecidableEq, Repr

/-- walk.go `UpdateFilter`: the mode and the map from relative paths to
"is an explicitly requested directory" (association list standing for the
Go map). -/
structure UpdateFilter where
  mode : Mode
  updateRels : List (String × Bool)

/-- Go map read returning presence: `v, ok := m[k]`. -/
def lookupRel (m : List (String × Bool)) (k : String) : Option Bool :=
  (m.find? (fun kv => kv.1 == k)).map (·.2)

/-- Go map write `m[k] = true` (overwriting). -/
def setRelTrue (m : List (String × Bool)) (k : String) : List (String × Bool) :=
  if (lookupRel m k).isSome then
    m.map (fun kv => if kv.1 == k then (kv.1, true) else kv)
  else m ++ [(k, true)]

/-- The guarded map write `if _, ok := m[k]; !ok { m[k] = false }`. -/
def setRelFalseIfAbsent (m : List (String × Bool)) (k : String) : List (String × Bool) :=
  if (lookupRel m k).isSome then m else m ++ [(k, false)]

/-- Character positions of `/` in a relative path (the successive values
of `next` in the prefix loop of `NewUpdateFilter`; positions are in
characters, which for the ASCII paths handled here coincides with Go's
byte offsets). -/
def slashPositions (s : String) : List Nat :=
  s.toList.enum.filterMap (fun ic => if ic.2 == '/' then some ic.1 else none)

/-- The body of the `NewUpdateFilter` loop for one requested directory:
every proper prefix ending before a `/` is marked false if absent, then
the directory itself is marked true. -/
def addRel (m : List (String × Bool)) (rel : String) : List (String × Bool) :=
  let m := (slashPositions rel).foldl (fun m p => setRelFalseIfAbsent m (strTake rel p)) m
  setRelTrue m rel

/-- walk.go `NewUpdateFilter`, taking the requested directories as
repo-root-relative slash paths (`""` for the root) — the `filepath.Rel`
normalization of the absolute inputs is outside the model. -/
def newUpdateFilter (rels : List String) (mode : Mode) : UpdateFilter :=
  ⟨mode, rels.foldl addRel []⟩

/-- Go map read with default: `u.updateRels[rel]`. -/
def UpdateFilter.relTrue (u : UpdateFilter) (rel : String) : Bool :=
  (lookupRel u.updateRels rel).getD false

/-- Go map presence test: `_, ok := u.updateRels[rel]`. -/
def UpdateFilter.relHas (u : UpdateFilter) (rel : String) : Bool :=
  (lookupRel u.updateRels rel).isSome

/-- walk.go `UpdateFilter.shouldCall`. -/
def UpdateFilter.shouldCall (u : UpdateFilter) (rel : String) (updateParent : Bool) : Bool :=
  match u.mode with
  | .visitAllUpdateSubdirs | .visitAllUpdateDirs => true
  | .updateSubdirs => updateParent || u.relTrue rel
  | .updateDirs => u.relTrue rel

/-- walk.go `UpdateFilter.shouldUpdate`. -/
def UpdateFilter.shouldUpdate (u : UpdateFilter) (rel : String) (updateParent : Bool) : Bool :=
  if (u.mode == .visitAllUpdateSubdirs || u.mode == .updateSubdirs) && updateParent then true
  else u.relTrue rel

/-- walk.go `UpdateFilter.shouldVisit`. -/
def UpdateFilter.shouldVisit (u : UpdateFilter) (rel : String) (updateParent : Bool) : Bool :=
  match u.mode with
  | .visitAllUpdateSubdirs | .visitAllUpdateDirs => true
  | .updateSubdirs => u.relHas rel || updateParent
  | .updateDirs => u.relHas rel

/-- Modelled from the spec: the ignore filter (`newIgnoreFilter`,
`isDirectoryIgnored`, `isFileIgnored` of walk/ignore.go, not among the
provided sources). Per spec §4.1 the bazelignore component matches by
exact path membership; the filter is modelled as two literal path sets. -/
structure IgnoreFilter where
  ignoredDirs : List String
  ignoredFiles : List String

/-- Exact-membership directory ignore test. -/
def IgnoreFilter.isDirectoryIgnored (ig : IgnoreFilter) (p : String) : Bool :=
  ig.ignoredDirs.contains p

/-- Exact-membership file ignore test. -/
def IgnoreFilter.isFileIgnored (ig : IgnoreFilter) (p : String) : Bool :=
  ig.ignoredFiles.contains p

/-- A directory entry of the modelled file system: a subdirectory with
its own entries, or a regular file. `parsed` is the parse result the file
would produce if loaded as a build file. `isSymlink`/`resolves` model
symlink entries and whether `os.Stat` resolves them. -/
inductive FsEntry where
  | dirEnt (name : String) (entries : List FsEntry) (isSymlink resolves : Bool)
  | fileEnt (name : String) (parsed : Except String RuleFile) (isSymlink resolves : Bool)

/-- The base name of an entry. -/
def FsEntry.name : FsEntry → String
  | .dirEnt n _ _ _ => n
  | .fileEnt n _ _ _ => n

/-- Modelled from the spec: `rule.MatchBuildFile` (rule package, not
among the provided sources) — per spec §4.3 step 3, the first name in the
valid build-file-name list that names a regular file among the entries. -/
def findBuildFile : List String → List FsEntry → Option (Except String RuleFile)
  | [], _ => none
  | n :: rest, entries =>
    match entries.findSome?
      (fun e =>
        match e with
        | .fileEnt nm p _ _ => if nm == n then some p else none
        | _ => none) with
    | some p => some p
    | none => findBuildFile rest entries

/-- walk.go `loadBuildFile` (with no alternate read directory
configured): locate and parse the build file; a parse failure yields no
file and an error flag. -/
def loadBuildFileF (wc : WalkConfig) (entries : List FsEntry) :
    Option RuleFile × Bool :=
  match findBuildFile wc.validBuildFileNames entries with
  | none => (none, false)
  | some (.ok f) => (some f, false)
  | some (.error _) => (none, true)

/-- walk.go `shouldFollow` for one entry: non-symlinks are always
followed; symlinks only when the directory's follow patterns match the
containing directory and the link resolves. -/
def shouldFollowEnt (wc : WalkConfig) (rel : String) (isSymlink resolves : Bool) : Bool :=
  if !isSymlink then true
  else if !(wc.shouldFollow rel) then false
  else resolves

/-- walk.go `pathTrie`: one node of the directory trie. -/
inductive PathTrie where
  | mk (rel : String) (files : List String) (children : List PathTrie)
       (wc : WalkConfig) (build : Option RuleFile) (buildErr : Bool)

/-- The node's relative path. -/
def PathTrie.rel : PathTrie → String
  | .mk r _ _ _ _ _ => r

/-- The node's collected file names. -/
def PathTrie.files : PathTrie → List String
  | .mk _ f _ _ _ _ => f

/-- The node's child nodes. -/
def PathTrie.children : PathTrie → List PathTrie
  | .mk _ _ c _ _ _ => c

/-- The node's configuration snapshot. -/
def PathTrie.wc : PathTrie → WalkConfig
  | .mk _ _ _ w _ _ => w

/-- The outcome of `walkDir` for one directory, with the side effects on
the parent node made explicit: `made t selfExcluded` means a new trie
node was created (`selfExcluded` meaning the directory excluded itself,
so the node was returned but not added to the parent and its entries were
never processed); `absorbed children files` means no node was created
(update-only mode without a build file) and the directory's eligible
children and prefixed files are contributed to the nearest ancestor
node. -/
inductive WalkOut where
  | made (t : PathTrie) (selfExcluded : Bool)
  | absorbed (children : List PathTrie) (files : List String)

mutual

/-- walk.go `walkDir` (the concurrent spawning is flattened into direct
recursion; the spawned tasks only ever touch their own subtree, and the
per-node results are deterministic). `nodeRel` is the relative path of
the nearest ancestor trie node (`trie.rel` in the Go code). The Go call
`wc.newChild(rel, build)` creates the child snapshot and applies the
build file's directives; its directive part is `readConfig` from
walk/config.go, composed here with the provided `newChild` as the spec
describes (§4.2). -/
def walkDirF (uf : UpdateFilter) (ig : IgnoreFilter) (isRoot : Bool)
    (parentWc : WalkConfig) (nodeRel rel : String) (entries : List FsEntry) : WalkOut :=
  let bld := loadBuildFileF parentWc entries
  if isRoot || bld.1.isSome || bld.2 || !parentWc.updateOnly then
    let wc := readConfig rel bld.1 (newChild parentWc)
    -- Check if a BUILD excluded itself: only when the new config has
    -- additional excludes (always checked at the root).
    if (isRoot || parentWc.excludes.length < wc.excludes.length) && wc.isExcluded rel then
      .made (.mk rel [] [] wc bld.1 bld.2) true
    else
      let cf := loadEntriesF uf ig wc rel rel entries
      .made (.mk rel cf.2 cf.1 wc bld.1 bld.2) false
  else
    let cf := loadEntriesF uf ig parentWc nodeRel rel entries
    .absorbed cf.1 cf.2

/-- walk.go `pathTrie.loadEntries`: filter and collect the files of a
directory (prefixed relative to the owning node) and recurse into its
eligible subdirectories. -/
def loadEntriesF (uf : UpdateFilter) (ig : IgnoreFilter) (wc : WalkConfig)
    (nodeRel rel : String) (entries : List FsEntry) : List PathTrie × List String :=
  match entries with
  | [] => ([], [])
  | e :: rest =>
    let buildRel := if rel == nodeRel then "" else strDrop rel (nodeRel.toList.length + 1)
    let this : List PathTrie × List String :=
      if e.name == "" || e.name == ".git" then ([], [])
      else
        match e with
        | .dirEnt nm sub sym res =>
          let entryPath := joinPath rel nm
          if !(uf.shouldVisit entryPath true) then ([], [])
          else if ig.isDirectoryIgnored entryPath then ([], [])
          else if wc.isExcluded entryPath then ([], [])
          else if shouldFollowEnt wc rel sym res then
            match walkDirF uf ig false wc nodeRel entryPath sub with
            | .made t false => ([t], [])
            | .made _ true => ([], [])
            | .absorbed cs fs => (cs, fs)
          else ([], [])
        | .fileEnt nm _ sym res =>
          let entryPath := joinPath rel nm
          if ig.isFileIgnored entryPath then ([], [])
          else if wc.isExcluded entryPath then ([], [])
          else if shouldFollowEnt wc rel sym res then ([], [joinPath buildRel nm])
          else ([], [])
    let tail := loadEntriesF uf ig wc nodeRel rel rest
    (this.1 ++ tail.1, this.2 ++ tail.2)

end

/-! ## Definitions supporting the claim statements and witnesses -/

/-- The elements of a possibly-nil list expression. -/
def elemsOfOpt : Option ListX → List Expr
  | none => []
  | some l => l.elems

/-- The generated elements seen by `mergeList` (a nil generated list acts
as an empty one). -/
def genElems (gen : Option ListX) : List Expr := (gen.getD ⟨[], false, noCom⟩).elems

/-- The string value an element contributes to the `genSet`/`kept` maps
(`if s := stringValue(v); s != ""`). -/
def nonemptyVal (v : Expr) : Option String :=
  if stringValue v ≠ "" then some (stringValue v) else none

/-- The contents of `mergeList`'s `genSet` map. -/
def genStrs (gen : Option ListX) : List String := (genElems gen).filterMap nonemptyVal

/-- The old elements `mergeList` keeps: those with a keep marker or whose
string value occurs in the generated list. -/
def keptOld (gen : Option ListX) (o : ListX) : List Expr :=
  o.elems.filter (fun v => shouldKeep v || (genStrs gen).contains (stringValue v))

/-- The contents of `mergeList`'s `kept` map. -/
def keptStrs (gen : Option ListX) (o : ListX) : List String :=
  (keptOld gen o).filterMap nonemptyVal

/-- A concrete document carrying `# gazelle:ignore` on a statement. -/
def ignoredFile : BzlFile :=
  ⟨"pkg/BUILD", [callE (literalE "x" noCom) [] ⟨["# gazelle:ignore"], [], []⟩]⟩

/-- The build file of the C7 witness: it adds an exclude that matches its
own directory. -/
def selfExBuild : RuleFile := ⟨"a", [⟨"exclude", "**"⟩]⟩

/-- The directory contents of the C7 witness. -/
def selfExEntries : List FsEntry :=
  [.fileEnt "BUILD" (.ok selfExBuild) false false,
   .fileEnt "x.go" (.error "not a build file") false false,
   .dirEnt "sub" [.fileEnt "y.go" (.error "not a build file") false false] false false]

/-- The parent configuration of the C7 witness. -/
def rootWalkConfig : WalkConfig := ⟨false, [], false, [], ["BUILD.bazel", "BUILD"]⟩

/-- A comment-free string literal. -/
def strX (s : String) : Expr := stringE s noCom

/-- A comment-free identifier. -/
def litX (s : String) : Expr := literalE s noCom

/-- A comment-free keyword argument with an identifier key. -/
def kwX (k : String) (v : Expr) : Expr := binaryE "=" (literalE k noCom) v noCom

/-- Whether an `Except` result is an error. -/
def isErrE (e : Except String Expr) : Bool :=
  match e with
  | .error _ => true
  | .ok _ => false

/-- C3 counterexample: a generated `go_library` named `x`. -/
def c3gen : Call :=
  ⟨litX "go_library", [kwX "name" (strX "x"), kwX "srcs" (listE [strX "a"] false noCom)], noCom⟩

/-- C3 counterexample: an existing `go_binary` with the same name `x`. -/
def c3old : Call := ⟨litX "go_binary", [kwX "name" (strX "x")], noCom⟩

/-- C3 counterexample: `srcs` is mergeable on both kinds. -/
def c3attrs : MergeableAttrs :=
  fun kind k => (kind == "go_library" || kind == "go_binary") && k == "srcs"

/-- C5 witness: the empty rule for `x`. -/
def c5empty : Call := ⟨litX "go_library", [kwX "name" (strX "x")], noCom⟩

/-- C5 witness: the existing rule for `x`, with only a mergeable `srcs`. -/
def c5old : Call :=
  ⟨litX "go_library",
   [kwX "name" (strX "x"), kwX "srcs" (listE [strX "dead.go"] false noCom)], noCom⟩

/-- C5 witness attribute table. -/
def c5attrs : MergeableAttrs := fun kind k => kind == "go_library" && k == "srcs"

/-- C8 witness: an existing attribute value of unrecognized shape (two
plain lists added together). -/
def c8bad : Expr :=
  binaryE "+" (listE [strX "a"] false noCom) (listE [strX "b"] false noCom) noCom

/-- C8 witness: the existing rule, with the bad `copts` value and a good
`srcs` value. -/
def c8old : Call :=
  ⟨litX "go_library",
   [kwX "name" (strX "x"), kwX "copts" c8bad,
    kwX "srcs" (listE [strX "s.go"] false noCom)], noCom⟩

/-- C8 witness: the generated rule. -/
def c8gen : Call :=
  ⟨litX "go_library",
   [kwX "name" (strX "x"), kwX "copts" (listE [strX "c"] false noCom),
    kwX "srcs" (listE [strX "s.go", strX "t.go"] false noCom)], noCom⟩

/-- C8 witness attribute table. -/
def c8attrs : MergeableAttrs :=
  fun kind k => kind == "go_library" && (k == "copts" || k == "srcs")

/-- C10 witness: the existing rule with a scalar `importpath`. -/
def c10old : Call :=
  ⟨litX "go_library",
   [kwX "name" (strX "x"), kwX "importpath" (strX "old/path"),
    kwX "srcs" (listE [strX "a"] false noCom)], noCom⟩

/-- C10 witness: the generated rule without `importpath`. -/
def c10gen : Call :=
  ⟨litX "go_library", [kwX "name" (strX "x"), kwX "srcs" (listE [strX "a"] false noCom)], noCom⟩

/-- C10 witness attribute table. -/
def c10attrs : MergeableAttrs :=
  fun kind k => kind == "go_library" && (k == "srcs" || k == "importpath")

/-- C10 witness: the expected merged rule, with `importpath` removed. -/
def c10merged : Call :=
  ⟨litX "go_library", [kwX "name" (strX "x"), kwX "srcs" (listE [strX "a"] false noCom)], noCom⟩

/-! ### Definitions for the idempotence analysis (C2)

The predicates below carve out the canonical form of generator output:
comment-free calls whose arguments are positional arguments followed by
keyword attributes with distinct identifier keys, each value a scalar or
a comment-free, non-empty list of non-empty string literals without keep
markers. `oldCallOK` restricts existing rules to attribute values whose
shape analysis yields no select dicts (plain lists, scalars, absent or
unrecognized-shape values), with non-nil values. -/

/-- An empty comment set, as a test. -/
def cleanCom (c : Comments) : Bool :=
  c.before.isEmpty && c.suffix.isEmpty && c.after.isEmpty

/-- A generated list element: a non-empty string literal with no keep
marker. -/
def genElemOK (e : Expr) : Bool :=
  match e with
  | stringE v com => v != "" && !hasKeep com
  | _ => false

/-- A generated attribute value: a scalar, or a comment-free non-empty
list of `genElemOK` elements. -/
def genValOK (v : Expr) : Bool :=
  isScalar v ||
    (match v with
     | listE elems _ com => !elems.isEmpty && elems.all genElemOK && cleanCom com
     | _ => false)

/-- A generated value or the nil expression. -/
def genValOrNil (v : Expr) : Bool := isNilE v || genValOK v

/-- Distinctness of a key list. -/
def nodupStr : List String → Bool
  | [] => true
  | x :: l => !(l.contains x) && nodupStr l

/-- Canonical argument shape: positional arguments, then keyword
arguments with identifier keys only. -/
def argsShapeOK (args : List Expr) : Bool :=
  (args.dropWhile (fun a => !isBinEq a)).all (fun a => isBinEq a && (binKey a).isSome)

/-- A canonical generated or empty call. -/
def genCallOK (c : Call) : Bool :=
  cleanCom c.com && argsShapeOK c.args && nodupStr (attrKeys c) &&
    (attrKeys c).all (fun k => genValOK (attrVal c k))

/-- A canonical generated rule: additionally has an attribute other than
`name`/`visibility` (so its merge never collapses to the empty signal). -/
def genRuleOK (c : Call) : Bool :=
  genCallOK c && (attrKeys c).any (fun k => k != "name" && k != "visibility")

/-- An existing attribute value whose shape analysis yields no select
dict (it is select-free, or fails shape matching and is preserved). -/
def oldValOK (w : Expr) : Bool :=
  match extractPlatformStringsExprs w with
  | .error _ => true
  | .ok ps => ps.os.isNone && ps.arch.isNone && ps.platform.isNone

/-- An existing rule in the fragment covered by the amended idempotence
claim (keep-marked rules are untouched and hence unconstrained). -/
def oldCallOK (attrs : MergeableAttrs) (c : Call) : Bool :=
  shouldKeep c.toExpr ||
    (attrKeys c).all (fun k =>
      match attrDefn c k with
      | none => true
      | some b =>
        !(isNilE (binY b)) &&
          (!(attrs (kindOf c) k) || shouldKeep b || oldValOK (binY b)))

/-- `oldCallOK` lifted to statements. -/
def stmtOK (attrs : MergeableAttrs) (s : Expr) : Bool :=
  match s.asCall with
  | none => true
  | some c => oldCallOK attrs c

/-- Whether a statement's comments carry a `gazelle:ignore` directive. -/
def stmtHasIgnoreDir (s : Expr) : Bool :=
  ((((commentsOf s).before ++ (commentsOf s).suffix) ++ (commentsOf s).after).filterMap
    commentDirective).any (fun d => d.key == "ignore")

/-- C2 counterexample: generated rule whose `srcs` mixes an identifier
and a string. -/
def c2gen : Call :=
  ⟨litX "foo",
   [kwX "name" (strX "x"), kwX "srcs" (listE [litX "L", strX "a"] false noCom)], noCom⟩

/-- C2 counterexample: the existing rule. -/
def c2old : Call :=
  ⟨litX "foo", [kwX "name" (strX "x"), kwX "srcs" (listE [strX "b"] false noCom)], noCom⟩

/-- C2 counterexample: attribute table. -/
def c2attrs : MergeableAttrs := fun kind k => kind == "foo" && k == "srcs"

/-- C2 counterexample: the existing document. -/
def c2doc : BzlFile := ⟨"BUILD", [c2old.toExpr]⟩

/-- Well-formed argument lists: every keyword argument with an identifier
key has a non-nil value (build files produced by the parser or by the
merger always satisfy this). -/
def wfArgs (as : List Expr) : Bool :=
  as.all (fun a => (binKey a).isNone || !(isNilE (binY a)))

/-- The keyword arguments appended by the trailing generated-attribute
loop of `mergeRule`, tracked explicitly: one fresh `k = genValue` argument
per generated key not yet bound in the argument list. -/
def extrasArgs (gen : Call) : List Expr → List String → List Expr
  | _, [] => []
  | as, k :: ks =>
    if isNilE (attrValA as k) then
      binaryE "=" (literalE k noCom) (attrVal gen k) noCom ::
        extrasArgs gen (as ++ [binaryE "=" (literalE k noCom) (attrVal gen k) noCom]) ks
    else extrasArgs gen as ks

/-- The name and kind of a call statement, `none` for non-call statements
(the only data `match` inspects). -/
def stmtKey (s : Expr) : Option (String × String) :=
  (Expr.asCall s).map (fun c => (nameOf c, kindOf c))

/-- Whether a statement is not a call with the same name as `g`. -/
def nameDisjoint (g : Call) (s : Expr) : Bool :=
  match s.asCall with
  | none => true
  | some e => !(nameOf e == nameOf g)

/-- Canonical-form condition on the statements of the empty-rules list. -/
def emptyStmtOK (s : Expr) : Bool :=
  match s.asCall with
  | none => true
  | some e => genCallOK e

/-- C2 witness: a canonical generated rule. -/
def c2wGen : Call :=
  ⟨litX "foo",
   [kwX "name" (strX "x"), kwX "srcs" (listE [strX "a"] false noCom)], noCom⟩

/-- C2 witness: the existing document, holding the same rule. -/
def c2wDoc : BzlFile := ⟨"BUILD", [c2wGen.toExpr]⟩

/-- The string values of every `srcs` attribute of a document, used to
distinguish two merge outputs. -/
def srcsProfile (f : Option BzlFile) : List String :=
  match f with
  | some fl =>
    fl.stmts.foldl
      (fun acc s =>
        match s.asCall with
        | some c =>
          match attrVal c "srcs" with
          | listE es _ _ => acc ++ es.map stringValue
          | _ => acc
        | none => acc)
      []
  | none => []

/-! ## Lemmas about the update filter -/

theorem lookupRel_append_left {m : List (String × Bool)} {k : String} {v : Bool}
    (h : lookupRel m k = some v) (l : List (String × Bool)) :
    lookupRel (m ++ l) k = some v := by
  induction m with
  | nil => simp [lookupRel] at h
  | cons kv rest ih =>
    simp only [lookupRel, List.find?] at h ⊢
    cases hkv : (kv.1 == k) with
    | true => simpa [hkv] using h
    | false =>
      simp only [hkv] at h ⊢
      exact ih h

theorem lookupRel_none_append {m : List (String × Bool)} {k : String}
    (h : lookupRel m k = none) (l : List (String × Bool)) :
    lookupRel (m ++ l) k = lookupRel l k := by
  induction m with
  | nil => simp
  | cons kv rest ih =>
    simp only [lookupRel, List.find?] at h ⊢
    cases hkv : (kv.1 == k) with
    | true => simp [hkv] at h
    | false =>
      simp only [hkv] at h ⊢
      exact ih h

theorem lookupRel_mapSet_self {m : List (String × Bool)} {k : String}
    (h : (lookupRel m k).isSome = true) :
    lookupRel (m.map (fun kv => if kv.1 == k then (kv.1, true) else kv)) k = some true := by
  induction m with
  | nil => simp [lookupRel] at h
  | cons kv rest ih =>
    simp only [lookupRel, List.find?, List.map_cons] at h ⊢
    cases hkv : (kv.1 == k) with
    | true => simp [List.find?, hkv]
    | false =>
      simp only [hkv, Bool.false_eq_true, if_false, List.find?, hkv] at h ⊢
      exact ih h

theorem lookupRel_mapSet_preserve {m : List (String × Bool)} {k : String}
    (h : lookupRel m k = some true) (k' : String) :
    lookupRel (m.map (fun kv => if kv.1 == k' then (kv.1, true) else kv)) k = some true := by
  induction m with
  | nil => simp [lookupRel] at h
  | cons kv rest ih =>
    simp only [lookupRel, List.find?, List.map_cons] at h ⊢
    cases hkv : (kv.1 == k) with
    | true =>
      simp only [hkv] at h
      have hv : kv.2 = true := by simpa using h
      cases hkk : (kv.1 == k') with
      | true => simp [List.find?, hkk, hkv]
      | false => simp [List.find?, hkk, hkv, hv]
    | false =>
      simp only [hkv] at h
      cases hkk : (kv.1 == k') with
      | true =>
        simp only [hkk, if_true, List.find?, hkv]
        exact ih h
      | false =>
        simp only [hkk, Bool.false_eq_true, if_false, List.find?, hkv]
        exact ih h

theorem lookupRel_setRelTrue_self (m : List (String × Bool)) (k : String) :
    lookupRel (setRelTrue m k) k = some true := by
  unfold setRelTrue
  cases hs : (lookupRel m k).isSome with
  | false =>
    simp only [hs, Bool.false_eq_true, if_false]
    have hnone : lookupRel m k = none := by
      cases h : lookupRel m k with
      | none => rfl
      | some v => rw [h] at hs; simp at hs
    rw [lookupRel_none_append hnone]
    simp [lookupRel, List.find?]
  | true =>
    simp only [hs, if_true]
    exact lookupRel_mapSet_self hs

theorem lookupRel_setRelTrue_preserve {m : List (String × Bool)} {k : String}
    (h : lookupRel m k = some true) (k' : String) :
    lookupRel (setRelTrue m k') k = some true := by
  unfold setRelTrue
  cases hs : (lookupRel m k').isSome with
  | false => simpa [hs] using lookupRel_append_left h _
  | true =>
    simp only [hs, if_true]
    exact lookupRel_mapSet_preserve h k'

theorem lookupRel_setRelFalseIfAbsent_preserve {m : List (String × Bool)} {k : String}
    (h : lookupRel m k = some true) (k' : String) :
    lookupRel (setRelFalseIfAbsent m k') k = some true := by
  unfold setRelFalseIfAbsent
  cases hs : (lookupRel m k').isSome with
  | true => simpa [hs] using h
  | false => simpa [hs] using lookupRel_append_left h _

theorem lookupRel_addRel_preserve {m : List (String × Bool)} {k : String}
    (h : lookupRel m k = some true) (rel : String) :
    lookupRel (addRel m rel) k = some true := by
  unfold addRel
  apply lookupRel_setRelTrue_preserve
  generalize slashPositions rel = ps
  induction ps generalizing m with
  | nil => simpa using h
  | cons p rest ih =>
    simp only [List.foldl_cons]
    exact ih (lookupRel_setRelFalseIfAbsent_preserve h _)

theorem lookupRel_addRel_self (m : List (String × Bool)) (rel : String) :
    lookupRel (addRel m rel) rel = some true :=
  lookupRel_setRelTrue_self _ _

theorem lookupRel_foldl_addRel {rels : List String} {rel : String}
    (m : List (String × Bool))
    (h : lookupRel m rel = some true ∨ rel ∈ rels) :
    lookupRel (rels.foldl addRel m) rel = some true := by
  induction rels generalizing m with
  | nil =>
    rcases h with h | h
    · simpa using h
    · cases h
  | cons r rest ih =>
    simp only [List.foldl_cons]
    rcases h with h | h
    · exact ih _ (Or.inl (lookupRel_addRel_preserve h r))
    · rcases List.mem_cons.mp h with h | h
      · subst h
        exact ih _ (Or.inl (lookupRel_addRel_self m rel))
      · exact ih _ (Or.inr h)

/-- In any filter, an explicitly requested directory maps to `true`. -/
theorem requested_relTrue {rels : List String} {rel : String} (mode : Mode)
    (h : rel ∈ rels) :
    lookupRel (newUpdateFilter rels mode).updateRels rel = some true :=
  lookupRel_foldl_addRel [] (Or.inr h)

theorem shouldVisit_of_true {u : UpdateFilter} {rel : String}
    (hh : u.relHas rel = true) (b : Bool) : u.shouldVisit rel b = true := by
  obtain ⟨mo, m⟩ := u
  cases mo <;> simp_all [UpdateFilter.shouldVisit]

theorem shouldUpdate_of_true {u : UpdateFilter} {rel : String}
    (ht : u.relTrue rel = true) (b : Bool) : u.shouldUpdate rel b = true := by
  unfold UpdateFilter.shouldUpdate
  split <;> simp [ht]

theorem shouldCall_of_true {u : UpdateFilter} {rel : String}
    (ht : u.relTrue rel = true) (b : Bool) : u.shouldCall rel b = true := by
  obtain ⟨mo, m⟩ := u
  cases mo <;> simp_all [UpdateFilter.shouldCall]

/-! ## Claim C6: the update-scope filter truth table -/

/-- C6: for every walk mode and every directory `rel` explicitly requested
when the UpdateFilter was built, `shouldVisit rel _`, `shouldUpdate rel _`
and `shouldCall rel _` all return true regardless of the inherited
updateParent flag; and in UpdateDirsMode with requested directory `a/b`,
`shouldUpdate` and `shouldCall` are false for the proper ancestor `a` and
`shouldVisit` is false for the non-requested sibling `a/c`. -/
theorem claim_C6_update_filter :
    (∀ (rels : List String) (mode : Mode) (rel : String) (b : Bool), rel ∈ rels →
      (newUpdateFilter rels mode).shouldVisit rel b = true ∧
      (newUpdateFilter rels mode).shouldUpdate rel b = true ∧
      (newUpdateFilter rels mode).shouldCall rel b = true) ∧
    (∀ b : Bool,
      (newUpdateFilter ["a/b"] .updateDirs).shouldUpdate "a" b = false ∧
      (newUpdateFilter ["a/b"] .updateDirs).shouldCall "a" b = false ∧
      (newUpdateFilter ["a/b"] .updateDirs).shouldVisit "a/c" b = false) := by
  constructor
  · intro rels mode rel b h
    have ht := @requested_relTrue rels rel mode h
    have htr : (newUpdateFilter rels mode).relTrue rel = true := by
      simp [UpdateFilter.relTrue, ht]
    have hh : (newUpdateFilter rels mode).relHas rel = true := by
      simp [UpdateFilter.relHas, ht]
    exact ⟨shouldVisit_of_true hh b, shouldUpdate_of_true htr b, shouldCall_of_true htr b⟩
  · intro b
    cases b <;> exact ⟨by decide, by decide, by decide⟩

/-- Witness for C6 at the concrete filter from the spec scenario. -/
theorem claim_C6_witness :
    ("a/b" ∈ ["a/b"] ∧
      (newUpdateFilter ["a/b"] Mode.updateDirs).shouldVisit "a/b" false = true ∧
      (newUpdateFilter ["a/b"] Mode.updateDirs).shouldUpdate "a/b" false = true ∧
      (newUpdateFilter ["a/b"] Mode.updateDirs).shouldCall "a/b" false = true) ∧
    (newUpdateFilter ["a/b"] Mode.updateDirs).shouldCall "a" true = false :=
  ⟨⟨by decide, claim_C6_update_filter.1 ["a/b"] .updateDirs "a/b" false (by decide)⟩,
   (claim_C6_update_filter.2 true).2.1⟩

/-! ## Claim C9: `newChild` clears the ignore flag and copies the rest -/

/-- C9: the child snapshot produced by `newChild` has the
"ignore this directory" flag cleared regardless of the parent's flag,
and all other fields are copied from the parent. -/
theorem claim_C9_newChild (wc : WalkConfig) :
    (newChild wc).ignore = false ∧
    (newChild wc).updateOnly = wc.updateOnly ∧
    (newChild wc).excludes = wc.excludes ∧
    (newChild wc).follow = wc.follow ∧
    (newChild wc).validBuildFileNames = wc.validBuildFileNames :=
  ⟨rfl, rfl, rfl, rfl, rfl⟩

/-! ## Claim C4: a `gazelle:ignore` file skips the merge -/

/-- C4: when the existing document carries a file-level ignore directive,
`MergeFile` skips the merge entirely and returns the distinct signal
`(none, [])` (leaving the existing document untouched), while every
non-ignored merge returns a proper document — so the nil result is
distinguishable from any normal merge. -/
theorem claim_C4_ignore_skip :
    (∀ gen empty D attrs, shouldIgnoreF D = true →
      mergeFile gen empty (some D) attrs = (none, [])) ∧
    (∀ gen empty D attrs, shouldIgnoreF D = false →
      (mergeFile gen empty (some D) attrs).1 =
        some ⟨D.path,
          (phase2 attrs D.path (D.stmts.filterMap (phase1Step empty attrs D.path)).length
            gen (D.stmts.filterMap (phase1Step empty attrs D.path)) []).1⟩) := by
  constructor
  · intro gen empty D attrs h
    simp [mergeFile, h]
  · intro gen empty D attrs h
    simp [mergeFile, h]

/-- Witness for C4: the ignored document is skipped. -/
theorem claim_C4_witness :
    shouldIgnoreF ignoredFile = true ∧
    mergeFile [] [] (some ignoredFile) (fun _ _ => false) = (none, []) :=
  ⟨by decide, claim_C4_ignore_skip.1 [] [] ignoredFile (fun _ _ => false) (by decide)⟩

/-! ## Claim C7: a directory that excludes itself keeps its node but
nothing under it -/

/-- C7: when a directory's own build file extends the exclude list beyond
the parent's and the directory's own relative path matches the updated
excludes, `walkDir` keeps the directory's node (returned to the caller,
self-excluded, hence not added to the parent) but recurses into no
children and collects no files. -/
theorem claim_C7_self_exclusion
    (uf : UpdateFilter) (ig : IgnoreFilter) (parentWc : WalkConfig)
    (nodeRel rel : String) (entries : List FsEntry)
    (hnode : ((loadBuildFileF parentWc entries).1.isSome ||
              (loadBuildFileF parentWc entries).2 ||
              !parentWc.updateOnly) = true)
    (hgrow : parentWc.excludes.length <
      (readConfig rel (loadBuildFileF parentWc entries).1 (newChild parentWc)).excludes.length)
    (hex : (readConfig rel (loadBuildFileF parentWc entries).1
      (newChild parentWc)).isExcluded rel = true) :
    walkDirF uf ig false parentWc nodeRel rel entries =
      .made (.mk rel [] []
          (readConfig rel (loadBuildFileF parentWc entries).1 (newChild parentWc))
          (loadBuildFileF parentWc entries).1 (loadBuildFileF parentWc entries).2)
        true := by
  unfold walkDirF
  simp only [Bool.false_or, hnode, if_true]
  simp [hgrow, hex]

/-- Witness for C7: a directory `a` whose build file declares
`# gazelle:exclude **` excludes itself; its node survives with no
children and no files. -/
theorem claim_C7_witness :
    walkDirF (newUpdateFilter [""] .visitAllUpdateSubdirs) ⟨[], []⟩ false
        rootWalkConfig "" "a" selfExEntries =
      .made (.mk "a" [] []
          (readConfig "a" (loadBuildFileF rootWalkConfig selfExEntries).1
            (newChild rootWalkConfig))
          (loadBuildFileF rootWalkConfig selfExEntries).1
          (loadBuildFileF rootWalkConfig selfExEntries).2)
        true :=
  claim_C7_self_exclusion _ _ _ _ _ _ (by decide) (by decide) (by decide)

/-! ## Claim C1: the list-merge contract -/

theorem foldl_genSet (l : List Expr) (acc : List String) :
    l.foldl (fun s v => if stringValue v ≠ "" then s ++ [stringValue v] else s) acc =
      acc ++ l.filterMap nonemptyVal := by
  induction l generalizing acc with
  | nil => simp
  | cons v rest ih =>
    rw [List.foldl_cons]
    by_cases h : stringValue v = ""
    · rw [if_neg (by simp [h]), ih]
      simp [List.filterMap_cons, nonemptyVal, h]
    · rw [if_pos h, ih]
      simp [List.filterMap_cons, nonemptyVal, h]

theorem foldl_oldLoop (gs : List String) (l : List Expr)
    (m : List Expr) (kept : List String) (kc : Bool) :
    l.foldl
      (fun (st : List Expr × List String × Bool) v =>
        if shouldKeep v || gs.contains (stringValue v) then
          (st.1 ++ [v],
           if stringValue v ≠ "" then st.2.1 ++ [stringValue v] else st.2.1,
           st.2.2 || shouldKeep v)
        else st)
      (m, kept, kc) =
    (m ++ l.filter (fun v => shouldKeep v || gs.contains (stringValue v)),
     kept ++ (l.filter (fun v => shouldKeep v || gs.contains (stringValue v))).filterMap nonemptyVal,
     kc || (l.filter (fun v => shouldKeep v || gs.contains (stringValue v))).any shouldKeep) := by
  induction l generalizing m kept kc with
  | nil => simp
  | cons v rest ih =>
    rw [List.foldl_cons]
    by_cases h : (shouldKeep v || gs.contains (stringValue v)) = true
    · rw [h]
      simp only [eq_self_iff_true, if_true]
      rw [ih, List.filter_cons, h]
      simp only [if_true, Prod.mk.injEq]
      refine ⟨?_, ?_, ?_⟩
      · simp
      · simp only [List.filterMap_cons, nonemptyVal]
        by_cases hv : stringValue v = "" <;> simp [hv]
      · simp [Bool.or_assoc]
    · have h' : (shouldKeep v || gs.contains (stringValue v)) = false := by
        simpa using h
      rw [if_neg h, ih]
      simp only [List.filter_cons, h', Bool.false_eq_true, if_false]

/-- The result of `mergeList` against a non-nil old list, in closed form:
the kept old elements followed by the generated elements whose value was
not kept, with the multi-line flag ored and an empty result collapsing to
nil. -/
theorem mergeList_eq (gen : Option ListX) (o : ListX) :
    mergeList gen (some o) =
      (if (keptOld gen o ++
            (genElems gen).filter (fun v => !((keptStrs gen o).contains (stringValue v)))).isEmpty
       then none
       else some ⟨keptOld gen o ++
            (genElems gen).filter (fun v => !((keptStrs gen o).contains (stringValue v))),
          (gen.getD ⟨[], false, noCom⟩).fml || o.fml || (keptOld gen o).any shouldKeep,
          noCom⟩) := by
  simp only [mergeList]
  rw [foldl_genSet, foldl_oldLoop]
  simp only [List.nil_append]
  rfl

/-- The element list of a `mergeList` result, in closed form (also valid
in the nil case, where both sides are empty). -/
theorem mergeList_elems (gen : Option ListX) (o : ListX) :
    elemsOfOpt (mergeList gen (some o)) =
      keptOld gen o ++
        (genElems gen).filter (fun v => !((keptStrs gen o).contains (stringValue v))) := by
  rw [mergeList_eq]
  split
  · next h => simp only [elemsOfOpt]; exact (List.isEmpty_iff.mp h).symm
  · rfl

/-- C1: every element of the existing list that is either present in the
generated list or carries a keep marker appears in the merged list, in
its original relative order and with its attached comments unchanged
(the kept elements are exactly `keptOld`, a filter of the old elements,
preserved verbatim), and every generated element not already kept is
appended after them in generated order; in particular a keep-marked
existing element appears in the output even when it is absent from the
generated input. -/
theorem claim_C1_mergeList_keeps (gen : Option ListX) (o : ListX) :
    (elemsOfOpt (mergeList gen (some o)) =
      o.elems.filter (fun v => shouldKeep v || (genStrs gen).contains (stringValue v)) ++
        (genElems gen).filter (fun v => !((keptStrs gen o).contains (stringValue v)))) ∧
    (∀ v ∈ o.elems, shouldKeep v = true → v ∈ elemsOfOpt (mergeList gen (some o))) := by
  have he := mergeList_elems gen o
  constructor
  · exact he
  · intro v hv hk
    rw [he]
    refine List.mem_append_left _ ?_
    exact List.mem_filter.mpr ⟨hv, by simp [hk]⟩

/-- Witness for C1: a keep-marked element `"k"` absent from the generated
list `["a"]` survives the merge. -/
theorem claim_C1_witness :
    stringE "k" ⟨[], ["# keep"], []⟩ ∈
      elemsOfOpt (mergeList (some ⟨[stringE "a" noCom], false, noCom⟩)
        (some ⟨[stringE "k" ⟨[], ["# keep"], []⟩], false, noCom⟩)) :=
  (claim_C1_mergeList_keeps (some ⟨[stringE "a" noCom], false, noCom⟩)
      ⟨[stringE "k" ⟨[], ["# keep"], []⟩], false, noCom⟩).2
    (stringE "k" ⟨[], ["# keep"], []⟩) (List.mem_singleton.mpr rfl) (by decide)

/-! ## Lemmas about rule merging -/

theorem attrDefnA_some_binKey {args : List Expr} {k : String} {b : Expr}
    (h : attrDefnA args k = some b) : binKey b = some k := by
  unfold attrDefnA at h
  have hb := List.find?_some h
  exact eq_of_beq hb

theorem attrDefnA_mem {args : List Expr} {k : String} {b : Expr}
    (h : attrDefnA args k = some b) : b ∈ args := by
  unfold attrDefnA at h
  exact List.mem_of_find?_eq_some h

theorem binKey_setY (b v : Expr) : binKey (setY b v) = binKey b := by
  cases b <;> rfl

theorem binKey_none_of_not_isBinEq {a : Expr} (h : isBinEq a = false) :
    binKey a = none := by
  cases a <;> simp_all [isBinEq, binKey]

theorem mem_attrKeysA {args : List Expr} {a : Expr} {k : String}
    (ha : a ∈ args) (h : binKey a = some k) : k ∈ attrKeysA args :=
  List.mem_filterMap.mpr ⟨a, ha, h⟩

theorem attrDefnA_none_of_not_mem {args : List Expr} {k : String}
    (h : ¬ k ∈ attrKeysA args) : attrDefnA args k = none := by
  apply List.find?_eq_none.mpr
  intro a ha hb
  exact h (mem_attrKeysA ha (eq_of_beq hb))

theorem attrValA_eq_nilE_of_not_mem {args : List Expr} {k : String}
    (h : ¬ k ∈ attrKeysA args) : attrValA args k = nilE := by
  unfold attrValA
  rw [attrDefnA_none_of_not_mem h]

theorem attrDefnA_append (l1 l2 : List Expr) (k : String) :
    attrDefnA (l1 ++ l2) k = (attrDefnA l1 k).or (attrDefnA l2 k) :=
  List.find?_append

theorem attrDefnA_takeWhile_nonbin (args : List Expr) (k : String) :
    attrDefnA (args.takeWhile (fun a => !isBinEq a)) k = none := by
  apply List.find?_eq_none.mpr
  intro a ha hb
  have hp : isBinEq a = false := by simpa using List.mem_takeWhile_imp ha
  rw [binKey_none_of_not_isBinEq hp] at hb
  simp at hb

theorem attrStep_some_binKey {attrs : MergeableAttrs} {kind path : String}
    {gen : Call} {k : String} {b e : Expr}
    (h : (attrStep attrs kind path gen k b).1 = some e) :
    binKey e = binKey b := by
  simp only [attrStep] at h
  split at h
  · simp at h
    rw [← h]
  · split at h
    · simp at h
      rw [← h, binKey_setY]
    · split at h
      · simp at h
      · simp at h
        rw [← h, binKey_setY]

theorem setY_binY_self {b : Expr} {k : String} (h : binKey b = some k) :
    setY b (binY b) = b := by
  cases b <;> simp_all [binKey, setY, binY]

theorem foldl_pairAppend {α β γ : Type} (f : γ → List α) (g : γ → List β)
    (l : List γ) (a : List α) (b : List β) :
    l.foldl (fun (st : List α × List β) k => (st.1 ++ f k, st.2 ++ g k)) (a, b) =
      (a ++ l.flatMap f, b ++ l.flatMap g) := by
  induction l generalizing a b with
  | nil => simp
  | cons k rest ih => simp [ih, List.flatMap_cons]

theorem mergeRuleCall_eq (gen old : Call) (attrs : MergeableAttrs) (path : String) :
    mergeRuleCall gen old attrs path =
      (⟨old.fn,
        (attrKeys gen).foldl (genExtraStep gen)
          (old.args.takeWhile (fun a => !isBinEq a) ++
            (attrKeys old).flatMap (oldAttrContrib attrs (kindOf old) path gen old)),
        old.com⟩,
       (attrKeys old).flatMap (oldAttrLog attrs (kindOf old) path gen old)) := by
  simp only [mergeRuleCall]
  rw [foldl_pairAppend]
  simp

theorem attrDefnA_flatMap_none {l : List String} {F : String → List Expr} {k : String}
    (h : ∀ j ∈ l, ∀ e ∈ F j, ¬ (binKey e == some k) = true) :
    attrDefnA (l.flatMap F) k = none := by
  apply List.find?_eq_none.mpr
  intro a ha
  obtain ⟨j, hj, haj⟩ := List.mem_flatMap.mp ha
  exact h j hj a haj

theorem attrDefnA_flatMap_first {l : List String} {F : String → List Expr}
    {k : String} {b : Expr}
    (hk : k ∈ l) (hFk : F k = [b]) (hb : (binKey b == some k) = true)
    (hother : ∀ j ∈ l, j ≠ k → ∀ e ∈ F j, ¬ (binKey e == some k) = true) :
    attrDefnA (l.flatMap F) k = some b := by
  induction l with
  | nil => cases hk
  | cons j rest ih =>
    rw [List.flatMap_cons, attrDefnA_append]
    by_cases hjk : j = k
    · subst hjk
      rw [hFk]
      have : attrDefnA [b] j = some b := List.find?_cons_of_pos _ hb
      rw [this]
      rfl
    · have hnone : attrDefnA (F j) k = none :=
        List.find?_eq_none.mpr (fun e he => hother j (List.mem_cons_self j rest) hjk e he)
      rw [hnone]
      have hk' : k ∈ rest := by
        rcases List.mem_cons.mp hk with h | h
        · exact absurd h.symm hjk
        · exact h
      have hother' : ∀ j' ∈ rest, j' ≠ k → ∀ e ∈ F j', ¬ (binKey e == some k) = true :=
        fun j' hj' => hother j' (List.mem_cons_of_mem j hj')
      simpa [Option.or] using ih hk' hother'

theorem attrDefnA_setAttrA_ne {as : List Expr} {j k : String} {v : Expr} (h : j ≠ k) :
    attrDefnA (setAttrA as j v) k = attrDefnA as k := by
  induction as with
  | nil =>
    have hjk : (j == k) = false := by simp [h]
    simp [setAttrA, attrDefnA, List.find?, binKey, litToken, hjk]
  | cons a as ih =>
    unfold setAttrA
    by_cases hc : (binKey a == some j) = true
    · simp only [hc, if_true]
      have hbk : binKey a = some j := eq_of_beq hc
      have h1 : (binKey (setY a v) == some k) = false := by
        rw [binKey_setY, hbk]; simp [h]
      have h2 : (binKey a == some k) = false := by rw [hbk]; simp [h]
      unfold attrDefnA
      simp only [List.find?, h1, h2]
    · simp only [hc, Bool.false_eq_true, if_false]
      unfold attrDefnA
      simp only [List.find?]
      cases hk : (binKey a == some k) with
      | true => rfl
      | false => exact ih

theorem genExtraStep_preserve_ne {gen : Call} {as : List Expr} {j k : String}
    (h : j ≠ k) :
    attrDefnA (genExtraStep gen as j) k = attrDefnA as k := by
  unfold genExtraStep
  split
  · exact attrDefnA_setAttrA_ne h
  · rfl

theorem genExtraFold_not_mem {gen : Call} {ks : List String} {as : List Expr}
    {k : String} (h : ¬ k ∈ ks) :
    attrDefnA (ks.foldl (genExtraStep gen) as) k = attrDefnA as k := by
  induction ks generalizing as with
  | nil => rfl
  | cons j rest ih =>
    rw [List.foldl_cons]
    have hj : j ≠ k := fun e => h (e ▸ List.mem_cons_self j rest)
    rw [ih (fun hm => h (List.mem_cons_of_mem j hm))]
    exact genExtraStep_preserve_ne hj

theorem genExtraFold_present {gen : Call} {ks : List String} {as : List Expr}
    {k : String} {b : Expr}
    (hd : attrDefnA as k = some b) (hv : isNilE (binY b) = false) :
    attrDefnA (ks.foldl (genExtraStep gen) as) k = some b := by
  induction ks generalizing as with
  | nil => exact hd
  | cons j rest ih =>
    rw [List.foldl_cons]
    by_cases hj : j = k
    · subst hj
      have hstep : genExtraStep gen as j = as := by
        unfold genExtraStep
        have hval : attrValA as j = binY b := by unfold attrValA; rw [hd]
        rw [hval, hv]
        simp
      rw [hstep]
      exact ih hd
    · exact ih (by rw [genExtraStep_preserve_ne hj]; exact hd)

/-- Elements contributed by a key other than `k` never carry the key `k`
(their binding key is their own key). -/
theorem oldAttrContrib_other_keys {attrs : MergeableAttrs} {kind path : String}
    {gen old : Call} {j k : String} {e : Expr}
    (hjk : j ≠ k) (he : e ∈ oldAttrContrib attrs kind path gen old j) :
    ¬ (binKey e == some k) = true := by
  intro hbe
  rcases hdj : attrDefn old j with _ | bj
  · simp [oldAttrContrib, hdj] at he
  · have he' : e ∈ (attrStep attrs kind path gen j bj).1.toList := by
      simpa [oldAttrContrib, hdj] using he
    rcases hs : (attrStep attrs kind path gen j bj).1 with _ | e'
    · rw [hs] at he'; cases he'
    · rw [hs] at he'
      have hee : e = e' := by simpa [Option.toList] using he'
      subst hee
      have hbj : binKey e = some j := by
        rw [attrStep_some_binKey hs]
        exact attrDefnA_some_binKey hdj
      rw [hbj] at hbe
      exact hjk (by simpa using hbe)

/-! ## Claim C10: an absent generated value removes a scalar attribute -/

/-- C10: for a mergeable, non-keep-marked existing attribute `k` whose
definition `b` has a scalar value, when the generated rule has no `k`
attribute, `mergeExpr` returns the absent (nil) value and `k` is removed
entirely from the merged rule. -/
theorem claim_C10_scalar_removed (gen old : Call) (attrs : MergeableAttrs)
    (path k : String) (b : Expr)
    (hck : shouldKeep old.toExpr = false)
    (hdefn : attrDefn old k = some b)
    (hmerge : attrs (kindOf old) k = true)
    (hbkeep : shouldKeep b = false)
    (hscalar : isScalar (binY b) = true)
    (hvkeep : shouldKeep (binY b) = false)
    (hgen : ¬ k ∈ attrKeys gen) :
    mergeExpr (attrVal gen k) (binY b) = .ok nilE ∧
    ∀ c, (mergeRule gen old attrs path).1 = some c → attrDefn c k = none := by
  have hv : attrVal gen k = nilE := attrValA_eq_nilE_of_not_mem hgen
  have hme : mergeExpr (attrVal gen k) (binY b) = .ok nilE := by
    rw [hv]
    unfold mergeExpr
    rw [if_neg (by simp [hvkeep]), if_pos (by simp [isNilE, hscalar])]
  refine ⟨hme, ?_⟩
  have hstep : attrStep attrs (kindOf old) path gen k b = (none, []) := by
    simp only [attrStep]
    rw [if_neg (by simp [hmerge, hbkeep]), hme]
    simp [isNilE]
  intro c hc
  simp only [mergeRule] at hc
  rw [if_neg (by simp [hck])] at hc
  simp only at hc
  split at hc
  · cases hc
  · have hcm : c = (mergeRuleCall gen old attrs path).1 := by
      injection hc with h'
      exact h'.symm
    subst hcm
    rw [mergeRuleCall_eq]
    show attrDefnA _ k = none
    rw [genExtraFold_not_mem hgen, attrDefnA_append, attrDefnA_takeWhile_nonbin]
    have hfm : attrDefnA
        ((attrKeys old).flatMap (oldAttrContrib attrs (kindOf old) path gen old)) k =
        none := by
      apply attrDefnA_flatMap_none
      intro j hj e he hbe
      by_cases hjk : j = k
      · subst hjk
        have he' : e ∈ (attrStep attrs (kindOf old) path gen j b).1.toList := by
          simpa [oldAttrContrib, hdefn] using he
        rw [hstep] at he'
        cases he'
      · exact oldAttrContrib_other_keys hjk he hbe
    rw [hfm]
    rfl

/-- Witness for C10 at the concrete rules: `importpath` disappears. -/
theorem claim_C10_witness :
    (mergeRule c10gen c10old c10attrs "BUILD").1 = some c10merged ∧
    attrDefn c10merged "importpath" = none :=
  ⟨rfl,
   (claim_C10_scalar_removed c10gen c10old c10attrs "BUILD" "importpath"
      (kwX "importpath" (strX "old/path")) rfl rfl rfl rfl rfl rfl (by decide)).2
     c10merged rfl⟩

/-! ## Claim C8: a per-attribute merge error is local -/

/-- C8: when the merge of one attribute's values fails (unrecognized
value shape), the error is local to that attribute: its existing
definition is preserved unchanged (same keyword argument, comments
included), the failure is logged with the file path, and the rest of the
rule is assembled exactly as the per-key contributions of the other
attributes (the merged argument list and the log are the concatenations
of independent per-key results). -/
theorem claim_C8_merge_error_local (gen old : Call) (attrs : MergeableAttrs)
    (path k : String) (b : Expr)
    (hck : shouldKeep old.toExpr = false)
    (hdefn : attrDefn old k = some b)
    (hmerge : attrs (kindOf old) k = true)
    (hbkeep : shouldKeep b = false)
    (hvnil : isNilE (binY b) = false)
    (herr : isErrE (mergeExpr (attrVal gen k) (binY b)) = true) :
    (∀ c, (mergeRule gen old attrs path).1 = some c → attrDefn c k = some b) ∧
    (path, k) ∈ (mergeRule gen old attrs path).2 ∧
    (mergeRule gen old attrs path).2 =
      (attrKeys old).flatMap (oldAttrLog attrs (kindOf old) path gen old) ∧
    (mergeRuleCall gen old attrs path).1.args =
      (attrKeys gen).foldl (genExtraStep gen)
        (old.args.takeWhile (fun a => !isBinEq a) ++
          (attrKeys old).flatMap (oldAttrContrib attrs (kindOf old) path gen old)) := by
  obtain ⟨msg, hmsg⟩ : ∃ m, mergeExpr (attrVal gen k) (binY b) = .error m := by
    cases he : mergeExpr (attrVal gen k) (binY b) with
    | error m => exact ⟨m, rfl⟩
    | ok m => rw [he] at herr; simp [isErrE] at herr
  have hbk : binKey b = some k := attrDefnA_some_binKey hdefn
  have hself : setY b (binY b) = b := setY_binY_self hbk
  have hstep : attrStep attrs (kindOf old) path gen k b = (some b, [(path, k)]) := by
    simp only [attrStep]
    rw [if_neg (by simp [hmerge, hbkeep]), hmsg, hself]
  have hmem : k ∈ attrKeys old := mem_attrKeysA (attrDefnA_mem hdefn) hbk
  have hlogk : oldAttrLog attrs (kindOf old) path gen old k = [(path, k)] := by
    simp [oldAttrLog, hdefn, hstep]
  have hrule2 : (mergeRule gen old attrs path).2 = (mergeRuleCall gen old attrs path).2 := by
    simp only [mergeRule]
    rw [if_neg (by simp [hck])]
  have hcall := mergeRuleCall_eq gen old attrs path
  refine ⟨?_, ?_, ?_, ?_⟩
  · intro c hc
    simp only [mergeRule] at hc
    rw [if_neg (by simp [hck])] at hc
    simp only at hc
    split at hc
    · cases hc
    · have hcm : c = (mergeRuleCall gen old attrs path).1 := by
        injection hc with h'
        exact h'.symm
      subst hcm
      rw [hcall]
      show attrDefnA _ k = some b
      have hbase : attrDefnA
          (old.args.takeWhile (fun a => !isBinEq a) ++
            (attrKeys old).flatMap (oldAttrContrib attrs (kindOf old) path gen old)) k =
          some b := by
        rw [attrDefnA_append, attrDefnA_takeWhile_nonbin]
        have hfirst : attrDefnA
            ((attrKeys old).flatMap (oldAttrContrib attrs (kindOf old) path gen old)) k =
            some b := by
          apply attrDefnA_flatMap_first hmem
          · simp [oldAttrContrib, hdefn, hstep]
          · rw [hbk]; simp
          · intro j hj hjk e he hbe
            exact oldAttrContrib_other_keys hjk he hbe
        rw [hfirst]
        rfl
      exact genExtraFold_present hbase hvnil
  · rw [hrule2, hcall]
    refine List.mem_flatMap.mpr ⟨k, hmem, ?_⟩
    rw [hlogk]
    exact List.mem_singleton.mpr rfl
  · rw [hrule2, hcall]
  · rw [hcall]

/-- Witness for C8 at the concrete rules: the `copts` value of shape
`[...] + [...]` cannot be merged, is preserved, and is logged, while
`srcs` merges normally. -/
theorem claim_C8_witness :
    isErrE (mergeExpr (attrVal c8gen "copts") (binY (kwX "copts" c8bad))) = true ∧
    (∀ c, (mergeRule c8gen c8old c8attrs "pkg/BUILD").1 = some c →
      attrDefn c "copts" = some (kwX "copts" c8bad)) ∧
    ("pkg/BUILD", "copts") ∈ (mergeRule c8gen c8old c8attrs "pkg/BUILD").2 := by
  have h := claim_C8_merge_error_local c8gen c8old c8attrs "pkg/BUILD" "copts"
    (kwX "copts" c8bad) rfl rfl rfl rfl rfl rfl
  exact ⟨rfl, h.1, h.2.1⟩

/-! ## Claim C5: rules that merge to empty are deleted -/

/-- C5: a rule merge that ends with no arguments other than
`name`/`visibility` attributes returns the empty signal `none` (nil), and
`MergeFile`'s first loop deletes such a statement: an existing rule
without a keep marker that fully matches an empty rule and merges to
empty is dropped by `phase1Step`, and the merged document consists
exactly of the `phase1Step`-surviving statements processed by the second
loop. -/
theorem claim_C5_empty_rule_deleted :
    (∀ (gen old : Call) (attrs : MergeableAttrs) (path : String),
      shouldKeep old.toExpr = false →
      isEmptyCall (mergeRuleCall gen old attrs path).1 = true →
      (mergeRule gen old attrs path).1 = none) ∧
    (∀ (empty : List Expr) (attrs : MergeableAttrs) (path : String) (c g : Call) (i : Nat),
      matchRule empty c = some (g, i, true) →
      (mergeRule g c attrs path).1 = none →
      phase1Step empty attrs path c.toExpr = none) ∧
    (∀ (genRules : List Call) (empty : List Expr) (D : BzlFile) (attrs : MergeableAttrs),
      shouldIgnoreF D = false →
      (mergeFile genRules empty (some D) attrs).1 =
        some ⟨D.path,
          (phase2 attrs D.path (D.stmts.filterMap (phase1Step empty attrs D.path)).length
            genRules (D.stmts.filterMap (phase1Step empty attrs D.path)) []).1⟩) := by
  refine ⟨?_, ?_, ?_⟩
  · intro gen old attrs path hck hempty
    simp only [mergeRule]
    rw [if_neg (by simp [hck])]
    simp [hempty]
  · intro empty attrs path c g i hm hnone
    have hac : c.toExpr.asCall = some c := by cases c; rfl
    simp [phase1Step, hac, hm, hnone]
  · intro genRules empty D attrs hig
    simp [mergeFile, hig]

/-- Witness for C5: `go_library(name="x", srcs=["dead.go"])` matched by
the bare empty rule `go_library(name="x")` merges to nil and is dropped
by the first loop. -/
theorem claim_C5_witness :
    matchRule [c5empty.toExpr] c5old = some (c5empty, 0, true) ∧
    (mergeRule c5empty c5old c5attrs "BUILD").1 = none ∧
    phase1Step [c5empty.toExpr] c5attrs "BUILD" c5old.toExpr = none :=
  ⟨rfl, rfl,
   claim_C5_empty_rule_deleted.2.1 [c5empty.toExpr] c5attrs "BUILD" c5old c5empty 0 rfl rfl⟩

/-! ## Claim C3: same-name different-kind collisions -/

/-- Counterexample to C3 as stated: with generated `go_library(name="x",
srcs=["a"])` and existing `go_binary(name="x")` — a same-name,
different-kind collision — `MergeFile` does *not* merge the generated
rule against the mismatched existing rule: the document comes back with
the existing statement unchanged (no generated content, no kind
override) and the merged-rules list is empty. -/
theorem claim_C3_counterexample :
    nameOf c3gen = nameOf c3old ∧ kindOf c3gen ≠ kindOf c3old ∧
    mergeFile [c3gen] [] (some ⟨"BUILD", [c3old.toExpr]⟩) c3attrs =
      (some ⟨"BUILD", [c3old.toExpr]⟩, []) :=
  ⟨rfl, by decide, rfl⟩

/-- C3 amended: when a generated rule's first name match among the old
statements has a different kind, the second `MergeFile` loop skips the
generated rule entirely — it is neither merged nor appended, and the
statement list and merged-rules list are exactly those produced by the
remaining generated rules. -/
theorem claim_C3_amended_mismatch_skipped (attrs : MergeableAttrs) (path : String)
    (oldCount : Nat) (gs : List Call) (stmts acc : List Expr) (g y : Call) (i : Nat)
    (h : matchRule (stmts.take oldCount) g = some (y, i, false)) :
    phase2 attrs path oldCount (g :: gs) stmts acc =
      phase2 attrs path oldCount gs stmts acc := by
  simp only [phase2]
  rw [h]

/-- Witness for the amended C3 at the concrete collision. -/
theorem claim_C3_witness :
    matchRule ([c3old.toExpr].take 1) c3gen = some (c3old, 0, false) ∧
    phase2 c3attrs "BUILD" 1 [c3gen] [c3old.toExpr] [] =
      phase2 c3attrs "BUILD" 1 [] [c3old.toExpr] [] :=
  ⟨rfl, claim_C3_amended_mismatch_skipped c3attrs "BUILD" 1 [] [c3old.toExpr] [] c3gen c3old 0 rfl⟩

/-! ## List utilities for the idempotence development (C2) -/

theorem getD_mem {l : List Expr} {j : Nat} (h : j < l.length) : l.getD j nilE ∈ l := by
  induction l generalizing j with
  | nil => cases h
  | cons a t ih =>
    cases j with
    | zero => exact List.mem_cons_self _ _
    | succ n =>
      rw [List.getD_cons_succ]
      exact List.mem_cons_of_mem _ (ih (Nat.lt_of_succ_lt_succ h))

theorem getD_set_self {l : List Expr} {i : Nat} {v : Expr} (h : i < l.length) :
    (l.set i v).getD i nilE = v := by
  induction l generalizing i with
  | nil => cases h
  | cons a t ih =>
    cases i with
    | zero => rfl
    | succ n => exact ih (Nat.lt_of_succ_lt_succ h)

theorem getD_set_ne {l : List Expr} {i j : Nat} {v : Expr} (h : i ≠ j) :
    (l.set i v).getD j nilE = l.getD j nilE := by
  induction l generalizing i j with
  | nil => cases i <;> rfl
  | cons a t ih =>
    cases i with
    | zero =>
      cases j with
      | zero => exact absurd rfl h
      | succ m => rfl
    | succ n =>
      cases j with
      | zero => rfl
      | succ m =>
        rw [List.set_cons_succ, List.getD_cons_succ, List.getD_cons_succ]
        exact ih (fun e => h (by rw [e]))

theorem set_of_getD {l : List Expr} {i : Nat} {v : Expr} (h : l.getD i nilE = v) :
    l.set i v = l := by
  induction l generalizing i with
  | nil => rfl
  | cons a t ih =>
    cases i with
    | zero => rw [← h]; rfl
    | succ n =>
      rw [List.set_cons_succ]
      rw [List.getD_cons_succ] at h
      rw [ih h]

theorem getD_append_left {l1 l2 : List Expr} {j : Nat} (h : j < l1.length) :
    (l1 ++ l2).getD j nilE = l1.getD j nilE := by
  induction l1 generalizing j with
  | nil => cases h
  | cons a t ih =>
    cases j with
    | zero => rfl
    | succ n =>
      rw [List.cons_append, List.getD_cons_succ, List.getD_cons_succ]
      exact ih (Nat.lt_of_succ_lt_succ h)

theorem getD_append_self {l : List Expr} {v : Expr} :
    (l ++ [v]).getD l.length nilE = v := by
  induction l with
  | nil => rfl
  | cons a t ih => exact ih

theorem getD_take {l : List Expr} {n j : Nat} (h : j < n) :
    (l.take n).getD j nilE = l.getD j nilE := by
  induction l generalizing n j with
  | nil => rw [List.take_nil]
  | cons a t ih =>
    cases n with
    | zero => cases h
    | succ m =>
      rw [List.take_succ_cons]
      cases j with
      | zero => rfl
      | succ p =>
        rw [List.getD_cons_succ, List.getD_cons_succ]
        exact ih (Nat.lt_of_succ_lt_succ h)

theorem takeWhile_all_append {p : Expr → Bool} {U R : List Expr}
    (hU : ∀ a ∈ U, p a = true) (hR : ∀ a ∈ R, p a = false) :
    (U ++ R).takeWhile p = U := by
  induction U with
  | nil =>
    rw [List.nil_append]
    cases R with
    | nil => rfl
    | cons r t =>
      rw [List.takeWhile_cons, hR r (List.mem_cons_self _ _)]
      rfl
  | cons u t ih =>
    rw [List.cons_append, List.takeWhile_cons, hU u (List.mem_cons_self _ _)]
    rw [ih (fun a ha => hU a (List.mem_cons_of_mem _ ha))]
    rfl

theorem filterMap_eq_self_of {f : Expr → Option Expr} {l : List Expr}
    (h : ∀ s ∈ l, f s = some s) : l.filterMap f = l := by
  induction l with
  | nil => rfl
  | cons a t ih =>
    rw [List.filterMap_cons, h a (List.mem_cons_self _ _),
      ih (fun s hs => h s (List.mem_cons_of_mem _ hs))]

theorem flatMap_congr_mem {α β : Type} {l : List α} {F G : α → List β}
    (h : ∀ a ∈ l, F a = G a) : l.flatMap F = l.flatMap G := by
  induction l with
  | nil => rfl
  | cons a t ih =>
    rw [List.flatMap_cons, List.flatMap_cons, h a (List.mem_cons_self _ _),
      ih (fun s hs => h s (List.mem_cons_of_mem _ hs))]

theorem flatMap_eq_nil_of {α β : Type} {l : List α} {F : α → List β}
    (h : ∀ a ∈ l, F a = []) : l.flatMap F = [] := by
  induction l with
  | nil => rfl
  | cons a t ih =>
    rw [List.flatMap_cons, h a (List.mem_cons_self _ _), List.nil_append]
    exact ih (fun s hs => h s (List.mem_cons_of_mem _ hs))

/-! ## `match` (rule matching) characterization -/

theorem matchRuleAux_cons_none {x : Call} {s : Expr} {t : List Expr} {n : Nat}
    (hs : s.asCall = none) :
    matchRuleAux x (s :: t) n = matchRuleAux x t (n + 1) := by
  simp only [matchRuleAux, hs]

theorem matchRuleAux_cons_pos {x : Call} {s : Expr} {t : List Expr} {n : Nat} {y : Call}
    (hs : s.asCall = some y) (hn : (nameOf x == nameOf y) = true) :
    matchRuleAux x (s :: t) n = some (y, n, kindOf x == kindOf y) := by
  simp only [matchRuleAux, hs, hn, if_true]

theorem matchRuleAux_cons_neg {x : Call} {s : Expr} {t : List Expr} {n : Nat} {y : Call}
    (hs : s.asCall = some y) (hn : (nameOf x == nameOf y) = false) :
    matchRuleAux x (s :: t) n = matchRuleAux x t (n + 1) := by
  simp only [matchRuleAux, hs, hn, Bool.false_eq_true, if_false]

theorem matchRuleAux_shift (x : Call) (l : List Expr) (n : Nat) :
    matchRuleAux x l n =
      (matchRuleAux x l 0).map (fun r => (r.1, r.2.1 + n, r.2.2)) := by
  induction l generalizing n with
  | nil => rfl
  | cons s t ih =>
    cases hs : s.asCall with
    | none =>
      rw [matchRuleAux_cons_none hs, matchRuleAux_cons_none hs, ih, ih 1, Option.map_map]
      rcases matchRuleAux x t 0 with _ | ⟨y, i, fl⟩
      · rfl
      · simp [Nat.add_assoc, Nat.add_comm 1 n]
    | some y =>
      by_cases hn : (nameOf x == nameOf y) = true
      · rw [matchRuleAux_cons_pos hs hn, matchRuleAux_cons_pos hs hn]
        simp
      · have hn' : (nameOf x == nameOf y) = false := by simpa using hn
        rw [matchRuleAux_cons_neg hs hn', matchRuleAux_cons_neg hs hn', ih, ih 1,
          Option.map_map]
        rcases matchRuleAux x t 0 with _ | ⟨y', i, fl⟩
        · rfl
        · simp [Nat.add_assoc, Nat.add_comm 1 n]

theorem matchRule_none_iff {x : Call} {l : List Expr} :
    matchRule l x = none ↔
      ∀ s ∈ l, ∀ c, s.asCall = some c → (nameOf x == nameOf c) = false := by
  induction l with
  | nil =>
    constructor
    · intro _ s hs
      cases hs
    · intro _
      rfl
  | cons s t ih =>
    cases hs : s.asCall with
    | none =>
      rw [matchRule, matchRuleAux_cons_none hs, matchRuleAux_shift x t 1]
      constructor
      · intro h s' hs' c hc
        rcases List.mem_cons.mp hs' with h1 | h1
        · rw [h1, hs] at hc; cases hc
        · have h0 : matchRule t x = none := by
            rcases he : matchRuleAux x t 0 with _ | r
            · exact he
            · rw [he] at h; cases h
          exact ih.mp h0 s' h1 c hc
      · intro h
        have h0 : matchRule t x = none :=
          ih.mpr (fun s' hs' c hc => h s' (List.mem_cons_of_mem _ hs') c hc)
        rw [matchRule] at h0
        rw [h0]
        rfl
    | some y =>
      by_cases hn : (nameOf x == nameOf y) = true
      · rw [matchRule, matchRuleAux_cons_pos hs hn]
        constructor
        · intro h; cases h
        · intro h
          have := h s (List.mem_cons_self _ _) y hs
          rw [hn] at this; cases this
      · have hn' : (nameOf x == nameOf y) = false := by simpa using hn
        rw [matchRule, matchRuleAux_cons_neg hs hn', matchRuleAux_shift x t 1]
        constructor
        · intro h s' hs' c hc
          rcases List.mem_cons.mp hs' with h1 | h1
          · rw [h1, hs] at hc
            injection hc with hc0
            rw [← hc0]
            exact hn'
          · have h0 : matchRule t x = none := by
              rcases he : matchRuleAux x t 0 with _ | r
              · exact he
              · rw [he] at h; cases h
            exact ih.mp h0 s' h1 c hc
        · intro h
          have h0 : matchRule t x = none :=
            ih.mpr (fun s' hs' c hc => h s' (List.mem_cons_of_mem _ hs') c hc)
          rw [matchRule] at h0
          rw [h0]
          rfl

theorem matchRule_some_facts {x : Call} {l : List Expr} {y : Call} {i : Nat} {fl : Bool}
    (h : matchRule l x = some (y, i, fl)) :
    i < l.length ∧ (l.getD i nilE).asCall = some y ∧
      (nameOf x == nameOf y) = true ∧ fl = (kindOf x == kindOf y) ∧
      (∀ j, j < i → ∀ c, (l.getD j nilE).asCall = some c →
        (nameOf x == nameOf c) = false) := by
  induction l generalizing y i fl with
  | nil => cases h
  | cons s t ih =>
    cases hs : s.asCall with
    | none =>
      rw [matchRule, matchRuleAux_cons_none hs, matchRuleAux_shift x t 1] at h
      rcases he : matchRuleAux x t 0 with _ | ⟨y', i', fl'⟩
      · rw [he] at h; cases h
      · rw [he] at h
        have h0 : some ((y', i' + 1, fl') : Call × Nat × Bool) = some (y, i, fl) := h
        injection h0 with h1
        have hy : y' = y := congrArg Prod.fst h1
        have hi : i' + 1 = i := congrArg (fun r => r.2.1) h1
        have hfl : fl' = fl := congrArg (fun r => r.2.2) h1
        subst hy hfl
        obtain ⟨hf1, hf2, hf3, hf4, hf5⟩ := ih he
        rw [← hi]
        refine ⟨Nat.succ_lt_succ hf1, ?_, hf3, hf4, ?_⟩
        · rw [List.getD_cons_succ]; exact hf2
        · intro j hj c hc
          cases j with
          | zero => rw [List.getD_cons_zero, hs] at hc; cases hc
          | succ m =>
            rw [List.getD_cons_succ] at hc
            exact hf5 m (Nat.lt_of_succ_lt_succ hj) c hc
    | some c0 =>
      by_cases hn : (nameOf x == nameOf c0) = true
      · rw [matchRule, matchRuleAux_cons_pos hs hn] at h
        injection h with h1
        have hy : c0 = y := congrArg Prod.fst h1
        have hi : (0 : Nat) = i := congrArg (fun r => r.2.1) h1
        have hfl : (kindOf x == kindOf c0) = fl := congrArg (fun r => r.2.2) h1
        subst hy
        rw [← hi]
        exact ⟨Nat.succ_pos _, by rw [List.getD_cons_zero]; exact hs, hn, hfl.symm,
          fun j hj => absurd hj (Nat.not_lt_zero j)⟩
      · have hn' : (nameOf x == nameOf c0) = false := by simpa using hn
        rw [matchRule, matchRuleAux_cons_neg hs hn', matchRuleAux_shift x t 1] at h
        rcases he : matchRuleAux x t 0 with _ | ⟨y', i', fl'⟩
        · rw [he] at h; cases h
        · rw [he] at h
          have h0 : some ((y', i' + 1, fl') : Call × Nat × Bool) = some (y, i, fl) := h
          injection h0 with h1
          have hy : y' = y := congrArg Prod.fst h1
          have hi : i' + 1 = i := congrArg (fun r => r.2.1) h1
          have hfl : fl' = fl := congrArg (fun r => r.2.2) h1
          subst hy hfl
          obtain ⟨hf1, hf2, hf3, hf4, hf5⟩ := ih he
          rw [← hi]
          refine ⟨Nat.succ_lt_succ hf1, ?_, hf3, hf4, ?_⟩
          · rw [List.getD_cons_succ]; exact hf2
          · intro j hj c hc
            cases j with
            | zero =>
              rw [List.getD_cons_zero, hs] at hc
              injection hc with hc0
              rw [← hc0]
              exact hn'
            | succ m =>
              rw [List.getD_cons_succ] at hc
              exact hf5 m (Nat.lt_of_succ_lt_succ hj) c hc

theorem matchRule_of_first {x : Call} {l : List Expr} {p : Nat} {c : Call}
    (hp : p < l.length)
    (hc : (l.getD p nilE).asCall = some c)
    (hname : (nameOf x == nameOf c) = true)
    (hprev : ∀ j, j < p → ∀ c', (l.getD j nilE).asCall = some c' →
      (nameOf x == nameOf c') = false) :
    matchRule l x = some (c, p, kindOf x == kindOf c) := by
  induction l generalizing p with
  | nil => cases hp
  | cons s t ih =>
    cases p with
    | zero =>
      rw [List.getD_cons_zero] at hc
      rw [matchRule, matchRuleAux_cons_pos hc hname]
    | succ p' =>
      rw [List.getD_cons_succ] at hc
      have hrec : matchRule t x = some (c, p', kindOf x == kindOf c) := by
        refine ih (Nat.lt_of_succ_lt_succ hp) hc ?_
        intro j hj c' hc'
        have hz := hprev (j + 1) (Nat.succ_lt_succ hj) c'
        rw [List.getD_cons_succ] at hz
        exact hz hc'
      rw [matchRule] at hrec
      cases hs : s.asCall with
      | none =>
        rw [matchRule, matchRuleAux_cons_none hs, matchRuleAux_shift x t 1, hrec]
        rfl
      | some c0 =>
        have hn : (nameOf x == nameOf c0) = false := by
          have hz := hprev 0 (Nat.succ_pos _) c0
          rw [List.getD_cons_zero] at hz
          exact hz hs
        rw [matchRule, matchRuleAux_cons_neg hs hn, matchRuleAux_shift x t 1, hrec]
        rfl

/-! ## `mergeList` on canonical generated lists -/

theorem bool_or_collapse (a b c : Bool) : (a || (a || b || c) || c) = (a || b || c) := by
  cases a <;> cases b <;> cases c <;> rfl

theorem genElemOK_facts {v : Expr} (h : genElemOK v = true) :
    shouldKeep v = false ∧ stringValue v ≠ "" ∧ nonemptyVal v = some (stringValue v) := by
  cases v with
  | stringE s c =>
    simp only [genElemOK, Bool.and_eq_true] at h
    obtain ⟨h1, h2⟩ := h
    have hs : s ≠ "" := by simpa using h1
    have hk : hasKeep c = false := by simpa using h2
    refine ⟨hk, hs, ?_⟩
    simp only [nonemptyVal, stringValue]
    rw [if_pos hs]
  | nilE => cases h
  | literalE t c => cases h
  | listE es f c => cases h
  | dictE es f c => cases h
  | kvE k v c => cases h
  | callE f a c => cases h
  | binaryE o x y c => cases h

theorem contains_of_mem_str {l : List String} {s : String} (h : s ∈ l) :
    l.contains s = true :=
  List.elem_eq_true_of_mem h

theorem mem_of_contains_str {l : List String} {s : String} (h : l.contains s = true) :
    s ∈ l :=
  List.mem_of_elem_eq_true h

theorem genStrs_contains {G : Option ListX} {v : Expr}
    (hv : v ∈ genElems G) (h : genElemOK v = true) :
    (genStrs G).contains (stringValue v) = true :=
  contains_of_mem_str (List.mem_filterMap.mpr ⟨v, hv, (genElemOK_facts h).2.2⟩)

theorem mergeList_self_gen {l : ListX}
    (hne : l.elems ≠ []) (hok : ∀ v ∈ l.elems, genElemOK v = true)
    (hcom : l.com = noCom) :
    mergeList (some l) (some l) = some l := by
  rw [mergeList_eq]
  have hkept : keptOld (some l) l = l.elems := by
    apply List.filter_eq_self.mpr
    intro v hv
    rw [genStrs_contains hv (hok v hv), Bool.or_true]
  have happ : (genElems (some l)).filter
      (fun v => !((keptStrs (some l) l).contains (stringValue v))) = [] := by
    apply List.filter_eq_nil_iff.mpr
    intro v hv
    have hm : stringValue v ∈ keptStrs (some l) l := by
      refine List.mem_filterMap.mpr ⟨v, ?_, (genElemOK_facts (hok v hv)).2.2⟩
      rw [hkept]
      exact hv
    rw [contains_of_mem_str hm]
    decide
  rw [hkept, happ, List.append_nil]
  rw [if_neg (by simpa [List.isEmpty_iff] using hne)]
  have hany : l.elems.any shouldKeep = false := by
    apply List.any_eq_false.mpr
    intro v hv
    simp [(genElemOK_facts (hok v hv)).1]
  rw [hany]
  cases l with
  | mk es f c =>
    simp only at hcom
    subst hcom
    simp

theorem keptOld_mk (G : Option ListX) (es : List Expr) (f : Bool) (c : Comments) :
    keptOld G ⟨es, f, c⟩ =
      es.filter (fun v => shouldKeep v || (genStrs G).contains (stringValue v)) := rfl

theorem keptStrs_def (G : Option ListX) (o : ListX) :
    keptStrs G o = (keptOld G o).filterMap nonemptyVal := rfl

theorem mergeList_eq_of_parts {G : Option ListX} {o : ListX} {K N : List Expr}
    (hK : keptOld G o = K)
    (hN : (genElems G).filter
      (fun v => !((keptStrs G o).contains (stringValue v))) = N)
    (hne : (K ++ N).isEmpty = false) :
    mergeList G (some o) =
      some ⟨K ++ N,
        (G.getD ⟨[], false, noCom⟩).fml || o.fml || K.any shouldKeep, noCom⟩ := by
  rw [mergeList_eq, hK, hN, if_neg (by rw [hne]; exact Bool.false_ne_true)]

theorem mergeList_idem_step {G : Option ListX} {w m : ListX}
    (hG : ∀ v ∈ genElems G, genElemOK v = true)
    (hm : mergeList G (some w) = some m) :
    mergeList G (some m) = some m := by
  rw [mergeList_eq] at hm
  by_cases hemp : (keptOld G w ++ (genElems G).filter
      (fun v => !((keptStrs G w).contains (stringValue v)))).isEmpty = true
  · rw [if_pos hemp] at hm; cases hm
  · rw [if_neg hemp] at hm
    injection hm with hm1
    have hKmem : ∀ v ∈ keptOld G w,
        (shouldKeep v || (genStrs G).contains (stringValue v)) = true := by
      intro v hv
      unfold keptOld at hv
      have h0 := List.of_mem_filter hv
      exact h0
    have hNsub : ∀ v ∈ (genElems G).filter
        (fun v => !((keptStrs G w).contains (stringValue v))), v ∈ genElems G :=
      fun v hv => List.mem_of_mem_filter hv
    have hmel : m.elems = keptOld G w ++ (genElems G).filter
        (fun v => !((keptStrs G w).contains (stringValue v))) := by
      rw [← hm1]
    have hmfml : m.fml =
        ((G.getD ⟨[], false, noCom⟩).fml || w.fml || (keptOld G w).any shouldKeep) := by
      rw [← hm1]
    have hmcom : m.com = noCom := by rw [← hm1]
    have hkept2 : keptOld G m = m.elems := by
      unfold keptOld
      apply List.filter_eq_self.mpr
      intro v hv
      rw [hmel] at hv
      rcases List.mem_append.mp hv with h1 | h1
      · exact hKmem v h1
      · rw [genStrs_contains (hNsub v h1) (hG v (hNsub v h1)), Bool.or_true]
    have hstr2 : ∀ v ∈ genElems G, stringValue v ∈ keptStrs G m := by
      intro v hv
      rw [keptStrs_def, hkept2, hmel]
      by_cases hvN : v ∈ (genElems G).filter
          (fun v => !((keptStrs G w).contains (stringValue v)))
      · exact List.mem_filterMap.mpr
          ⟨v, List.mem_append_right _ hvN, (genElemOK_facts (hG v hv)).2.2⟩
      · have hpred : (!((keptStrs G w).contains (stringValue v))) = false := by
          by_contra hb
          exact hvN (List.mem_filter.mpr ⟨hv, by simpa using hb⟩)
        have hcont : (keptStrs G w).contains (stringValue v) = true := by
          simpa using hpred
        have hmem : stringValue v ∈ keptStrs G w := mem_of_contains_str hcont
        rw [keptStrs_def] at hmem
        obtain ⟨u, hu, huv⟩ := List.mem_filterMap.mp hmem
        exact List.mem_filterMap.mpr ⟨u, List.mem_append_left _ hu, huv⟩
    have hN2 : (genElems G).filter
        (fun v => !((keptStrs G m).contains (stringValue v))) = [] := by
      apply List.filter_eq_nil_iff.mpr
      intro v hv
      rw [contains_of_mem_str (hstr2 v hv)]
      decide
    have hne2 : (m.elems ++ ([] : List Expr)).isEmpty = false := by
      rw [List.append_nil, hmel]
      by_contra hb
      exact hemp (by simpa using hb)
    rw [mergeList_eq_of_parts hkept2 hN2 hne2]
    have hanyN : ((genElems G).filter
        (fun v => !((keptStrs G w).contains (stringValue v)))).any shouldKeep = false := by
      apply List.any_eq_false.mpr
      intro v hv
      simp [(genElemOK_facts (hG v (hNsub v hv))).1]
    have hany2 : m.elems.any shouldKeep = (keptOld G w).any shouldKeep := by
      rw [hmel, List.any_append, hanyN, Bool.or_false]
    rw [List.append_nil, hany2, hmfml, bool_or_collapse, ← hmfml, ← hmcom]

theorem mergeList_gen_nonempty {gl w : ListX}
    (hne : gl.elems ≠ []) (hok : ∀ v ∈ gl.elems, genElemOK v = true) :
    ∃ m, mergeList (some gl) (some w) = some m := by
  rw [mergeList_eq]
  by_cases h : (keptOld (some gl) w ++ (genElems (some gl)).filter
      (fun v => !((keptStrs (some gl) w).contains (stringValue v)))).isEmpty = true
  · exfalso
    have hnil := List.isEmpty_iff.mp h
    obtain ⟨hK, hN⟩ := List.append_eq_nil.mp hnil
    cases hel : gl.elems with
    | nil => exact hne hel
    | cons v0 rest =>
      have hv0 : v0 ∈ genElems (some gl) := by
        show v0 ∈ gl.elems
        rw [hel]
        exact List.mem_cons_self _ _
      have hok0 : genElemOK v0 = true := hok v0 (by rw [hel]; exact List.mem_cons_self _ _)
      have hnotN : (!((keptStrs (some gl) w).contains (stringValue v0))) = false := by
        by_contra hb
        have : v0 ∈ (genElems (some gl)).filter
            (fun v => !((keptStrs (some gl) w).contains (stringValue v))) :=
          List.mem_filter.mpr ⟨hv0, by simpa using hb⟩
        rw [hN] at this
        cases this
      have hcont : stringValue v0 ∈ keptStrs (some gl) w :=
        mem_of_contains_str (by simpa using hnotN)
      unfold keptStrs at hcont
      rw [hK] at hcont
      cases hcont
  · rw [if_neg h]
    exact ⟨_, rfl⟩

/-! ## `mergeExpr` on canonical values -/

theorem cleanCom_eq {c : Comments} (h : cleanCom c = true) : c = noCom := by
  cases c with
  | mk b s a =>
    simp only [cleanCom, Bool.and_eq_true, List.isEmpty_iff] at h
    obtain ⟨⟨hb, hs⟩, ha⟩ := h
    rw [hb, hs, ha]
    rfl

theorem exc_bind_ok {α β : Type} (a : α) (f : α → Except String β) :
    (Except.ok a >>= f) = f a := rfl

theorem exc_bind_err {α β : Type} (e : String) (f : α → Except String β) :
    ((Except.error e : Except String α) >>= f) = Except.error e := rfl

theorem exc_map_ok {α β : Type} (f : α → β) (a : α) :
    (f <$> (Except.ok a : Except String α)) = Except.ok (f a) := rfl

theorem exc_map_err {α β : Type} (f : α → β) (e : String) :
    (f <$> (Except.error e : Except String α)) = Except.error e := rfl

theorem genValOK_nonnil {v : Expr} (h : genValOK v = true) : isNilE v = false := by
  cases v with
  | nilE => simp [genValOK, isScalar] at h
  | stringE s c => rfl
  | literalE t c => rfl
  | listE es f c => rfl
  | dictE es f c => rfl
  | kvE k v c => rfl
  | callE f a c => rfl
  | binaryE o x y c => rfl

theorem stringValue_of_not_scalar {v : Expr} (h : isScalar v = false) :
    stringValue v = "" := by
  cases v with
  | stringE s c => cases h
  | nilE => rfl
  | literalE t c => rfl
  | listE es f c => rfl
  | dictE es f c => rfl
  | kvE k v c => rfl
  | callE f a c => rfl
  | binaryE o x y c => rfl

theorem genValOK_list_case {v : Expr} (h : genValOK v = true) (hs : isScalar v = false) :
    ∃ es f, v = listE es f noCom ∧ es ≠ [] ∧ ∀ e ∈ es, genElemOK e = true := by
  cases v with
  | listE es f c =>
    simp only [genValOK, isScalar, Bool.false_or] at h
    simp only [Bool.and_eq_true] at h
    obtain ⟨⟨h1, h2⟩, h3⟩ := h
    refine ⟨es, f, by rw [cleanCom_eq h3], ?_, ?_⟩
    · intro he
      rw [he] at h1
      cases h1
    · intro e he
      exact List.all_eq_true.mp h2 e he
  | nilE => simp [genValOK, isScalar] at h
  | stringE s c => cases hs
  | literalE t c => cases hs
  | dictE es f c => simp [genValOK, isScalar] at h
  | kvE k v c => simp [genValOK, isScalar] at h
  | callE f a c => simp [genValOK, isScalar] at h
  | binaryE o x y c => simp [genValOK, isScalar] at h

theorem extract_nilE : extractPlatformStringsExprs nilE = .ok psEmpty := rfl

theorem extract_listE (es : List Expr) (f : Bool) (c : Comments) :
    extractPlatformStringsExprs (listE es f c) = .ok ⟨some ⟨es, f, c⟩, none, none, none⟩ :=
  rfl

theorem makePS_none : makePlatformStringsExpr ⟨none, none, none, none⟩ = nilE := rfl

theorem makePS_generic (l : ListX) :
    makePlatformStringsExpr ⟨some l, none, none, none⟩ = l.toExpr := rfl

theorem mergePS_generic (G W : Option ListX) :
    mergePlatformStringsExprs ⟨G, none, none, none⟩ ⟨W, none, none, none⟩ =
      .ok ⟨mergeList G W, none, none, none⟩ := rfl

theorem mergeList_com {G : Option ListX} {w l : ListX}
    (h : mergeList G (some w) = some l) : l.com = noCom := by
  rw [mergeList_eq] at h
  by_cases he : (keptOld G w ++ (genElems G).filter
      (fun v => !((keptStrs G w).contains (stringValue v)))).isEmpty = true
  · rw [if_pos he] at h; cases h
  · rw [if_neg he] at h
    injection h with h1
    rw [← h1]

theorem mergeExpr_keep {gen old : Expr} (h : shouldKeep old = true) :
    mergeExpr gen old = .ok old := by
  simp [mergeExpr, h]

theorem mergeExpr_nil_branch {gen old : Expr} (hk : shouldKeep old = false)
    (h2 : (isNilE gen && (isNilE old || isScalar old)) = true) :
    mergeExpr gen old = .ok nilE := by
  simp [mergeExpr, hk, h2]

theorem mergeExpr_scalar_gen {gen old : Expr} (hk : shouldKeep old = false)
    (hg : isScalar gen = true) : mergeExpr gen old = .ok gen := by
  have hn : isNilE gen = false := by
    cases gen <;> simp_all [isScalar, isNilE]
  simp [mergeExpr, hk, hg, hn]

theorem mergeExpr_err_gen {gen old : Expr} {e : String}
    (h1 : shouldKeep old = false)
    (h2 : (isNilE gen && (isNilE old || isScalar old)) = false)
    (h3 : isScalar gen = false)
    (hg : extractPlatformStringsExprs gen = .error e) :
    mergeExpr gen old = .error e := by
  simp [mergeExpr, h1, h2, h3, hg, exc_bind_ok, exc_bind_err, exc_map_ok, exc_map_err]

theorem mergeExpr_err_old {gen old : Expr} {pg : PlatformStringsExprs} {e : String}
    (h1 : shouldKeep old = false)
    (h2 : (isNilE gen && (isNilE old || isScalar old)) = false)
    (h3 : isScalar gen = false)
    (hg : extractPlatformStringsExprs gen = .ok pg)
    (ho : extractPlatformStringsExprs old = .error e) :
    mergeExpr gen old = .error e := by
  simp [mergeExpr, h1, h2, h3, hg, ho, exc_bind_ok, exc_bind_err, exc_map_ok, exc_map_err]

theorem mergeExpr_err_merge {gen old : Expr} {pg po : PlatformStringsExprs} {e : String}
    (h1 : shouldKeep old = false)
    (h2 : (isNilE gen && (isNilE old || isScalar old)) = false)
    (h3 : isScalar gen = false)
    (hg : extractPlatformStringsExprs gen = .ok pg)
    (ho : extractPlatformStringsExprs old = .ok po)
    (hm : mergePlatformStringsExprs pg po = .error e) :
    mergeExpr gen old = .error e := by
  simp [mergeExpr, h1, h2, h3, hg, ho, hm, exc_bind_ok, exc_bind_err, exc_map_ok, exc_map_err]

theorem mergeExpr_ok4 {gen old : Expr} {pg po ps : PlatformStringsExprs}
    (h1 : shouldKeep old = false)
    (h2 : (isNilE gen && (isNilE old || isScalar old)) = false)
    (h3 : isScalar gen = false)
    (hg : extractPlatformStringsExprs gen = .ok pg)
    (ho : extractPlatformStringsExprs old = .ok po)
    (hm : mergePlatformStringsExprs pg po = .ok ps) :
    mergeExpr gen old = .ok (makePlatformStringsExpr ps) := by
  simp [mergeExpr, h1, h2, h3, hg, ho, hm, exc_bind_ok, exc_bind_err, exc_map_ok, exc_map_err]

theorem oldValOK_ps {w : Expr} {po : PlatformStringsExprs}
    (hw : oldValOK w = true) (ho : extractPlatformStringsExprs w = .ok po) :
    po = ⟨po.generic, none, none, none⟩ := by
  simp only [oldValOK, ho] at hw
  cases po with
  | mk g o a pl =>
    simp only [Bool.and_eq_true, Option.isNone_iff_eq_none] at hw
    obtain ⟨⟨h1, h2⟩, h3⟩ := hw
    rw [h1, h2, h3]

theorem mergeExpr_self_gen {gv : Expr} (h : genValOK gv = true) :
    mergeExpr gv gv = .ok gv := by
  by_cases hk : shouldKeep gv = true
  · exact mergeExpr_keep hk
  · have hk' : shouldKeep gv = false := by simpa using hk
    by_cases h3 : isScalar gv = true
    · exact mergeExpr_scalar_gen hk' h3
    · have h3' : isScalar gv = false := by simpa using h3
      obtain ⟨es, f, hv, hne, hok⟩ := genValOK_list_case h h3'
      subst hv
      have hml : mergeList (some ⟨es, f, noCom⟩) (some ⟨es, f, noCom⟩) =
          some ⟨es, f, noCom⟩ :=
        mergeList_self_gen hne hok rfl
      have hres := mergeExpr_ok4 hk'
        (show (isNilE (listE es f noCom) &&
          (isNilE (listE es f noCom) || isScalar (listE es f noCom))) = false from rfl)
        h3' (extract_listE es f noCom)
        (extract_listE es f noCom) (by rw [mergePS_generic, hml])
      rw [hres]
      rfl

theorem mergeList_none_old (G : Option ListX) : mergeList G none = G := rfl

theorem mergeExpr_stable_list {gv w r : Expr} (G : Option ListX)
    (hk : shouldKeep w = false)
    (h2 : (isNilE gv && (isNilE w || isScalar w)) = false)
    (h3 : isScalar gv = false)
    (hg : extractPlatformStringsExprs gv = .ok ⟨G, none, none, none⟩)
    (hGok : ∀ v ∈ genElems G, genElemOK v = true)
    (hGnil : G = none → gv = nilE)
    (hGsome : ∀ gl, G = some gl → gv = ListX.toExpr gl ∧ gl.elems ≠ [] ∧ gl.com = noCom)
    (hw : oldValOK w = true)
    (hr : mergeExpr gv w = .ok r) :
    mergeExpr gv r = .ok r := by
  rcases how : extractPlatformStringsExprs w with e | po
  · rw [mergeExpr_err_old hk h2 h3 hg how] at hr
    cases hr
  · have hpo := oldValOK_ps hw how
    rw [hpo] at how
    have hrr := mergeExpr_ok4 hk h2 h3 hg how (mergePS_generic G po.generic)
    rw [hrr] at hr
    injection hr with hre
    rcases hml : mergeList G po.generic with _ | l
    · have hGnone : G = none := by
        rcases hW : po.generic with _ | w'
        · rw [hW, mergeList_none_old] at hml
          exact hml
        · rcases hG : G with _ | gl
          · rfl
          · exfalso
            obtain ⟨hgv1, hgl1, hgl2⟩ := hGsome gl hG
            obtain ⟨mm, hmm⟩ := mergeList_gen_nonempty hgl1 (by
              intro v hv
              apply hGok
              rw [hG]
              exact hv)
            rw [hG, hW] at hml
            rw [hmm] at hml
            cases hml
      have hgvnil : gv = nilE := hGnil hGnone
      rw [hml] at hre
      rw [← hre, hgvnil]
      rfl
    · rw [hml] at hre
      rw [makePS_generic] at hre
      have hlfacts : l.com = noCom ∧ mergeList G (some l) = some l := by
        rcases hW : po.generic with _ | w'
        · rw [hW, mergeList_none_old] at hml
          obtain ⟨hgv1, hgl1, hgl2⟩ := hGsome l hml
          constructor
          · exact hgl2
          · rw [hml]
            exact mergeList_self_gen hgl1 (by
              intro v hv
              apply hGok
              rw [hml]
              exact hv) hgl2
        · rw [hW] at hml
          exact ⟨mergeList_com hml, mergeList_idem_step hGok hml⟩
      obtain ⟨hlcom, hGl⟩ := hlfacts
      have hrlist : r = listE l.elems l.fml noCom := by
        rw [← hre]
        unfold ListX.toExpr
        rw [hlcom]
      have hoc : extractPlatformStringsExprs r = .ok ⟨some l, none, none, none⟩ := by
        rw [hrlist, extract_listE]
        have : (⟨l.elems, l.fml, noCom⟩ : ListX) = l := by
          cases l with
          | mk a b c =>
            simp only at hlcom
            rw [hlcom]
        rw [this]
      have hkr : shouldKeep r = false := by
        rw [hrlist]
        rfl
      have h2r : (isNilE gv && (isNilE r || isScalar r)) = false := by
        rw [hrlist]
        simp [isNilE, isScalar]
      have hres := mergeExpr_ok4 hkr h2r h3 hg hoc
        (by rw [mergePS_generic, hGl])
      rw [hres, makePS_generic, ← hre]

theorem stringValue_plus_fold (xs : List Expr) (acc : Expr) (hne : xs ≠ []) :
    stringValue (xs.foldl
      (fun acc part => binaryE "+" acc (forceML part) noCom) acc) = "" := by
  induction xs generalizing acc with
  | nil => exact absurd rfl hne
  | cons x t ih =>
    rw [List.foldl_cons]
    cases t with
    | nil => rfl
    | cons y t' => exact ih _ (by intro hc; cases hc)

theorem makePS_stringValue (ps : PlatformStringsExprs) :
    stringValue (makePlatformStringsExpr ps) = "" := by
  have hparts : ∀ p ∈ ((ps.generic.map ListX.toExpr).toList ++
      (ps.os.map makeSelect).toList ++ (ps.arch.map makeSelect).toList ++
      (ps.platform.map makeSelect).toList), stringValue p = "" := by
    intro p hp
    rcases List.mem_append.mp hp with hp1 | hp4
    · rcases List.mem_append.mp hp1 with hp2 | hp3
      · rcases List.mem_append.mp hp2 with hpg | hpo
        · rcases hg : ps.generic with _ | l
          · rw [hg] at hpg; cases hpg
          · rw [hg] at hpg
            have hpe : p = ListX.toExpr l := by simpa using hpg
            rw [hpe]
            rfl
        · rcases hg : ps.os with _ | d
          · rw [hg] at hpo; cases hpo
          · rw [hg] at hpo
            have hpe : p = makeSelect d := by simpa using hpo
            rw [hpe]
            rfl
      · rcases hg : ps.arch with _ | d
        · rw [hg] at hp3; cases hp3
        · rw [hg] at hp3
          have hpe : p = makeSelect d := by simpa using hp3
          rw [hpe]
          rfl
    · rcases hg : ps.platform with _ | d
      · rw [hg] at hp4; cases hp4
      · rw [hg] at hp4
        have hpe : p = makeSelect d := by simpa using hp4
        rw [hpe]
        rfl
  unfold makePlatformStringsExpr
  generalize hL : ((ps.generic.map ListX.toExpr).toList ++
      (ps.os.map makeSelect).toList ++ (ps.arch.map makeSelect).toList ++
      (ps.platform.map makeSelect).toList) = L
  rw [hL] at hparts
  cases L with
  | nil => rfl
  | cons p rest =>
    cases rest with
    | nil =>
      show stringValue p = ""
      exact hparts p (List.mem_cons_self _ _)
    | cons q rest' =>
      show stringValue ((q :: rest').foldl
        (fun acc part => binaryE "+" acc (forceML part) noCom) (forceML p)) = ""
      exact stringValue_plus_fold _ _ (by intro hc; cases hc)

theorem mergeExpr_stringValue {gv w m' : Expr}
    (hval : stringValue gv = stringValue w)
    (hr : mergeExpr gv w = .ok m') :
    stringValue m' = stringValue w := by
  by_cases hk : shouldKeep w = true
  · rw [mergeExpr_keep hk] at hr
    injection hr with h1
    rw [← h1]
  · have hk' : shouldKeep w = false := by simpa using hk
    by_cases h2 : (isNilE gv && (isNilE w || isScalar w)) = true
    · rw [mergeExpr_nil_branch hk' h2] at hr
      injection hr with h1
      have hg : isNilE gv = true := by
        by_contra hb
        have hbf : isNilE gv = false := by simpa using hb
        rw [hbf] at h2
        simp at h2
      have hgv0 : stringValue gv = "" := by
        cases gv with
        | nilE => rfl
        | stringE s c => exact Bool.noConfusion hg
        | literalE t c => exact Bool.noConfusion hg
        | listE es f c => exact Bool.noConfusion hg
        | dictE es f c => exact Bool.noConfusion hg
        | kvE k v c => exact Bool.noConfusion hg
        | callE f a c => exact Bool.noConfusion hg
        | binaryE o x y c => exact Bool.noConfusion hg
      rw [← h1]
      show ("" : String) = stringValue w
      rw [← hval, hgv0]
    · have h2' : (isNilE gv && (isNilE w || isScalar w)) = false := by simpa using h2
      by_cases h3 : isScalar gv = true
      · rw [mergeExpr_scalar_gen hk' h3] at hr
        injection hr with h1
        rw [← h1]
        exact hval
      · have h3' : isScalar gv = false := by simpa using h3
        rcases hge : extractPlatformStringsExprs gv with e | pg
        · rw [mergeExpr_err_gen hk' h2' h3' hge] at hr
          cases hr
        · rcases hoe : extractPlatformStringsExprs w with e | po
          · rw [mergeExpr_err_old hk' h2' h3' hge hoe] at hr
            cases hr
          · rcases hme : mergePlatformStringsExprs pg po with e | ps
            · rw [mergeExpr_err_merge hk' h2' h3' hge hoe hme] at hr
              cases hr
            · rw [mergeExpr_ok4 hk' h2' h3' hge hoe hme] at hr
              injection hr with h1
              rw [← h1, makePS_stringValue, ← hval, stringValue_of_not_scalar h3']

theorem commentsOf_setY (b v : Expr) : commentsOf (setY b v) = commentsOf b := by
  cases b <;> rfl

theorem shouldKeep_setY (b v : Expr) : shouldKeep (setY b v) = shouldKeep b := by
  unfold shouldKeep
  rw [commentsOf_setY]

theorem binY_setY {b : Expr} {k : String} (h : binKey b = some k) (v : Expr) :
    binY (setY b v) = v := by
  cases b with
  | binaryE o x y c => rfl
  | nilE => exact Option.noConfusion h
  | stringE s c => exact Option.noConfusion h
  | literalE t c => exact Option.noConfusion h
  | listE es f c => exact Option.noConfusion h
  | dictE es f c => exact Option.noConfusion h
  | kvE k2 v2 c => exact Option.noConfusion h
  | callE f a c => exact Option.noConfusion h

theorem setY_setY (b v : Expr) : setY (setY b v) v = setY b v := by
  cases b <;> rfl

theorem attrStep_not_mergeable {attrs : MergeableAttrs} {kind path : String}
    {gen : Call} {k : String} {b : Expr}
    (h : (!(attrs kind k) || shouldKeep b) = true) :
    attrStep attrs kind path gen k b = (some b, []) := by
  simp [attrStep, h]

theorem attrStep_merge_err {attrs : MergeableAttrs} {kind path : String}
    {gen : Call} {k : String} {b : Expr} {e : String}
    (h : (!(attrs kind k) || shouldKeep b) = false)
    (hm : mergeExpr (attrVal gen k) (binY b) = .error e) :
    attrStep attrs kind path gen k b = (some (setY b (binY b)), [(path, k)]) := by
  simp [attrStep, h, hm]

theorem attrStep_merge_nil {attrs : MergeableAttrs} {kind path : String}
    {gen : Call} {k : String} {b m : Expr}
    (h : (!(attrs kind k) || shouldKeep b) = false)
    (hm : mergeExpr (attrVal gen k) (binY b) = .ok m)
    (hnil : isNilE m = true) :
    attrStep attrs kind path gen k b = (none, []) := by
  simp [attrStep, h, hm, hnil]

theorem attrStep_merge_ok {attrs : MergeableAttrs} {kind path : String}
    {gen : Call} {k : String} {b m : Expr}
    (h : (!(attrs kind k) || shouldKeep b) = false)
    (hm : mergeExpr (attrVal gen k) (binY b) = .ok m)
    (hnil : isNilE m = false) :
    attrStep attrs kind path gen k b = (some (setY b m), []) := by
  simp [attrStep, h, hm, hnil]

theorem mergeExpr_stable {gv w r : Expr}
    (hgv : genValOrNil gv = true)
    (hw : oldValOK w = true)
    (hr : mergeExpr gv w = .ok r) :
    mergeExpr gv r = .ok r := by
  by_cases hk : shouldKeep w = true
  · rw [mergeExpr_keep hk] at hr
    injection hr with h1
    rw [← h1]
    exact mergeExpr_keep hk
  · have hk' : shouldKeep w = false := by simpa using hk
    by_cases h2 : (isNilE gv && (isNilE w || isScalar w)) = true
    · rw [mergeExpr_nil_branch hk' h2] at hr
      injection hr with h1
      have hgnil : isNilE gv = true := by
        by_contra hb
        have hbf : isNilE gv = false := by simpa using hb
        rw [hbf] at h2
        simp at h2
      have hgv' : gv = nilE := by
        cases gv <;> simp_all [isNilE]
      rw [← h1, hgv']
      rfl
    · have h2' : (isNilE gv && (isNilE w || isScalar w)) = false := by simpa using h2
      by_cases h3 : isScalar gv = true
      · rw [mergeExpr_scalar_gen hk' h3] at hr
        injection hr with h1
        rw [← h1]
        by_cases hkg : shouldKeep gv = true
        · exact mergeExpr_keep hkg
        · exact mergeExpr_scalar_gen (by simpa using hkg) h3
      · have h3' : isScalar gv = false := by simpa using h3
        simp only [genValOrNil, Bool.or_eq_true] at hgv
        rcases hgv with hnil | hok
        · have hgv' : gv = nilE := by
            cases gv <;> simp_all [isNilE]
          refine mergeExpr_stable_list none hk' h2' h3' ?_ ?_ ?_ ?_ hw hr
          · rw [hgv']
            exact extract_nilE
          · intro v hv
            cases hv
          · intro _
            exact hgv'
          · intro gl hgl
            cases hgl
        · obtain ⟨es, f, hv, hne, hesok⟩ := genValOK_list_case hok h3'
          refine mergeExpr_stable_list (some ⟨es, f, noCom⟩) hk' h2' h3' ?_ ?_ ?_ ?_ hw hr
          · rw [hv]
            exact extract_listE es f noCom
          · intro v hvm
            exact hesok v hvm
          · intro hn
            cases hn
          · intro gl hgl
            injection hgl with hgl1
            rw [← hgl1]
            exact ⟨hv, hne, rfl⟩

theorem attrStep_stable {attrs : MergeableAttrs} {kind path : String} {gen : Call}
    {k : String} {b b' : Expr} {lg : List LogEntry}
    (hbk : binKey b = some k)
    (hgv : genValOrNil (attrVal gen k) = true)
    (hOK : attrs kind k = false ∨ shouldKeep b = true ∨ oldValOK (binY b) = true)
    (hstep : attrStep attrs kind path gen k b = (some b', lg)) :
    attrStep attrs kind path gen k b' = (some b', lg) := by
  by_cases hc : (!(attrs kind k) || shouldKeep b) = true
  · rw [attrStep_not_mergeable hc] at hstep
    injection hstep with hp1 hp2
    injection hp1 with hb'
    rw [← hb', ← hp2]
    exact attrStep_not_mergeable hc
  · have hc' : (!(attrs kind k) || shouldKeep b) = false := by simpa using hc
    have hb1 : attrs kind k = true ∧ shouldKeep b = false := by
      cases hA : attrs kind k <;> cases hK : shouldKeep b <;> simp_all
    have hmerge : attrs kind k = true := hb1.1
    have hkb : shouldKeep b = false := hb1.2
    have hwOK : oldValOK (binY b) = true := by
      rcases hOK with h | h | h
      · rw [h] at hmerge
        exact Bool.noConfusion hmerge
      · rw [h] at hkb
        exact Bool.noConfusion hkb
      · exact h
    rcases hme : mergeExpr (attrVal gen k) (binY b) with e | m
    · rw [attrStep_merge_err hc' hme] at hstep
      injection hstep with hp1 hp2
      injection hp1 with hb'
      have hbb : setY b (binY b) = b := setY_binY_self hbk
      rw [hbb] at hb'
      rw [← hb', ← hp2]
      rw [attrStep_merge_err hc' hme, hbb]
    · by_cases hnil : isNilE m = true
      · rw [attrStep_merge_nil hc' hme hnil] at hstep
        injection hstep with hp1 hp2
        exact Option.noConfusion hp1
      · have hnil' : isNilE m = false := by simpa using hnil
        rw [attrStep_merge_ok hc' hme hnil'] at hstep
        injection hstep with hp1 hp2
        injection hp1 with hb'
        have hkb' : shouldKeep b' = false := by
          rw [← hb', shouldKeep_setY]
          exact hkb
        have hc2 : (!(attrs kind k) || shouldKeep b') = false := by
          rw [hmerge, hkb']
          rfl
        have hbY : binY b' = m := by
          rw [← hb']
          exact binY_setY hbk m
        have hme2 : mergeExpr (attrVal gen k) (binY b') = .ok m := by
          rw [hbY]
          exact mergeExpr_stable hgv hwOK hme
        rw [attrStep_merge_ok hc2 hme2 hnil', ← hp2, ← hb', setY_setY]

/-! ## The trailing generated-attribute loop of `mergeRule` -/

theorem isBinEq_of_binKey_some {a : Expr} {k : String} (h : binKey a = some k) :
    isBinEq a = true := by
  cases a with
  | binaryE o x y c =>
    by_cases ho : (o == "=") = true
    · exact ho
    · exfalso
      have ho' : (o == "=") = false := by simpa using ho
      simp only [binKey, ho', Bool.false_eq_true, if_false] at h
      exact Option.noConfusion h
  | nilE => exact Option.noConfusion h
  | stringE s c => exact Option.noConfusion h
  | literalE t c => exact Option.noConfusion h
  | listE es f c => exact Option.noConfusion h
  | dictE es f c => exact Option.noConfusion h
  | kvE k2 v2 c => exact Option.noConfusion h
  | callE f a c => exact Option.noConfusion h

theorem wfArgs_defn {as : List Expr} {k : String} {b : Expr}
    (hwf : wfArgs as = true) (hd : attrDefnA as k = some b) :
    isNilE (binY b) = false := by
  have hmem := attrDefnA_mem hd
  have hb := attrDefnA_some_binKey hd
  have hall := List.all_eq_true.mp hwf b hmem
  rw [hb] at hall
  simpa using hall

theorem attrDefnA_none_of_attrVal_nil {as : List Expr} {k : String}
    (hwf : wfArgs as = true) (hv : isNilE (attrValA as k) = true) :
    attrDefnA as k = none := by
  rcases hd : attrDefnA as k with _ | b
  · rfl
  · exfalso
    have h1 := wfArgs_defn hwf hd
    simp only [attrValA, hd] at hv
    rw [h1] at hv
    exact Bool.noConfusion hv

theorem setAttrA_append_of_none {as : List Expr} {k : String} {v : Expr}
    (h : attrDefnA as k = none) :
    setAttrA as k v = as ++ [binaryE "=" (literalE k noCom) v noCom] := by
  induction as with
  | nil => rfl
  | cons a t ih =>
    have h1 : (binKey a == some k) = false := by
      cases hb : (binKey a == some k) with
      | false => rfl
      | true =>
        exfalso
        unfold attrDefnA at h
        simp only [List.find?, hb] at h
        exact Option.noConfusion h
    have h2 : attrDefnA t k = none := by
      unfold attrDefnA at h ⊢
      simp only [List.find?, h1] at h
      exact h
    simp only [setAttrA, h1, Bool.false_eq_true, if_false]
    rw [ih h2, List.cons_append]

theorem wfArgs_snoc {as : List Expr} (k : String) {v : Expr}
    (hwf : wfArgs as = true) (hv : isNilE v = false) :
    wfArgs (as ++ [binaryE "=" (literalE k noCom) v noCom]) = true := by
  unfold wfArgs at hwf ⊢
  rw [List.all_append, hwf, Bool.true_and, List.all_cons, List.all_nil, Bool.and_true]
  show ((binKey (binaryE "=" (literalE k noCom) v noCom)).isNone ||
    !(isNilE (binY (binaryE "=" (literalE k noCom) v noCom)))) = true
  have hb : binY (binaryE "=" (literalE k noCom) v noCom) = v := rfl
  rw [hb, hv]
  rfl

theorem genExtraFold_extras {gen : Call} {ks : List String} {as : List Expr}
    (hwf : wfArgs as = true)
    (hnn : ∀ k ∈ ks, isNilE (attrVal gen k) = false) :
    ks.foldl (genExtraStep gen) as = as ++ extrasArgs gen as ks := by
  induction ks generalizing as with
  | nil =>
    rw [List.foldl_nil]
    show as = as ++ []
    rw [List.append_nil]
  | cons k t ih =>
    rw [List.foldl_cons]
    by_cases hnil : isNilE (attrValA as k) = true
    · have hdn : attrDefnA as k = none := attrDefnA_none_of_attrVal_nil hwf hnil
      have hstep : genExtraStep gen as k =
          as ++ [binaryE "=" (literalE k noCom) (attrVal gen k) noCom] := by
        unfold genExtraStep
        rw [hnil]
        simp only [if_true]
        exact setAttrA_append_of_none hdn
      rw [hstep]
      have hwf2 := wfArgs_snoc k hwf (hnn k (List.mem_cons_self _ _))
      rw [ih hwf2 (fun j hj => hnn j (List.mem_cons_of_mem _ hj))]
      rw [List.append_assoc]
      congr 1
      simp only [extrasArgs, hnil, if_true]
      rfl
    · have hnil' : isNilE (attrValA as k) = false := by simpa using hnil
      have hstep : genExtraStep gen as k = as := by
        unfold genExtraStep
        rw [hnil']
        simp only [Bool.false_eq_true, if_false]
      rw [hstep, ih hwf (fun j hj => hnn j (List.mem_cons_of_mem _ hj))]
      congr 1
      simp only [extrasArgs, hnil', Bool.false_eq_true, if_false]

theorem extrasArgs_mem {gen : Call} {ks : List String} {as : List Expr} {e : Expr}
    (he : e ∈ extrasArgs gen as ks) :
    ∃ k, k ∈ ks ∧ e = binaryE "=" (literalE k noCom) (attrVal gen k) noCom := by
  induction ks generalizing as with
  | nil => cases he
  | cons k t ih =>
    by_cases hnil : isNilE (attrValA as k) = true
    · simp only [extrasArgs, hnil, if_true] at he
      rcases List.mem_cons.mp he with h1 | h1
      · exact ⟨k, List.mem_cons_self _ _, h1⟩
      · obtain ⟨k2, hk2, he2⟩ := ih h1
        exact ⟨k2, List.mem_cons_of_mem _ hk2, he2⟩
    · have hnil' : isNilE (attrValA as k) = false := by simpa using hnil
      simp only [extrasArgs, hnil', Bool.false_eq_true, if_false] at he
      obtain ⟨k2, hk2, he2⟩ := ih he
      exact ⟨k2, List.mem_cons_of_mem _ hk2, he2⟩

theorem nodupStr_cons {k : String} {t : List String} (h : nodupStr (k :: t) = true) :
    t.contains k = false ∧ nodupStr t = true := by
  simp only [nodupStr, Bool.and_eq_true] at h
  exact ⟨by simpa using h.1, h.2⟩

theorem kwArg_binKey (k : String) (v : Expr) :
    binKey (binaryE "=" (literalE k noCom) v noCom) = some k := rfl

theorem extrasArgs_lookup {gen : Call} {ks : List String} {as : List Expr}
    (hnodup : nodupStr ks = true) (hwf : wfArgs as = true)
    (hnn : ∀ k ∈ ks, isNilE (attrVal gen k) = false) :
    ∀ k ∈ ks, ∃ e, attrDefnA (as ++ extrasArgs gen as ks) k = some e ∧
      isNilE (binY e) = false ∧
      (attrDefnA as k = some e ∨
        e = binaryE "=" (literalE k noCom) (attrVal gen k) noCom) := by
  induction ks generalizing as with
  | nil => intro k hk; cases hk
  | cons k0 t ih =>
    obtain ⟨hnd1, hnd2⟩ := nodupStr_cons hnodup
    intro k hk
    by_cases hnil : isNilE (attrValA as k0) = true
    · have hdn : attrDefnA as k0 = none := attrDefnA_none_of_attrVal_nil hwf hnil
      have hrw : extrasArgs gen as (k0 :: t) =
          binaryE "=" (literalE k0 noCom) (attrVal gen k0) noCom ::
            extrasArgs gen (as ++ [binaryE "=" (literalE k0 noCom) (attrVal gen k0) noCom]) t := by
        simp only [extrasArgs, hnil, if_true]
      rw [hrw]
      rcases List.mem_cons.mp hk with hk0 | hkt
      · subst hk0
        refine ⟨binaryE "=" (literalE k noCom) (attrVal gen k) noCom, ?_, ?_, Or.inr rfl⟩
        · rw [attrDefnA_append, hdn]
          have hfind : attrDefnA (binaryE "=" (literalE k noCom) (attrVal gen k) noCom ::
              extrasArgs gen (as ++ [binaryE "=" (literalE k noCom) (attrVal gen k) noCom]) t) k =
              some (binaryE "=" (literalE k noCom) (attrVal gen k) noCom) := by
            apply List.find?_cons_of_pos
            rw [kwArg_binKey]
            simp
          rw [hfind]
          rfl
        · show isNilE (attrVal gen k) = false
          exact hnn k (List.mem_cons_self _ _)
      · have hwf2 := wfArgs_snoc k0 hwf (hnn k0 (List.mem_cons_self _ _))
        obtain ⟨e, he1, he2, he3⟩ :=
          ih hnd2 hwf2 (fun j hj => hnn j (List.mem_cons_of_mem _ hj)) k hkt
        have hkne : k ≠ k0 := by
          intro hkk
          rw [hkk] at hkt
          rw [contains_of_mem_str hkt] at hnd1
          exact Bool.noConfusion hnd1
        refine ⟨e, ?_, he2, ?_⟩
        · rw [List.append_cons]
          exact he1
        · rcases he3 with h3 | h3
          · left
            have hsingle : attrDefnA
                [binaryE "=" (literalE k0 noCom) (attrVal gen k0) noCom] k = none := by
              unfold attrDefnA
              apply List.find?_eq_none.mpr
              intro a ha hba
              have hae : a = binaryE "=" (literalE k0 noCom) (attrVal gen k0) noCom := by
                simpa using ha
              rw [hae, kwArg_binKey] at hba
              have : k0 = k := by simpa using hba
              exact hkne this.symm
            rw [attrDefnA_append, hsingle] at h3
            rcases hda : attrDefnA as k with _ | e'' <;> rw [hda] at h3 <;> exact h3
          · right
            exact h3
    · have hnil' : isNilE (attrValA as k0) = false := by simpa using hnil
      have hrw : extrasArgs gen as (k0 :: t) = extrasArgs gen as t := by
        simp only [extrasArgs, hnil', Bool.false_eq_true, if_false]
      rw [hrw]
      rcases List.mem_cons.mp hk with hk0 | hkt
      · subst hk0
        rcases hd : attrDefnA as k with _ | b
        · exfalso
          simp only [attrValA, hd] at hnil'
          exact Bool.noConfusion hnil'
        · refine ⟨b, ?_, ?_, Or.inl rfl⟩
          · rw [attrDefnA_append, hd]
            rfl
          · simp only [attrValA, hd] at hnil'
            exact hnil'
      · exact ih hnd2 hwf (fun j hj => hnn j (List.mem_cons_of_mem _ hj)) k hkt

theorem attrStep_extra_self (attrs : MergeableAttrs) (kind path : String)
    {gen : Call} {k : String}
    (hgv : genValOK (attrVal gen k) = true) :
    attrStep attrs kind path gen k
        (binaryE "=" (literalE k noCom) (attrVal gen k) noCom) =
      (some (binaryE "=" (literalE k noCom) (attrVal gen k) noCom), []) := by
  by_cases hA : attrs kind k = true
  · have hc : (!(attrs kind k) ||
        shouldKeep (binaryE "=" (literalE k noCom) (attrVal gen k) noCom)) = false := by
      rw [hA]
      rfl
    have hm : mergeExpr (attrVal gen k)
        (binY (binaryE "=" (literalE k noCom) (attrVal gen k) noCom)) =
        .ok (attrVal gen k) := mergeExpr_self_gen hgv
    rw [attrStep_merge_ok hc hm (genValOK_nonnil hgv)]
    rfl
  · have hA' : attrs kind k = false := by simpa using hA
    apply attrStep_not_mergeable
    rw [hA']
    rfl

theorem extrasArgs_reproduce (attrs : MergeableAttrs) (kind path : String)
    {gen : Call} {ks : List String} {as : List Expr}
    (hnodup : nodupStr ks = true) (hwf : wfArgs as = true)
    (hgv : ∀ k ∈ ks, genValOK (attrVal gen k) = true) :
    (((extrasArgs gen as ks).filterMap binKey).flatMap
        (fun k => match attrDefnA (as ++ extrasArgs gen as ks) k with
          | none => []
          | some b => (attrStep attrs kind path gen k b).1.toList) =
      extrasArgs gen as ks) ∧
    (((extrasArgs gen as ks).filterMap binKey).flatMap
        (fun k => match attrDefnA (as ++ extrasArgs gen as ks) k with
          | none => []
          | some b => (attrStep attrs kind path gen k b).2) = []) := by
  induction ks generalizing as with
  | nil => exact ⟨rfl, rfl⟩
  | cons k0 t ih =>
    obtain ⟨hnd1, hnd2⟩ := nodupStr_cons hnodup
    have hnn : ∀ k ∈ (k0 :: t), isNilE (attrVal gen k) = false :=
      fun k hk => genValOK_nonnil (hgv k hk)
    by_cases hnil : isNilE (attrValA as k0) = true
    · have hdn := attrDefnA_none_of_attrVal_nil hwf hnil
      have hrw : extrasArgs gen as (k0 :: t) =
          binaryE "=" (literalE k0 noCom) (attrVal gen k0) noCom ::
            extrasArgs gen
              (as ++ [binaryE "=" (literalE k0 noCom) (attrVal gen k0) noCom]) t := by
        simp only [extrasArgs, hnil, if_true]
      rw [hrw]
      have hlook : attrDefnA
          (as ++ (binaryE "=" (literalE k0 noCom) (attrVal gen k0) noCom ::
            extrasArgs gen
              (as ++ [binaryE "=" (literalE k0 noCom) (attrVal gen k0) noCom]) t)) k0 =
          some (binaryE "=" (literalE k0 noCom) (attrVal gen k0) noCom) := by
        rw [attrDefnA_append, hdn]
        have hfind : attrDefnA
            (binaryE "=" (literalE k0 noCom) (attrVal gen k0) noCom ::
              extrasArgs gen
                (as ++ [binaryE "=" (literalE k0 noCom) (attrVal gen k0) noCom]) t) k0 =
            some (binaryE "=" (literalE k0 noCom) (attrVal gen k0) noCom) := by
          apply List.find?_cons_of_pos
          rw [kwArg_binKey]
          simp
        rw [hfind]
        rfl
      have hwf2 := wfArgs_snoc k0 hwf (hnn k0 (List.mem_cons_self _ _))
      obtain ⟨ih1, ih2⟩ := ih hnd2 hwf2 (fun j hj => hgv j (List.mem_cons_of_mem _ hj))
      have hself := attrStep_extra_self attrs kind path (hgv k0 (List.mem_cons_self _ _))
      have hassoc : as ++ (binaryE "=" (literalE k0 noCom) (attrVal gen k0) noCom ::
          extrasArgs gen
            (as ++ [binaryE "=" (literalE k0 noCom) (attrVal gen k0) noCom]) t) =
          (as ++ [binaryE "=" (literalE k0 noCom) (attrVal gen k0) noCom]) ++
            extrasArgs gen
              (as ++ [binaryE "=" (literalE k0 noCom) (attrVal gen k0) noCom]) t :=
        List.append_cons _ _ _
      constructor
      · simp only [List.filterMap_cons, kwArg_binKey, List.flatMap_cons, hlook, hself]
        rw [hassoc, ih1]
        rfl
      · simp only [List.filterMap_cons, kwArg_binKey, List.flatMap_cons, hlook, hself]
        rw [hassoc, ih2]
        rfl
    · have hnil' : isNilE (attrValA as k0) = false := by simpa using hnil
      have hrw : extrasArgs gen as (k0 :: t) = extrasArgs gen as t := by
        simp only [extrasArgs, hnil', Bool.false_eq_true, if_false]
      rw [hrw]
      exact ih hnd2 hwf (fun j hj => hgv j (List.mem_cons_of_mem _ hj))

theorem genExtraFold_id {gen : Call} {ks : List String} {as : List Expr}
    (h : ∀ k ∈ ks, isNilE (attrValA as k) = false) :
    ks.foldl (genExtraStep gen) as = as := by
  induction ks with
  | nil => rfl
  | cons k t ih =>
    rw [List.foldl_cons]
    have hstep : genExtraStep gen as k = as := by
      unfold genExtraStep
      rw [h k (List.mem_cons_self _ _)]
      simp only [Bool.false_eq_true, if_false]
    rw [hstep]
    exact ih (fun j hj => h j (List.mem_cons_of_mem _ hj))

/-! ## The old-attribute loop of `mergeRule` -/

theorem attrKeysA_nonbin_nil {U : List Expr} (hU : ∀ a ∈ U, isBinEq a = false) :
    attrKeysA U = [] := by
  induction U with
  | nil => rfl
  | cons a t ih =>
    unfold attrKeysA
    rw [List.filterMap_cons,
      binKey_none_of_not_isBinEq (hU a (List.mem_cons_self _ _))]
    exact ih (fun x hx => hU x (List.mem_cons_of_mem _ hx))

theorem attrKeysA_append (l1 l2 : List Expr) :
    attrKeysA (l1 ++ l2) = attrKeysA l1 ++ attrKeysA l2 :=
  List.filterMap_append l1 l2 binKey

theorem genCallOK_parts {gen : Call} (hg : genCallOK gen = true) :
    cleanCom gen.com = true ∧ argsShapeOK gen.args = true ∧
      nodupStr (attrKeys gen) = true ∧
      ∀ k ∈ attrKeys gen, genValOK (attrVal gen k) = true := by
  unfold genCallOK at hg
  simp only [Bool.and_eq_true] at hg
  obtain ⟨⟨⟨h1, h2⟩, h3⟩, h4⟩ := hg
  refine ⟨h1, h2, h3, ?_⟩
  intro k hk
  exact List.all_eq_true.mp h4 k hk

theorem genValOrNil_of_genCallOK {gen : Call} (hg : genCallOK gen = true)
    (k : String) : genValOrNil (attrVal gen k) = true := by
  by_cases hk : k ∈ attrKeys gen
  · unfold genValOrNil
    rw [(genCallOK_parts hg).2.2.2 k hk, Bool.or_true]
  · have hv : attrValA gen.args k = nilE := attrValA_eq_nilE_of_not_mem hk
    show genValOrNil (attrValA gen.args k) = true
    rw [hv]
    rfl

theorem oldCall_clause {attrs : MergeableAttrs} {old : Call} {k : String} {b : Expr}
    (hoc : oldCallOK attrs old = true) (hko : shouldKeep old.toExpr = false)
    (hk : k ∈ attrKeys old) (hd : attrDefn old k = some b) :
    isNilE (binY b) = false ∧
      (attrs (kindOf old) k = false ∨ shouldKeep b = true ∨
        oldValOK (binY b) = true) := by
  unfold oldCallOK at hoc
  rw [hko] at hoc
  simp only [Bool.false_or] at hoc
  have hall := List.all_eq_true.mp hoc k hk
  simp only [hd] at hall
  simp only [Bool.and_eq_true] at hall
  obtain ⟨h1, h2⟩ := hall
  refine ⟨by simpa using h1, ?_⟩
  by_cases hA : attrs (kindOf old) k = true
  · rw [hA] at h2
    simp only [Bool.not_true, Bool.false_or, Bool.or_eq_true] at h2
    rcases h2 with h | h
    · exact Or.inr (Or.inl h)
    · exact Or.inr (Or.inr h)
  · exact Or.inl (by simpa using hA)

theorem attrStep_cases {attrs : MergeableAttrs} {kind path : String} {gen : Call}
    {k : String} {b : Expr} {ob : Option Expr} {lg : List LogEntry}
    (h : attrStep attrs kind path gen k b = (ob, lg)) :
    (ob = some b ∧ lg = []) ∨
    (∃ e, mergeExpr (attrVal gen k) (binY b) = .error e ∧
      ob = some (setY b (binY b)) ∧ lg = [(path, k)]) ∨
    (∃ m, mergeExpr (attrVal gen k) (binY b) = .ok m ∧
      ((isNilE m = true ∧ ob = none ∧ lg = []) ∨
       (isNilE m = false ∧ ob = some (setY b m) ∧ lg = []))) := by
  by_cases hc : (!(attrs kind k) || shouldKeep b) = true
  · rw [attrStep_not_mergeable hc] at h
    injection h with h1 h2
    exact Or.inl ⟨h1.symm, h2.symm⟩
  · have hc' : (!(attrs kind k) || shouldKeep b) = false := by simpa using hc
    rcases hme : mergeExpr (attrVal gen k) (binY b) with e | m
    · rw [attrStep_merge_err hc' hme] at h
      injection h with h1 h2
      exact Or.inr (Or.inl ⟨e, rfl, h1.symm, h2.symm⟩)
    · by_cases hnil : isNilE m = true
      · rw [attrStep_merge_nil hc' hme hnil] at h
        injection h with h1 h2
        exact Or.inr (Or.inr ⟨m, rfl, Or.inl ⟨hnil, h1.symm, h2.symm⟩⟩)
      · have hnil' : isNilE m = false := by simpa using hnil
        rw [attrStep_merge_ok hc' hme hnil'] at h
        injection h with h1 h2
        exact Or.inr (Or.inr ⟨m, rfl, Or.inr ⟨hnil', h1.symm, h2.symm⟩⟩)

theorem attrStep_none_log {attrs : MergeableAttrs} {kind path : String} {gen : Call}
    {k : String} {b : Expr} {lg : List LogEntry}
    (h : attrStep attrs kind path gen k b = (none, lg)) : lg = [] := by
  rcases attrStep_cases h with ⟨h1, h2⟩ | ⟨e, _, h1, _⟩ | ⟨m, _, hcase⟩
  · exact Option.noConfusion h1
  · exact Option.noConfusion h1
  · rcases hcase with ⟨_, _, h2⟩ | ⟨_, h1, _⟩
    · exact h2
    · exact Option.noConfusion h1

theorem oldAttr_step_cases {attrs : MergeableAttrs} (path : String) {gen old : Call}
    {k : String}
    (hg : genCallOK gen = true) (hko : shouldKeep old.toExpr = false)
    (hoc : oldCallOK attrs old = true) (hk : k ∈ attrKeys old) :
    (oldAttrContrib attrs (kindOf old) path gen old k = [] ∧
      oldAttrLog attrs (kindOf old) path gen old k = []) ∨
    (∃ b', oldAttrContrib attrs (kindOf old) path gen old k = [b'] ∧
      binKey b' = some k ∧ isNilE (binY b') = false ∧
      attrStep attrs (kindOf old) path gen k b' =
        (some b', oldAttrLog attrs (kindOf old) path gen old k)) := by
  rcases hd : attrDefn old k with _ | b
  · left
    constructor <;> simp [oldAttrContrib, oldAttrLog, hd]
  · obtain ⟨hnn, hOK⟩ := oldCall_clause hoc hko hk hd
    have hbk : binKey b = some k := attrDefnA_some_binKey hd
    have hgv := genValOrNil_of_genCallOK hg k
    rcases hres : attrStep attrs (kindOf old) path gen k b with ⟨ob, lg⟩
    have hcontrib : oldAttrContrib attrs (kindOf old) path gen old k = ob.toList := by
      simp [oldAttrContrib, hd, hres]
    have hlog : oldAttrLog attrs (kindOf old) path gen old k = lg := by
      simp [oldAttrLog, hd, hres]
    cases ob with
    | none =>
      left
      refine ⟨by rw [hcontrib]; rfl, ?_⟩
      rw [hlog]
      exact attrStep_none_log hres
    | some b' =>
      right
      have hstable := attrStep_stable hbk hgv hOK hres
      have hkey : binKey b' = binKey b := by
        apply attrStep_some_binKey
        rw [hres]
      have hnn' : isNilE (binY b') = false := by
        rcases attrStep_cases hres with ⟨h1, _⟩ | ⟨e, _, h1, _⟩ | ⟨m, _, hcase⟩
        · injection h1 with h1e
          rw [h1e]
          exact hnn
        · injection h1 with h1e
          rw [h1e, setY_binY_self hbk]
          exact hnn
        · rcases hcase with ⟨_, h1, _⟩ | ⟨hm1, h1, _⟩
          · exact Option.noConfusion h1
          · injection h1 with h1e
            rw [h1e, binY_setY hbk]
            exact hm1
      refine ⟨b', by rw [hcontrib]; rfl, by rw [hkey]; exact hbk, hnn', ?_⟩
      rw [hlog]
      exact hstable

/-- The heart of the C2 analysis: re-running the attribute-rebuild of
`mergeRule` on its own output reproduces the output and the log. -/
theorem mergeRuleCall_stable {gen old m : Call} {attrs : MergeableAttrs}
    {path : String} {lg : List LogEntry}
    (hg : genCallOK gen = true)
    (hko : shouldKeep old.toExpr = false)
    (hoc : oldCallOK attrs old = true)
    (hrun : mergeRuleCall gen old attrs path = (m, lg)) :
    mergeRuleCall gen m attrs path = (m, lg) ∧ m.fn = old.fn ∧ m.com = old.com ∧
      (nameOf gen = nameOf old → nameOf m = nameOf old) ∧
      (genRuleOK gen = true → isEmptyCall m = false) := by
  obtain ⟨hclean, hshape, hnodup, hvals⟩ := genCallOK_parts hg
  rw [mergeRuleCall_eq] at hrun
  injection hrun with hm hlg
  set U := old.args.takeWhile (fun a => !isBinEq a) with hUdef
  set A := (attrKeys old).flatMap (oldAttrContrib attrs (kindOf old) path gen old)
    with hAdef
  set XT := extrasArgs gen (U ++ A) (attrKeys gen) with hXTdef
  have hU : ∀ a ∈ U, isBinEq a = false := by
    intro a ha
    rw [hUdef] at ha
    have hp := List.mem_takeWhile_imp ha
    simpa using hp
  have hAfacts : ∀ a ∈ A, ∃ k, k ∈ attrKeys old ∧
      oldAttrContrib attrs (kindOf old) path gen old k = [a] ∧
      binKey a = some k ∧ isNilE (binY a) = false ∧
      attrStep attrs (kindOf old) path gen k a =
        (some a, oldAttrLog attrs (kindOf old) path gen old k) := by
    intro a ha
    rw [hAdef] at ha
    obtain ⟨k, hk, hak⟩ := List.mem_flatMap.mp ha
    rcases oldAttr_step_cases path hg hko hoc hk with ⟨hc1, _⟩ | ⟨b', hb1, hb2, hb3, hb4⟩
    · rw [hc1] at hak
      cases hak
    · rw [hb1] at hak
      have hab : a = b' := by simpa using hak
      subst hab
      exact ⟨k, hk, hb1, hb2, hb3, hb4⟩
  have hwfAX : wfArgs (U ++ A) = true := by
    unfold wfArgs
    rw [List.all_append]
    have h1 : U.all (fun a => (binKey a).isNone || !(isNilE (binY a))) = true := by
      apply List.all_eq_true.mpr
      intro a ha
      rw [binKey_none_of_not_isBinEq (hU a ha)]
      rfl
    have h2 : A.all (fun a => (binKey a).isNone || !(isNilE (binY a))) = true := by
      apply List.all_eq_true.mpr
      intro a ha
      obtain ⟨k, _, _, hb2, hb3, _⟩ := hAfacts a ha
      rw [hb2, hb3]
      rfl
    rw [h1, h2]
    rfl
  have hnnGen : ∀ k ∈ attrKeys gen, isNilE (attrVal gen k) = false :=
    fun k hk => genValOK_nonnil (hvals k hk)
  have hmargs : (attrKeys gen).foldl (genExtraStep gen) (U ++ A) = (U ++ A) ++ XT := by
    rw [hXTdef]
    exact genExtraFold_extras hwfAX hnnGen
  have hmargs2 : m.args = (U ++ A) ++ XT := by
    rw [← hm]
    exact hmargs
  have hmkind : kindOf m = kindOf old := by
    rw [← hm]
    rfl
  have hmfn : m.fn = old.fn := by rw [← hm]
  have hmcom : m.com = old.com := by rw [← hm]
  have hbinAX : ∀ a ∈ A ++ XT, isBinEq a = true := by
    intro a ha
    rcases List.mem_append.mp ha with h1 | h1
    · obtain ⟨k, _, _, hb2, _, _⟩ := hAfacts a h1
      exact isBinEq_of_binKey_some hb2
    · rw [hXTdef] at h1
      obtain ⟨k, _, he⟩ := extrasArgs_mem h1
      rw [he]
      rfl
  have htake : m.args.takeWhile (fun a => !isBinEq a) = U := by
    rw [hmargs2, List.append_assoc]
    exact takeWhile_all_append (fun a ha => by rw [hU a ha]; rfl)
      (fun a ha => by rw [hbinAX a ha]; rfl)
  have hkeysm : attrKeys m = attrKeysA A ++ attrKeysA XT := by
    show attrKeysA m.args = _
    rw [hmargs2, attrKeysA_append, attrKeysA_append, attrKeysA_nonbin_nil hU,
      List.nil_append]
  have hlookm : ∀ k, attrDefn m k = attrDefnA ((U ++ A) ++ XT) k := by
    intro k
    show attrDefnA m.args k = _
    rw [hmargs2]
  have hlookA : ∀ {k b'}, k ∈ attrKeys old →
      oldAttrContrib attrs (kindOf old) path gen old k = [b'] →
      (binKey b' == some k) = true → attrDefn m k = some b' := by
    intro k b' hk hb1 hb2
    rw [hlookm k, attrDefnA_append, attrDefnA_append]
    have hUnone : attrDefnA U k = none := by
      rw [hUdef]
      exact attrDefnA_takeWhile_nonbin _ _
    have hAsome : attrDefnA A k = some b' := by
      rw [hAdef]
      exact attrDefnA_flatMap_first hk hb1 hb2
        (fun j hj hjk e he => oldAttrContrib_other_keys hjk he)
    rw [hUnone, hAsome]
    rfl
  have hAargs : (attrKeysA A).flatMap (oldAttrContrib attrs (kindOf old) path gen m) =
      A := by
    have hsplit : attrKeysA A = (attrKeys old).flatMap
        (fun k => attrKeysA (oldAttrContrib attrs (kindOf old) path gen old k)) := by
      rw [hAdef]
      exact List.filterMap_flatMap _ _ _
    rw [hsplit, List.flatMap_assoc, hAdef]
    apply flatMap_congr_mem
    intro k hk
    rcases oldAttr_step_cases path hg hko hoc hk with ⟨hc1, _⟩ | ⟨b', hb1, hb2, hb3, hb4⟩
    · rw [hc1]
      rfl
    · rw [hb1]
      have hkeys1 : attrKeysA [b'] = [k] := by
        unfold attrKeysA
        rw [List.filterMap_cons, hb2]
        rfl
      rw [hkeys1]
      simp only [List.flatMap_cons, List.flatMap_nil, List.append_nil]
      have hd := hlookA hk hb1 (by rw [hb2]; simp)
      simp only [oldAttrContrib, hd, hb4]
      rfl
  have hAlog : (attrKeysA A).flatMap (oldAttrLog attrs (kindOf old) path gen m) =
      (attrKeys old).flatMap (oldAttrLog attrs (kindOf old) path gen old) := by
    have hsplit : attrKeysA A = (attrKeys old).flatMap
        (fun k => attrKeysA (oldAttrContrib attrs (kindOf old) path gen old k)) := by
      rw [hAdef]
      exact List.filterMap_flatMap _ _ _
    rw [hsplit, List.flatMap_assoc]
    apply flatMap_congr_mem
    intro k hk
    rcases oldAttr_step_cases path hg hko hoc hk with ⟨hc1, hc2⟩ | ⟨b', hb1, hb2, hb3, hb4⟩
    · rw [hc1, hc2]
      rfl
    · rw [hb1]
      have hkeys1 : attrKeysA [b'] = [k] := by
        unfold attrKeysA
        rw [List.filterMap_cons, hb2]
        rfl
      rw [hkeys1]
      simp only [List.flatMap_cons, List.flatMap_nil, List.append_nil]
      have hd := hlookA hk hb1 (by rw [hb2]; simp)
      simp only [oldAttrLog, hd, hb4]
  have hXrepr := extrasArgs_reproduce attrs (kindOf old) path hnodup hwfAX hvals
  have hXargs : (attrKeysA XT).flatMap (oldAttrContrib attrs (kindOf old) path gen m) =
      XT := by
    have h0 := hXrepr.1
    rw [← hXTdef] at h0
    calc (attrKeysA XT).flatMap (oldAttrContrib attrs (kindOf old) path gen m)
        = (XT.filterMap binKey).flatMap
            (fun k => match attrDefnA ((U ++ A) ++ XT) k with
              | none => []
              | some b => (attrStep attrs (kindOf old) path gen k b).1.toList) := by
          apply flatMap_congr_mem
          intro k hk
          simp only [oldAttrContrib, hlookm k]
      _ = XT := h0
  have hXlog : (attrKeysA XT).flatMap (oldAttrLog attrs (kindOf old) path gen m) =
      [] := by
    have h0 := hXrepr.2
    rw [← hXTdef] at h0
    calc (attrKeysA XT).flatMap (oldAttrLog attrs (kindOf old) path gen m)
        = (XT.filterMap binKey).flatMap
            (fun k => match attrDefnA ((U ++ A) ++ XT) k with
              | none => []
              | some b => (attrStep attrs (kindOf old) path gen k b).2) := by
          apply flatMap_congr_mem
          intro k hk
          simp only [oldAttrLog, hlookm k]
      _ = [] := h0
  have hfold : (attrKeys gen).foldl (genExtraStep gen) (U ++ (A ++ XT)) =
      U ++ (A ++ XT) := by
    apply genExtraFold_id
    intro k hk
    obtain ⟨e, he1, he2, _⟩ := extrasArgs_lookup hnodup hwfAX hnnGen k hk
    rw [← hXTdef] at he1
    have hassoc : U ++ (A ++ XT) = (U ++ A) ++ XT := (List.append_assoc U A XT).symm
    rw [hassoc]
    simp only [attrValA, he1]
    exact he2
  refine ⟨?_, hmfn, hmcom, ?_, ?_⟩
  · rw [mergeRuleCall_eq, hmkind, htake, hkeysm, List.flatMap_append, List.flatMap_append,
      hAargs, hXargs, hAlog, hXlog, List.append_nil, hfold, ← List.append_assoc,
      ← hmargs2, hlg]
  · intro hnm
    have hUnone : attrDefnA U "name" = none := by
      rw [hUdef]
      exact attrDefnA_takeWhile_nonbin _ _
    rcases hdA : attrDefnA A "name" with _ | b'
    · have hdUA : attrDefnA (U ++ A) "name" = none := by
        rw [attrDefnA_append, hUnone, hdA]
        rfl
      have holdname : nameOf old = "" ∨ nameOf old = nameOf gen := by
        rcases hdo : attrDefn old "name" with _ | b
        · left
          have hdo' : attrDefnA old.args "name" = none := hdo
          show stringValue (attrValA old.args "name") = ""
          simp only [attrValA, hdo']
          rfl
        · have hdo' : attrDefnA old.args "name" = some b := hdo
          have hk : "name" ∈ attrKeys old :=
            mem_attrKeysA (attrDefnA_mem hdo') (attrDefnA_some_binKey hdo')
          rcases oldAttr_step_cases path hg hko hoc hk with ⟨hc1, _⟩ | ⟨b2, hb1, hb2, hb3, hb4⟩
          · left
            rcases hres : attrStep attrs (kindOf old) path gen "name" b with ⟨ob, l0⟩
            have hob : ob = none := by
              have hc1' := hc1
              simp only [oldAttrContrib, hdo, hres] at hc1'
              cases ob with
              | none => rfl
              | some x => exact List.noConfusion (show x :: [] = ([] : List Expr) from hc1')
            subst hob
            rcases attrStep_cases hres with ⟨h1, _⟩ | ⟨e0, _, h1, _⟩ | ⟨m', hme, hcase⟩
            · exact Option.noConfusion h1
            · exact Option.noConfusion h1
            · rcases hcase with ⟨hm1, _, _⟩ | ⟨_, h1, _⟩
              · have hval : stringValue (attrVal gen "name") =
                    stringValue (binY b) := by
                  have hng : nameOf gen = stringValue (binY b) := by
                    rw [hnm]
                    show stringValue (attrValA old.args "name") = _
                    simp only [attrValA, hdo']
                  exact hng
                have h0 := mergeExpr_stringValue hval hme
                have hm'e : m' = nilE := by
                  cases m' <;> first | rfl | exact Bool.noConfusion hm1
                rw [hm'e] at h0
                show stringValue (attrValA old.args "name") = ""
                simp only [attrValA, hdo']
                rw [← h0]
                rfl
              · exact Option.noConfusion h1
          · exfalso
            have hsome : attrDefnA A "name" = some b2 := by
              rw [hAdef]
              exact attrDefnA_flatMap_first hk hb1 (by rw [hb2]; simp)
                (fun j hj hjk e he => oldAttrContrib_other_keys hjk he)
            rw [hdA] at hsome
            exact Option.noConfusion hsome
      by_cases hkg : "name" ∈ attrKeys gen
      · obtain ⟨e, he1, he2, he3⟩ := extrasArgs_lookup hnodup hwfAX hnnGen "name" hkg
        rw [← hXTdef] at he1
        rcases he3 with h3 | h3
        · rw [hdUA] at h3
          exact Option.noConfusion h3
        · have hnmm : nameOf m = stringValue (attrVal gen "name") := by
            show stringValue (attrValA m.args "name") = _
            rw [hmargs2]
            simp only [attrValA, he1, h3]
            rfl
          rw [hnmm]
          exact hnm
      · have hdXT : attrDefnA XT "name" = none := by
          rw [hXTdef]
          unfold attrDefnA
          apply List.find?_eq_none.mpr
          intro a ha hba
          obtain ⟨k2, hk2, hae⟩ := extrasArgs_mem ha
          rw [hae, kwArg_binKey] at hba
          have hk2n : k2 = "name" := by simpa using hba
          rw [hk2n] at hk2
          exact hkg hk2
        have hmnil : attrDefnA m.args "name" = none := by
          rw [hmargs2, attrDefnA_append, hdUA, hdXT]
          rfl
        have hmname : nameOf m = "" := by
          show stringValue (attrValA m.args "name") = ""
          simp only [attrValA, hmnil]
          rfl
        rcases holdname with h | h
        · rw [hmname, h]
        · have hgnil : nameOf gen = "" := by
            show stringValue (attrValA gen.args "name") = ""
            rw [attrValA_eq_nilE_of_not_mem hkg]
            rfl
          rw [hmname, h, hgnil]
    · have hfull : attrDefnA ((U ++ A) ++ XT) "name" = some b' := by
        rw [attrDefnA_append, attrDefnA_append, hUnone, hdA]
        rfl
      have hmn : nameOf m = stringValue (binY b') := by
        show stringValue (attrValA m.args "name") = _
        rw [hmargs2]
        simp only [attrValA, hfull]
      obtain ⟨k, hk, hb1, hb2, hb3, hb4⟩ := hAfacts b' (attrDefnA_mem hdA)
      have hbk' := attrDefnA_some_binKey hdA
      have hkname : k = "name" := by
        rw [hb2] at hbk'
        injection hbk' with hx
      subst hkname
      rcases hdo : attrDefn old "name" with _ | b
      · exfalso
        have hcnil : oldAttrContrib attrs (kindOf old) path gen old "name" = [] := by
          simp [oldAttrContrib, hdo]
        rw [hcnil] at hb1
        exact List.noConfusion hb1
      · have hdo' : attrDefnA old.args "name" = some b := hdo
        have holdv : nameOf old = stringValue (binY b) := by
          show stringValue (attrValA old.args "name") = _
          simp only [attrValA, hdo']
        have hstep1 : (attrStep attrs (kindOf old) path gen "name" b).1.toList =
            [b'] := by
          have hb1' := hb1
          simp only [oldAttrContrib, hdo] at hb1'
          exact hb1'
        rcases hres : attrStep attrs (kindOf old) path gen "name" b with ⟨ob, l0⟩
        have hob : ob = some b' := by
          rw [hres] at hstep1
          cases ob with
          | none => exact absurd hstep1 (by simp)
          | some x =>
            have hx : x = b' := by simpa using hstep1
            rw [hx]
        subst hob
        rcases attrStep_cases hres with ⟨h1, _⟩ | ⟨e0, hme, h1, _⟩ | ⟨m', hme, hcase⟩
        · have hbb : b' = b := by
            injection h1 with hx
          rw [hmn, hbb, holdv]
        · have hbb : b' = setY b (binY b) := by
            injection h1 with hx
          rw [hmn, hbb, binY_setY (attrDefnA_some_binKey hdo') _, holdv]
        · rcases hcase with ⟨_, h1, _⟩ | ⟨hm1, h1, _⟩
          · exact Option.noConfusion h1
          · have hbb : b' = setY b m' := by
              injection h1 with hx
            have hval : stringValue (attrVal gen "name") = stringValue (binY b) := by
              have hng : nameOf gen = stringValue (binY b) := by
                rw [hnm, holdv]
              exact hng
            have h0 := mergeExpr_stringValue hval hme
            rw [hmn, hbb, binY_setY (attrDefnA_some_binKey hdo') _, h0, holdv]
  · intro hgr
    have hany : (attrKeys gen).any (fun k => k != "name" && k != "visibility") = true := by
      unfold genRuleOK at hgr
      simp only [Bool.and_eq_true] at hgr
      exact hgr.2
    obtain ⟨k, hk, hkneq⟩ := List.any_eq_true.mp hany
    obtain ⟨e, he1, _, _⟩ := extrasArgs_lookup hnodup hwfAX hnnGen k hk
    rw [← hXTdef] at he1
    have hmem : e ∈ m.args := by
      rw [hmargs2]
      exact attrDefnA_mem he1
    have hke := attrDefnA_some_binKey he1
    by_contra hb
    have hie : isEmptyCall m = true := by simpa using hb
    unfold isEmptyCall at hie
    have hall := List.all_eq_true.mp hie e hmem
    simp only [hke] at hall
    have hkneq' : (k != "name") = true ∧ (k != "visibility") = true := by
      simpa [Bool.and_eq_true] using hkneq
    have hk1 : (k == "name") = false := by
      have h := hkneq'.1
      simpa using h
    have hk2 : (k == "visibility") = false := by
      have h := hkneq'.2
      simpa using h
    rw [hk1, hk2] at hall
    exact Bool.noConfusion hall

theorem shouldKeep_toExpr (c : Call) : shouldKeep c.toExpr = hasKeep c.com := rfl

theorem kindOf_of_fn_eq {c d : Call} (h : c.fn = d.fn) : kindOf c = kindOf d := by
  unfold kindOf
  rw [h]

theorem isEmptyCall_false_of_genRuleOK {g : Call} (hgr : genRuleOK g = true) :
    isEmptyCall g = false := by
  have hany : (attrKeys g).any (fun k => k != "name" && k != "visibility") = true := by
    unfold genRuleOK at hgr
    simp only [Bool.and_eq_true] at hgr
    exact hgr.2
  obtain ⟨k, hk, hkneq⟩ := List.any_eq_true.mp hany
  obtain ⟨a, ha, hbk⟩ := List.mem_filterMap.mp hk
  by_contra hb
  have hie : isEmptyCall g = true := by simpa using hb
  unfold isEmptyCall at hie
  have hall := List.all_eq_true.mp hie a ha
  simp only [hbk] at hall
  have hkneq' : (k != "name") = true ∧ (k != "visibility") = true := by
    simpa [Bool.and_eq_true] using hkneq
  have hk1 : (k == "name") = false := by
    have h := hkneq'.1
    simpa using h
  have hk2 : (k == "visibility") = false := by
    have h := hkneq'.2
    simpa using h
  rw [hk1, hk2] at hall
  exact Bool.noConfusion hall

/-- `mergeRule` applied again to its own (non-deleted) output reproduces
the output and the log. -/
theorem mergeRule_stable {gen old m : Call} {attrs : MergeableAttrs} {path : String}
    {lg : List LogEntry}
    (hg : genCallOK gen = true) (hoc : oldCallOK attrs old = true)
    (hrun : mergeRule gen old attrs path = (some m, lg)) :
    mergeRule gen m attrs path = (some m, lg) ∧
      (nameOf gen = nameOf old → nameOf m = nameOf old) ∧
      kindOf m = kindOf old ∧ m.com = old.com := by
  by_cases hko : shouldKeep old.toExpr = true
  · unfold mergeRule at hrun
    rw [if_pos hko] at hrun
    injection hrun with h1 h2
    injection h1 with h1e
    subst h1e
    refine ⟨?_, fun _ => rfl, rfl, rfl⟩
    unfold mergeRule
    rw [if_pos hko, ← h2]
  · have hko' : shouldKeep old.toExpr = false := by simpa using hko
    simp only [mergeRule] at hrun
    rw [if_neg hko] at hrun
    rcases hrc : mergeRuleCall gen old attrs path with ⟨mc, lgc⟩
    simp only [hrc] at hrun
    by_cases hemp : isEmptyCall mc = true
    · rw [if_pos hemp] at hrun
      injection hrun with h1 h2
      exact Option.noConfusion h1
    · have hemp' : isEmptyCall mc = false := by simpa using hemp
      rw [if_neg hemp] at hrun
      injection hrun with h1 h2
      injection h1 with h1e
      subst h1e
      subst h2
      obtain ⟨hstab, hfn, hcom, hname, hne⟩ := mergeRuleCall_stable hg hko' hoc hrc
      have hkind : kindOf mc = kindOf old := kindOf_of_fn_eq hfn
      have hkm : shouldKeep mc.toExpr = false := by
        rw [shouldKeep_toExpr, hcom, ← shouldKeep_toExpr]
        exact hko'
      refine ⟨?_, hname, hkind, hcom⟩
      simp only [mergeRule]
      rw [if_neg (by simp [hkm])]
      simp only [hstab]
      rw [if_neg (by simp [hemp'])]

theorem dropWhile_mem_sub {p : Expr → Bool} {l : List Expr} {a : Expr}
    (h : a ∈ l.dropWhile p) : a ∈ l := by
  have hsplit : l.takeWhile p ++ l.dropWhile p = l := List.takeWhile_append_dropWhile p l
  rw [← hsplit]
  exact List.mem_append_right _ h

theorem distinct_keyed_lookup {R : List Expr}
    (hkeys : ∀ a ∈ R, (binKey a).isSome = true)
    (hnodup : nodupStr (attrKeysA R) = true) :
    ∀ e ∈ R, ∀ k, binKey e = some k → attrDefnA R k = some e := by
  induction R with
  | nil => intro e he; cases he
  | cons a rest ih =>
    have hka := hkeys a (List.mem_cons_self _ _)
    rcases hba : binKey a with _ | ka
    · rw [hba] at hka
      cases hka
    · have hkeysc : attrKeysA (a :: rest) = ka :: attrKeysA rest := by
        unfold attrKeysA
        rw [List.filterMap_cons, hba]
      rw [hkeysc] at hnodup
      obtain ⟨hnd1, hnd2⟩ := nodupStr_cons hnodup
      intro e he k hbe
      rcases List.mem_cons.mp he with he1 | he1
      · subst he1
        rw [hba] at hbe
        injection hbe with hbe1
        subst hbe1
        unfold attrDefnA
        apply List.find?_cons_of_pos
        rw [hba]
        simp
      · have hkmem : k ∈ attrKeysA rest := mem_attrKeysA he1 hbe
        have hkne : k ≠ ka := by
          intro hkk
          rw [hkk] at hkmem
          rw [contains_of_mem_str hkmem] at hnd1
          exact Bool.noConfusion hnd1
        have hhead : (binKey a == some k) = false := by
          rw [hba]
          simp
          intro hc
          exact hkne hc.symm
        unfold attrDefnA
        simp only [List.find?, hhead]
        exact ih (fun x hx => hkeys x (List.mem_cons_of_mem _ hx)) hnd2 e he1 k hbe

theorem keyed_flatMap_id {R : List Expr} {F : String → List Expr}
    (hR : ∀ e ∈ R, ∃ k, binKey e = some k ∧ F k = [e]) :
    (attrKeysA R).flatMap F = R := by
  induction R with
  | nil => rfl
  | cons a rest ih =>
    obtain ⟨k, hk1, hk2⟩ := hR a (List.mem_cons_self _ _)
    have hkeysc : attrKeysA (a :: rest) = k :: attrKeysA rest := by
      unfold attrKeysA
      rw [List.filterMap_cons, hk1]
    rw [hkeysc, List.flatMap_cons, hk2,
      ih (fun e he => hR e (List.mem_cons_of_mem _ he))]
    rfl

/-- A canonical generated rule merged with itself is returned unchanged,
with an empty log. -/
theorem mergeRule_self {g : Call} {attrs : MergeableAttrs} {path : String}
    (hgr : genRuleOK g = true) :
    mergeRule g g attrs path = (some g, []) := by
  have hg : genCallOK g = true := by
    unfold genRuleOK at hgr
    simp only [Bool.and_eq_true] at hgr
    exact hgr.1
  obtain ⟨hclean, hshape, hnodup, hvals⟩ := genCallOK_parts hg
  have hko : shouldKeep g.toExpr = false := by
    rw [shouldKeep_toExpr, cleanCom_eq hclean]
    rfl
  have hsplit : g.args.takeWhile (fun a => !isBinEq a) ++
      g.args.dropWhile (fun a => !isBinEq a) = g.args :=
    List.takeWhile_append_dropWhile _ _
  have hRkeys : ∀ a ∈ g.args.dropWhile (fun a => !isBinEq a),
      (binKey a).isSome = true := by
    intro a ha
    have hsh := List.all_eq_true.mp hshape a ha
    simp only [Bool.and_eq_true] at hsh
    exact hsh.2
  have hUkeys : attrKeysA (g.args.takeWhile (fun a => !isBinEq a)) = [] := by
    apply attrKeysA_nonbin_nil
    intro a ha
    have hp := List.mem_takeWhile_imp ha
    simpa using hp
  have hkeysR : attrKeys g = attrKeysA (g.args.dropWhile (fun a => !isBinEq a)) := by
    show attrKeysA g.args = _
    rw [← hsplit, attrKeysA_append, hUkeys, List.nil_append]
    rw [hsplit]
  have hnodupR : nodupStr (attrKeysA (g.args.dropWhile (fun a => !isBinEq a))) = true := by
    rw [← hkeysR]
    exact hnodup
  have hlookup := distinct_keyed_lookup hRkeys hnodupR
  have hlookupG : ∀ e ∈ g.args.dropWhile (fun a => !isBinEq a), ∀ k,
      binKey e = some k → attrDefn g k = some e := by
    intro e he k hbe
    show attrDefnA g.args k = some e
    rw [← hsplit, attrDefnA_append]
    have hUnone : attrDefnA (g.args.takeWhile (fun a => !isBinEq a)) k = none :=
      attrDefnA_takeWhile_nonbin _ _
    rw [hUnone, hlookup e he k hbe]
    rfl
  have hperE : ∀ e ∈ g.args.dropWhile (fun a => !isBinEq a), ∀ k,
      binKey e = some k →
      attrStep attrs (kindOf g) path g k e = (some e, []) := by
    intro e he k hbe
    have hkg : k ∈ attrKeys g := by
      rw [hkeysR]
      exact mem_attrKeysA he hbe
    have hv : attrVal g k = binY e := by
      show attrValA g.args k = _
      have hl : attrDefnA g.args k = some e := hlookupG e he k hbe
      simp only [attrValA, hl]
    by_cases hA : (!(attrs (kindOf g) k) || shouldKeep e) = true
    · exact attrStep_not_mergeable hA
    · have hA' : (!(attrs (kindOf g) k) || shouldKeep e) = false := by simpa using hA
      have hgv : genValOK (attrVal g k) = true := hvals k hkg
      have hme : mergeExpr (attrVal g k) (binY e) = .ok (attrVal g k) := by
        rw [hv]
        rw [hv] at hgv
        exact mergeExpr_self_gen hgv
      rw [attrStep_merge_ok hA' hme (genValOK_nonnil hgv)]
      rw [hv, setY_binY_self hbe]
  have hcontrib : ∀ e ∈ g.args.dropWhile (fun a => !isBinEq a), ∃ k,
      binKey e = some k ∧
      oldAttrContrib attrs (kindOf g) path g g k = [e] := by
    intro e he
    have hka := hRkeys e he
    rcases hbe : binKey e with _ | k
    · rw [hbe] at hka
      cases hka
    · refine ⟨k, rfl, ?_⟩
      simp only [oldAttrContrib, hlookupG e he k hbe, hperE e he k hbe]
      rfl
  have hA : (attrKeys g).flatMap (oldAttrContrib attrs (kindOf g) path g g) =
      g.args.dropWhile (fun a => !isBinEq a) := by
    rw [hkeysR]
    exact keyed_flatMap_id hcontrib
  have hlognil : (attrKeys g).flatMap (oldAttrLog attrs (kindOf g) path g g) = [] := by
    apply flatMap_eq_nil_of
    intro k hk
    obtain ⟨a, ha, hbk⟩ := List.mem_filterMap.mp (by rw [hkeysR] at hk; exact hk)
    simp only [oldAttrLog, hlookupG a ha k hbk, hperE a ha k hbk]
  have hnnG : ∀ k ∈ attrKeys g, isNilE (attrValA g.args k) = false := by
    intro k hk
    exact genValOK_nonnil (hvals k hk)
  have hrc : mergeRuleCall g g attrs path = (g, []) := by
    rw [mergeRuleCall_eq, hA, hsplit, hlognil]
    rw [genExtraFold_id hnnG]
  simp only [mergeRule]
  rw [if_neg (by simp [hko])]
  simp only [hrc]
  rw [if_neg (by simp [isEmptyCall_false_of_genRuleOK hgr])]

/-! ## Statement-level helpers for the `MergeFile` phases -/

theorem asCall_toExpr (c : Call) : (Call.toExpr c).asCall = some c := rfl

theorem asCall_eq {s : Expr} {c : Call} (h : s.asCall = some c) : s = c.toExpr := by
  cases s with
  | callE f a co =>
    simp only [Expr.asCall] at h
    injection h with h1
    rw [← h1]
    rfl
  | nilE => exact Option.noConfusion h
  | stringE sv cc => exact Option.noConfusion h
  | literalE t cc => exact Option.noConfusion h
  | listE es fl cc => exact Option.noConfusion h
  | dictE es fl cc => exact Option.noConfusion h
  | kvE k v cc => exact Option.noConfusion h
  | binaryE o x y cc => exact Option.noConfusion h

theorem stmtKey_some {s : Expr} {c : Call} (h : s.asCall = some c) :
    stmtKey s = some (nameOf c, kindOf c) := by
  unfold stmtKey
  rw [h]
  rfl

theorem stmtKey_inv {s : Expr} {nm kd : String}
    (h : stmtKey s = some (nm, kd)) :
    ∃ c, s.asCall = some c ∧ nameOf c = nm ∧ kindOf c = kd := by
  unfold stmtKey at h
  rcases hs : s.asCall with _ | c
  · rw [hs] at h
    exact Option.noConfusion h
  · rw [hs] at h
    have h' : some ((nameOf c, kindOf c) : String × String) = some (nm, kd) := h
    injection h' with h1
    exact ⟨c, rfl, congrArg Prod.fst h1, congrArg Prod.snd h1⟩

theorem noNameMatch_transfer {x : Call} {s s' : Expr}
    (hkey : stmtKey s = stmtKey s')
    (h : ∀ c, s'.asCall = some c → (nameOf x == nameOf c) = false) :
    ∀ c, s.asCall = some c → (nameOf x == nameOf c) = false := by
  intro c hc
  have h1 : stmtKey s = some (nameOf c, kindOf c) := stmtKey_some hc
  rw [hkey] at h1
  obtain ⟨c', hc', hn', _⟩ := stmtKey_inv h1
  rw [← hn']
  exact h c' hc'

theorem nameDisjoint_congr {x x' : Call} {s : Expr} (h : nameOf x = nameOf x') :
    nameDisjoint x s = nameDisjoint x' s := by
  unfold nameDisjoint
  rw [h]

theorem matchRule_disjoint_none {empty : List Expr} {x : Call}
    (hd : ∀ s ∈ empty, nameDisjoint x s = true) : matchRule empty x = none := by
  apply matchRule_none_iff.mpr
  intro s hs c hc
  have h1 := hd s hs
  unfold nameDisjoint at h1
  rw [hc] at h1
  have h2 : (nameOf c == nameOf x) = false := by simpa using h1
  have h3 : nameOf c ≠ nameOf x := by
    intro he
    rw [he] at h2
    simp at h2
  exact beq_eq_false_iff_ne.mpr (fun he => h3 he.symm)

theorem stmtOK_call {attrs : MergeableAttrs} {s : Expr} {c : Call}
    (h : s.asCall = some c) : stmtOK attrs s = oldCallOK attrs c := by
  unfold stmtOK
  rw [h]

theorem ignoreDir_congr {s s' : Expr} (h : commentsOf s = commentsOf s') :
    stmtHasIgnoreDir s = stmtHasIgnoreDir s' := by
  unfold stmtHasIgnoreDir
  rw [h]

theorem commentsOf_toExpr (c : Call) : commentsOf c.toExpr = c.com := rfl

theorem ignoreDir_cleanCom {c : Call} (h : cleanCom c.com = true) :
    stmtHasIgnoreDir c.toExpr = false := by
  unfold stmtHasIgnoreDir
  rw [commentsOf_toExpr, cleanCom_eq h]
  rfl

theorem phase1Step_nonmatch {empty : List Expr} {attrs : MergeableAttrs}
    {path : String} {s : Expr} {c : Call}
    (hs : s.asCall = some c) (hm : matchRule empty c = none) :
    phase1Step empty attrs path s = some s := by
  simp only [phase1Step, hs, hm]

theorem length_take_of_le {l : List Expr} {n : Nat} (h : n ≤ l.length) :
    (l.take n).length = n := by
  rw [List.length_take]
  exact Nat.min_eq_left h

theorem mergeRule_some_of_ok {g y : Call} {attrs : MergeableAttrs} {path : String}
    (hgr : genRuleOK g = true) (hoc : oldCallOK attrs y = true) :
    ∃ mm lgm, mergeRule g y attrs path = (some mm, lgm) := by
  by_cases hko : shouldKeep y.toExpr = true
  · refine ⟨y, [], ?_⟩
    unfold mergeRule
    rw [if_pos hko]
  · have hko' : shouldKeep y.toExpr = false := by simpa using hko
    have hgc : genCallOK g = true := by
      unfold genRuleOK at hgr
      simp only [Bool.and_eq_true] at hgr
      exact hgr.1
    rcases hrc : mergeRuleCall g y attrs path with ⟨mc, lgc⟩
    obtain ⟨_, _, _, _, hne⟩ := mergeRuleCall_stable hgc hko' hoc hrc
    refine ⟨mc, lgc, ?_⟩
    simp only [mergeRule]
    rw [if_neg hko]
    simp only [hrc]
    rw [if_neg (by simp [hne hgr])]

theorem phase2_id {attrs : MergeableAttrs} {path : String} (gs : List Call)
    (stmts : List Expr)
    (h : ∀ g ∈ gs,
      (∃ y i, matchRule stmts g = some (y, i, true) ∧
        (mergeRule g y attrs path).1 = some y ∧ stmts.set i y.toExpr = stmts) ∨
      (∃ y i, matchRule stmts g = some (y, i, false))) :
    ∀ acc, (phase2 attrs path stmts.length gs stmts acc).1 = stmts := by
  induction gs with
  | nil => intro acc; rfl
  | cons g gs ih =>
    intro acc
    rcases h g (List.mem_cons_self _ _) with ⟨y, i, hm, hmr, hset⟩ | ⟨y, i, hm⟩
    · simp only [phase2, List.take_length, hm, hmr, hset]
      exact ih (fun g' hg' => h g' (List.mem_cons_of_mem _ hg')) _
    · simp only [phase2, List.take_length, hm]
      exact ih (fun g' hg' => h g' (List.mem_cons_of_mem _ hg')) _

theorem not_name_mem {gs : List Call} {nm : String}
    (h : (gs.map nameOf).contains nm = false) :
    ∀ g' ∈ gs, nm ≠ nameOf g' := by
  intro g' hg' he
  have hm : nm ∈ gs.map nameOf := by
    rw [he]
    exact List.mem_map_of_mem _ hg'
  rw [contains_of_mem_str hm] at h
  cases h

theorem matchRule_name_congr {l : List Expr} {x x' y : Call} {i : Nat} {fl : Bool}
    (hn : nameOf x' = nameOf x) (h : matchRule l x = some (y, i, fl)) :
    matchRule l x' = some (y, i, kindOf x' == kindOf y) := by
  obtain ⟨hi, hy, hnb, _, hprev⟩ := matchRule_some_facts h
  refine matchRule_of_first hi hy (by rw [hn]; exact hnb) ?_
  intro j hj c' hc'
  rw [hn]
  exact hprev j hj c' hc'

/-- Analysis of one `phase1Step` output: it is a fixpoint of `phase1Step`,
keeps the ignore-directive status of its input, and is either still a
canonical old statement or carries the name of some empty rule. -/
theorem phase1_out {empty : List Expr} {attrs : MergeableAttrs} {path : String}
    {s s' : Expr}
    (hes : ∀ e ∈ empty, emptyStmtOK e = true)
    (hs : stmtOK attrs s = true)
    (hstep : phase1Step empty attrs path s = some s') :
    phase1Step empty attrs path s' = some s' ∧
      stmtHasIgnoreDir s' = stmtHasIgnoreDir s ∧
      (stmtOK attrs s' = true ∨
        ∃ e ∈ empty, ∃ ec c', e.asCall = some ec ∧ s'.asCall = some c' ∧
          nameOf c' = nameOf ec) := by
  rcases hcs : s.asCall with _ | c
  · have hse : some s = some s' := by
      rw [← hstep]
      simp only [phase1Step, hcs]
    injection hse with hse
    subst hse
    exact ⟨by simp only [phase1Step, hcs], rfl, Or.inl hs⟩
  · rcases hmt : matchRule empty c with _ | ⟨y, j, fl⟩
    · have hse : some s = some s' := by
        rw [← hstep]
        simp only [phase1Step, hcs, hmt]
      injection hse with hse
      subst hse
      exact ⟨by simp only [phase1Step, hcs, hmt], rfl, Or.inl hs⟩
    · obtain ⟨hjlt, hyc, hnby, hfl, _⟩ := matchRule_some_facts hmt
      have hmem : empty.getD j nilE ∈ empty := getD_mem hjlt
      have hgy : genCallOK y = true := by
        have he := hes _ hmem
        unfold emptyStmtOK at he
        rw [hyc] at he
        exact he
      cases fl with
      | false =>
        have hse : some s = some s' := by
          rw [← hstep]
          simp only [phase1Step, hcs, hmt]
        injection hse with hse
        subst hse
        refine ⟨by simp only [phase1Step, hcs, hmt], rfl, Or.inr ?_⟩
        exact ⟨empty.getD j nilE, hmem, y, c, hyc, hcs, eq_of_beq hnby⟩
      | true =>
        have hoc : oldCallOK attrs c = true := by
          rw [← stmtOK_call hcs]
          exact hs
        rcases hmr : mergeRule y c attrs path with ⟨om, lgm⟩
        have hstep2 : (om.map Call.toExpr) = some s' := by
          rw [← hstep]
          simp only [phase1Step, hcs, hmt, hmr]
        rcases om with _ | mm
        · exact Option.noConfusion hstep2
        · have hse : some mm.toExpr = some s' := hstep2
          injection hse with hse
          have hmr' : mergeRule y c attrs path = (some mm, lgm) := hmr
          obtain ⟨hstab, hnamei, hkind, hcom⟩ := mergeRule_stable hgy hoc hmr'
          have hnmm : nameOf mm = nameOf c := hnamei (eq_of_beq hnby).symm
          have hmt2 : matchRule empty mm = some (y, j, kindOf mm == kindOf y) :=
            matchRule_name_congr hnmm hmt
          have hflmm : (kindOf mm == kindOf y) = true := by
            rw [hkind, ← hfl]
          rw [hflmm] at hmt2
          refine ⟨?_, ?_, Or.inr ?_⟩
          · rw [← hse]
            simp only [phase1Step, asCall_toExpr, hmt2, hstab]
            rfl
          · have hcomc : commentsOf (Call.toExpr mm) = commentsOf (Call.toExpr c) := by
              rw [commentsOf_toExpr, commentsOf_toExpr, hcom]
            rw [← hse, ignoreDir_congr hcomc, ← asCall_eq hcs]
          · rw [← hse]
            exact ⟨empty.getD j nilE, hmem, y, mm, hyc, asCall_toExpr mm,
              by rw [hnmm]; exact eq_of_beq hnby⟩

theorem shouldIgnore_fold (l : List Expr) (acc : List Directive) :
    (l.foldl
      (fun acc s =>
        let c := commentsOf s
        acc ++ (c.before ++ c.suffix ++ c.after).filterMap commentDirective)
      acc).any (fun d => d.key == "ignore") =
      (acc.any (fun d => d.key == "ignore") || l.any stmtHasIgnoreDir) := by
  induction l generalizing acc with
  | nil => simp
  | cons s t ih =>
    rw [List.foldl_cons, ih]
    simp only [List.any_append, List.any_cons]
    rw [Bool.or_assoc]
    rfl

theorem shouldIgnoreF_any (f : BzlFile) :
    shouldIgnoreF f = f.stmts.any stmtHasIgnoreDir := by
  unfold shouldIgnoreF fileDirectives
  rw [shouldIgnore_fold]
  rfl

/-- The main invariant of the second `MergeFile` loop: starting from a
statement list whose first `n` entries were never freshly appended, whose
appended tail avoids all generated names, and whose entries are
`phase1Step` fixpoints free of ignore directives, the loop only grows the
list, preserves those properties, preserves the name/kind profile of the
first `n` entries and the appended region, leaves name-disjoint entries
untouched, and leaves every generated rule at a merge fixpoint. -/
theorem phase2_run {attrs : MergeableAttrs} {path : String} {empty : List Expr}
    {n : Nat} :
    ∀ (gs : List Call) (stmts acc : List Expr),
    (∀ g ∈ gs, genRuleOK g = true) →
    nodupStr (gs.map nameOf) = true →
    (∀ g ∈ gs, ∀ e ∈ empty, nameDisjoint g e = true) →
    n ≤ stmts.length →
    (∀ j, n ≤ j → j < stmts.length → ∀ c, (stmts.getD j nilE).asCall = some c →
      ∀ g ∈ gs, nameOf c ≠ nameOf g) →
    (∀ s ∈ stmts, phase1Step empty attrs path s = some s) →
    (∀ s ∈ stmts, stmtHasIgnoreDir s = false) →
    (∀ s ∈ stmts, ∀ c, s.asCall = some c →
      stmtOK attrs s = true ∨ ∀ g ∈ gs, nameOf c ≠ nameOf g) →
    stmts.length ≤ (phase2 attrs path n gs stmts acc).1.length ∧
    (∀ s ∈ (phase2 attrs path n gs stmts acc).1,
      phase1Step empty attrs path s = some s) ∧
    (∀ s ∈ (phase2 attrs path n gs stmts acc).1, stmtHasIgnoreDir s = false) ∧
    (∀ j, j < n → stmtKey ((phase2 attrs path n gs stmts acc).1.getD j nilE) =
      stmtKey (stmts.getD j nilE)) ∧
    (∀ j, n ≤ j → j < stmts.length →
      (phase2 attrs path n gs stmts acc).1.getD j nilE = stmts.getD j nilE) ∧
    (∀ j, j < n →
      (∀ g ∈ gs, ∀ c, (stmts.getD j nilE).asCall = some c →
        nameOf c ≠ nameOf g) →
      (phase2 attrs path n gs stmts acc).1.getD j nilE = stmts.getD j nilE) ∧
    (∀ g ∈ gs,
      (∃ y i, matchRule (phase2 attrs path n gs stmts acc).1 g =
          some (y, i, true) ∧
        (mergeRule g y attrs path).1 = some y ∧
        (phase2 attrs path n gs stmts acc).1.set i y.toExpr =
          (phase2 attrs path n gs stmts acc).1) ∨
      (∃ y i, matchRule (phase2 attrs path n gs stmts acc).1 g =
        some (y, i, false))) := by
  intro gs
  induction gs with
  | nil =>
    intro stmts acc hg hnd hde hn hfresh hq1 hq2 hinv
    exact ⟨Nat.le_refl _, hq1, hq2, fun j hj => rfl, fun j h1 h2 => rfl,
      fun j hj hcond => rfl, fun g hgm => absurd hgm (List.not_mem_nil _)⟩
  | cons g gs ih =>
    intro stmts acc hg hnd hde hn hfresh hq1 hq2 hinv
    have hghead : genRuleOK g = true := hg g (List.mem_cons_self _ _)
    have hgchead : genCallOK g = true := by
      unfold genRuleOK at hghead
      simp only [Bool.and_eq_true] at hghead
      exact hghead.1
    have hcontg : (gs.map nameOf).contains (nameOf g) = false :=
      (nodupStr_cons hnd).1
    have hnd' : nodupStr (gs.map nameOf) = true := (nodupStr_cons hnd).2
    have hnotail : ∀ g' ∈ gs, nameOf g ≠ nameOf g' := not_name_mem hcontg
    have hg' : ∀ g' ∈ gs, genRuleOK g' = true :=
      fun g' hg'' => hg g' (List.mem_cons_of_mem _ hg'')
    have hde' : ∀ g' ∈ gs, ∀ e ∈ empty, nameDisjoint g' e = true :=
      fun g' hg'' => hde g' (List.mem_cons_of_mem _ hg'')
    have hnomatch0 : ∀ {y0 : Call} {i0 : Nat} {fl0 : Bool},
        matchRule (stmts.take n) g = some (y0, i0, fl0) →
        ∀ j, j < i0 → ∀ c, (stmts.getD j nilE).asCall = some c →
          (nameOf g == nameOf c) = false := by
      intro y0 i0 fl0 hmt j hj c hc
      obtain ⟨hilt, _, _, _, hprev0⟩ := matchRule_some_facts hmt
      refine hprev0 j hj c ?_
      rw [getD_take (Nat.lt_of_lt_of_le (Nat.lt_of_lt_of_le hj (Nat.le_of_lt hilt))
        (by rw [length_take_of_le hn]))]
      exact hc
    rcases hmt : matchRule (stmts.take n) g with _ | ⟨y, i, fl⟩
    · -- no existing statement with the generated name: g.toExpr is appended
      have hlen' : (stmts ++ [g.toExpr]).length = stmts.length + 1 := by simp
      have hn' : n ≤ (stmts ++ [g.toExpr]).length := by
        rw [hlen']
        exact Nat.le_trans hn (Nat.le_succ _)
      have hfresh' : ∀ j, n ≤ j → j < (stmts ++ [g.toExpr]).length →
          ∀ c, ((stmts ++ [g.toExpr]).getD j nilE).asCall = some c →
          ∀ g' ∈ gs, nameOf c ≠ nameOf g' := by
        intro j hnj hjl c hc g' hg''
        by_cases hjlen : j < stmts.length
        · rw [getD_append_left hjlen] at hc
          exact hfresh j hnj hjlen c hc g' (List.mem_cons_of_mem _ hg'')
        · have hjeq : j = stmts.length := by
            rw [hlen'] at hjl
            omega
          subst hjeq
          rw [getD_append_self] at hc
          have hcg : some g = some c := by rw [← hc]; rfl
          injection hcg with hcg
          rw [← hcg]
          exact hnotail g' hg''
      have hq1' : ∀ s ∈ stmts ++ [g.toExpr],
          phase1Step empty attrs path s = some s := by
        intro s hsm
        rcases List.mem_append.mp hsm with hsm | hsm
        · exact hq1 s hsm
        · have hse : s = g.toExpr := List.mem_singleton.mp hsm
          subst hse
          refine phase1Step_nonmatch (asCall_toExpr g) ?_
          exact matchRule_disjoint_none (hde g (List.mem_cons_self _ _))
      have hq2' : ∀ s ∈ stmts ++ [g.toExpr], stmtHasIgnoreDir s = false := by
        intro s hsm
        rcases List.mem_append.mp hsm with hsm | hsm
        · exact hq2 s hsm
        · have hse : s = g.toExpr := List.mem_singleton.mp hsm
          subst hse
          exact ignoreDir_cleanCom (genCallOK_parts hgchead).1
      have hinv' : ∀ s ∈ stmts ++ [g.toExpr], ∀ c, s.asCall = some c →
          stmtOK attrs s = true ∨ ∀ g' ∈ gs, nameOf c ≠ nameOf g' := by
        intro s hsm c hc
        rcases List.mem_append.mp hsm with hsm | hsm
        · rcases hinv s hsm c hc with h | h
          · exact Or.inl h
          · exact Or.inr (fun g' hg'' => h g' (List.mem_cons_of_mem _ hg''))
        · have hse : s = g.toExpr := List.mem_singleton.mp hsm
          subst hse
          have hcg : some g = some c := by rw [← hc]; rfl
          injection hcg with hcg
          rw [← hcg]
          exact Or.inr hnotail
      obtain ⟨ihL, ihP1, ihIG, ihPK, ihTL, ihNT, ihFX⟩ :=
        ih (stmts ++ [g.toExpr]) (acc ++ [g.toExpr]) hg' hnd' hde' hn' hfresh'
          hq1' hq2' hinv'
      simp only [phase2, hmt]
      refine ⟨?_, ihP1, ihIG, ?_, ?_, ?_, ?_⟩
      · refine Nat.le_trans ?_ ihL
        rw [hlen']
        exact Nat.le_succ _
      · intro j hj
        rw [ihPK j hj, getD_append_left (Nat.lt_of_lt_of_le hj hn)]
      · intro j h1 h2
        rw [ihTL j h1 (by rw [hlen']; exact Nat.lt_succ_of_lt h2),
          getD_append_left h2]
      · intro j hj hcond
        have hjlen : j < stmts.length := Nat.lt_of_lt_of_le hj hn
        have heq : (stmts ++ [g.toExpr]).getD j nilE = stmts.getD j nilE :=
          getD_append_left hjlen
        have hcnd2 : ∀ g' ∈ gs, ∀ c,
            ((stmts ++ [g.toExpr]).getD j nilE).asCall = some c →
            nameOf c ≠ nameOf g' := by
          rw [heq]
          exact fun g' hg'' => hcond g' (List.mem_cons_of_mem _ hg'')
        rw [ihNT j hj hcnd2]
        exact heq
      · intro g' hg''
        rcases List.mem_cons.mp hg'' with hgg | hgg
        · subst hgg
          have hres_p : (phase2 attrs path n gs (stmts ++ [g'.toExpr])
              (acc ++ [g'.toExpr])).1.getD stmts.length nilE = g'.toExpr := by
            rw [ihTL stmts.length hn (by rw [hlen']; exact Nat.lt_succ_self _)]
            exact getD_append_self
          have hplt : stmts.length <
              (phase2 attrs path n gs (stmts ++ [g'.toExpr])
                (acc ++ [g'.toExpr])).1.length := by
            refine Nat.lt_of_lt_of_le ?_ ihL
            rw [hlen']
            exact Nat.lt_succ_self _
          have hcall : ((phase2 attrs path n gs (stmts ++ [g'.toExpr])
              (acc ++ [g'.toExpr])).1.getD stmts.length nilE).asCall =
              some g' := by
            rw [hres_p]
            exact asCall_toExpr g'
          have hprev : ∀ j, j < stmts.length → ∀ c',
              ((phase2 attrs path n gs (stmts ++ [g'.toExpr])
                (acc ++ [g'.toExpr])).1.getD j nilE).asCall = some c' →
              (nameOf g' == nameOf c') = false := by
            intro j hj c' hc'
            by_cases hjn : j < n
            · have hkey : stmtKey ((phase2 attrs path n gs (stmts ++ [g'.toExpr])
                  (acc ++ [g'.toExpr])).1.getD j nilE) =
                  stmtKey (stmts.getD j nilE) := by
                rw [ihPK j hjn, getD_append_left (Nat.lt_of_lt_of_le hjn hn)]
              refine noNameMatch_transfer hkey ?_ c' hc'
              intro c0 hc0
              have hmem0 : (stmts.take n).getD j nilE ∈ stmts.take n :=
                getD_mem (by rw [length_take_of_le hn]; exact hjn)
              refine matchRule_none_iff.mp hmt _ hmem0 c0 ?_
              rw [getD_take hjn]
              exact hc0
            · have hjn' : n ≤ j := Nat.le_of_not_lt hjn
              have heq : (phase2 attrs path n gs (stmts ++ [g'.toExpr])
                  (acc ++ [g'.toExpr])).1.getD j nilE = stmts.getD j nilE := by
                rw [ihTL j hjn' (by rw [hlen']; exact Nat.lt_succ_of_lt hj),
                  getD_append_left hj]
              rw [heq] at hc'
              have hne := hfresh j hjn' hj c' hc' g' (List.mem_cons_self _ _)
              exact beq_eq_false_iff_ne.mpr (fun he => hne he.symm)
          have hmres := matchRule_of_first hplt hcall
            (beq_self_eq_true (nameOf g')) hprev
          rw [beq_self_eq_true] at hmres
          refine Or.inl ⟨g', stmts.length, hmres, ?_, set_of_getD hres_p⟩
          rw [mergeRule_self hghead]
        · exact ihFX g' hgg
    · -- a statement with the generated name exists in the old region
      obtain ⟨hilt0, hyc0, hnmy, hflag, _⟩ := matchRule_some_facts hmt
      have hiltn : i < n := by
        rw [length_take_of_le hn] at hilt0
        exact hilt0
      have hyc' : (stmts.getD i nilE).asCall = some y := by
        rw [← getD_take hiltn]
        exact hyc0
      have hilts : i < stmts.length := Nat.lt_of_lt_of_le hiltn hn
      have hnamegy : nameOf g = nameOf y := eq_of_beq hnmy
      cases fl with
      | true =>
        -- the kinds also match: g is merged into position i
        have hoc : oldCallOK attrs y = true := by
          rcases hinv _ (getD_mem hilts) y hyc' with h | h
          · rw [← stmtOK_call hyc']
            exact h
          · exact absurd hnamegy.symm (h g (List.mem_cons_self _ _))
        obtain ⟨mm, lgm, hmr⟩ := mergeRule_some_of_ok hghead hoc
        obtain ⟨hstab, hnamei, hkindm, hcom⟩ := mergeRule_stable hgchead hoc hmr
        have hnmm : nameOf mm = nameOf y := hnamei hnamegy
        have hmr1 : (mergeRule g y attrs path).1 = some mm := by rw [hmr]
        have hnomm : ∀ g' ∈ gs, ∀ c, (Call.toExpr mm).asCall = some c →
            nameOf c ≠ nameOf g' := by
          intro g' hg'' c hc
          have hcg : some mm = some c := by rw [← hc]; rfl
          injection hcg with hcg
          rw [← hcg, hnmm, ← hnamegy]
          exact hnotail g' hg''
        have hlen' : (stmts.set i mm.toExpr).length = stmts.length := by simp
        have hn' : n ≤ (stmts.set i mm.toExpr).length := by rw [hlen']; exact hn
        have hfresh' : ∀ j, n ≤ j → j < (stmts.set i mm.toExpr).length →
            ∀ c, ((stmts.set i mm.toExpr).getD j nilE).asCall = some c →
            ∀ g' ∈ gs, nameOf c ≠ nameOf g' := by
          intro j hnj hjl c hc g' hg''
          rw [hlen'] at hjl
          have hij : i ≠ j := fun he =>
            absurd (he ▸ hiltn) (Nat.not_lt_of_le hnj)
          rw [getD_set_ne hij] at hc
          exact hfresh j hnj hjl c hc g' (List.mem_cons_of_mem _ hg'')
        have hq1' : ∀ s ∈ stmts.set i mm.toExpr,
            phase1Step empty attrs path s = some s := by
          intro s hsm
          rcases List.mem_or_eq_of_mem_set hsm with hsm | hse
          · exact hq1 s hsm
          · subst hse
            refine phase1Step_nonmatch (asCall_toExpr mm) ?_
            refine matchRule_disjoint_none ?_
            intro e he
            have hnmg : nameOf mm = nameOf g := by rw [hnmm, ← hnamegy]
            rw [nameDisjoint_congr hnmg]
            exact hde g (List.mem_cons_self _ _) e he
        have hq2' : ∀ s ∈ stmts.set i mm.toExpr, stmtHasIgnoreDir s = false := by
          intro s hsm
          rcases List.mem_or_eq_of_mem_set hsm with hsm | hse
          · exact hq2 s hsm
          · subst hse
            have hcomy : commentsOf (Call.toExpr mm) = commentsOf (Call.toExpr y) := by
              rw [commentsOf_toExpr, commentsOf_toExpr, hcom]
            rw [ignoreDir_congr hcomy, ← asCall_eq hyc']
            exact hq2 _ (getD_mem hilts)
        have hinv' : ∀ s ∈ stmts.set i mm.toExpr, ∀ c, s.asCall = some c →
            stmtOK attrs s = true ∨ ∀ g' ∈ gs, nameOf c ≠ nameOf g' := by
          intro s hsm c hc
          rcases List.mem_or_eq_of_mem_set hsm with hsm | hse
          · rcases hinv s hsm c hc with h | h
            · exact Or.inl h
            · exact Or.inr (fun g' hg'' => h g' (List.mem_cons_of_mem _ hg''))
          · subst hse
            exact Or.inr (fun g' hg'' => hnomm g' hg'' c hc)
        obtain ⟨ihL, ihP1, ihIG, ihPK, ihTL, ihNT, ihFX⟩ :=
          ih (stmts.set i mm.toExpr) (acc ++ [mm.toExpr]) hg' hnd' hde' hn'
            hfresh' hq1' hq2' hinv'
        simp only [phase2, hmt, hmr1]
        refine ⟨?_, ihP1, ihIG, ?_, ?_, ?_, ?_⟩
        · rw [← hlen']
          exact ihL
        · intro j hj
          rw [ihPK j hj]
          by_cases hij : i = j
          · subst hij
            rw [getD_set_self hilts, stmtKey_some (asCall_toExpr mm),
              stmtKey_some hyc', hnmm, hkindm]
          · rw [getD_set_ne hij]
        · intro j h1 h2
          have hij : i ≠ j := fun he =>
            absurd (he ▸ hiltn) (Nat.not_lt_of_le h1)
          rw [ihTL j h1 (by rw [hlen']; exact h2), getD_set_ne hij]
        · intro j hj hcond
          have hij : i ≠ j := by
            intro he
            subst he
            exact absurd hnamegy.symm
              (hcond g (List.mem_cons_self _ _) y hyc')
          have heq : (stmts.set i mm.toExpr).getD j nilE = stmts.getD j nilE :=
            getD_set_ne hij
          have hcnd2 : ∀ g' ∈ gs, ∀ c,
              ((stmts.set i mm.toExpr).getD j nilE).asCall = some c →
              nameOf c ≠ nameOf g' := by
            rw [heq]
            exact fun g' hg'' => hcond g' (List.mem_cons_of_mem _ hg'')
          rw [ihNT j hj hcnd2]
          exact heq
        · intro g' hg''
          rcases List.mem_cons.mp hg'' with hgg | hgg
          · subst hgg
            have hcnd3 : ∀ g'' ∈ gs, ∀ c,
                ((stmts.set i mm.toExpr).getD i nilE).asCall = some c →
                nameOf c ≠ nameOf g'' := by
              rw [getD_set_self hilts]
              exact hnomm
            have hres_i : (phase2 attrs path n gs (stmts.set i mm.toExpr)
                (acc ++ [mm.toExpr])).1.getD i nilE = mm.toExpr := by
              rw [ihNT i hiltn hcnd3]
              exact getD_set_self hilts
            have hplt : i < (phase2 attrs path n gs (stmts.set i mm.toExpr)
                (acc ++ [mm.toExpr])).1.length := by
              refine Nat.lt_of_lt_of_le ?_ ihL
              rw [hlen']
              exact hilts
            have hcall : ((phase2 attrs path n gs (stmts.set i mm.toExpr)
                (acc ++ [mm.toExpr])).1.getD i nilE).asCall = some mm := by
              rw [hres_i]
              exact asCall_toExpr mm
            have hprev : ∀ j, j < i → ∀ c',
                ((phase2 attrs path n gs (stmts.set i mm.toExpr)
                  (acc ++ [mm.toExpr])).1.getD j nilE).asCall = some c' →
                (nameOf g' == nameOf c') = false := by
              intro j hj c' hc'
              have hjn : j < n := Nat.lt_trans hj hiltn
              have hkey : stmtKey ((phase2 attrs path n gs (stmts.set i mm.toExpr)
                  (acc ++ [mm.toExpr])).1.getD j nilE) =
                  stmtKey (stmts.getD j nilE) := by
                rw [ihPK j hjn, getD_set_ne (fun he => absurd (he ▸ hj)
                  (Nat.lt_irrefl _))]
              refine noNameMatch_transfer hkey ?_ c' hc'
              intro c0 hc0
              exact hnomatch0 hmt j hj c0 hc0
            have hmres := matchRule_of_first hplt hcall
              (by rw [hnmm]; exact hnmy) hprev
            have hflmm : (kindOf g' == kindOf mm) = true := by
              rw [hkindm, ← hflag]
            rw [hflmm] at hmres
            refine Or.inl ⟨mm, i, hmres, ?_, set_of_getD hres_i⟩
            rw [hstab]
          · exact ihFX g' hgg
      | false =>
        -- name matches but the kind differs: g is skipped entirely
        have hfresh' : ∀ j, n ≤ j → j < stmts.length →
            ∀ c, (stmts.getD j nilE).asCall = some c →
            ∀ g' ∈ gs, nameOf c ≠ nameOf g' :=
          fun j h1 h2 c hc g' hg'' =>
            hfresh j h1 h2 c hc g' (List.mem_cons_of_mem _ hg'')
        have hinv' : ∀ s ∈ stmts, ∀ c, s.asCall = some c →
            stmtOK attrs s = true ∨ ∀ g' ∈ gs, nameOf c ≠ nameOf g' := by
          intro s hsm c hc
          rcases hinv s hsm c hc with h | h
          · exact Or.inl h
          · exact Or.inr (fun g' hg'' => h g' (List.mem_cons_of_mem _ hg''))
        obtain ⟨ihL, ihP1, ihIG, ihPK, ihTL, ihNT, ihFX⟩ :=
          ih stmts acc hg' hnd' hde' hn hfresh' hq1 hq2 hinv'
        simp only [phase2, hmt]
        refine ⟨ihL, ihP1, ihIG, ihPK, ihTL, ?_, ?_⟩
        · intro j hj hcond
          exact ihNT j hj (fun g' hg'' => hcond g' (List.mem_cons_of_mem _ hg''))
        · intro g' hg''
          rcases List.mem_cons.mp hg'' with hgg | hgg
          · subst hgg
            have hkey : stmtKey ((phase2 attrs path n gs stmts acc).1.getD i
                nilE) = stmtKey (stmts.getD i nilE) := ihPK i hiltn
            rw [stmtKey_some hyc'] at hkey
            obtain ⟨c', hc', hn'eq, hk'eq⟩ := stmtKey_inv hkey
            have hplt : i < (phase2 attrs path n gs stmts acc).1.length :=
              Nat.lt_of_lt_of_le hilts ihL
            have hprev : ∀ j, j < i → ∀ c0,
                ((phase2 attrs path n gs stmts acc).1.getD j nilE).asCall =
                  some c0 →
                (nameOf g' == nameOf c0) = false := by
              intro j hj c0 hc0
              have hjn : j < n := Nat.lt_trans hj hiltn
              refine noNameMatch_transfer (ihPK j hjn) ?_ c0 hc0
              intro c1 hc1
              exact hnomatch0 hmt j hj c1 hc1
            have hmres := matchRule_of_first hplt hc'
              (by rw [hn'eq]; exact hnmy) hprev
            have hflc : (kindOf g' == kindOf c') = false := by
              rw [hk'eq, ← hflag]
            rw [hflc] at hmres
            exact Or.inr ⟨c', i, hmres⟩
          · exact ihFX g' hgg

/-- C2, counterexample: `MergeFile` is not idempotent in general. Merging
the generated rule `c2gen` (whose `srcs` holds an identifier followed by a
string) into the document `c2doc` succeeds, but re-merging the same rules
into the output changes it again: the identifier element is dropped by the
keep-scan (its string value is empty) and re-appended after the strings,
so the `srcs` order flips on every run. -/
theorem claim_C2_counterexample :
    (mergeFile [c2gen] [] (some c2doc) c2attrs).1.isSome = true ∧
    (mergeFile [c2gen] []
        ((mergeFile [c2gen] [] (some c2doc) c2attrs).1) c2attrs).1 ≠
      (mergeFile [c2gen] [] (some c2doc) c2attrs).1 := by
  refine ⟨by decide, fun h => ?_⟩
  have h2 := congrArg srcsProfile h
  exact absurd h2 (by decide)

/-- C2 (amended): for every canonical generated-rule list (distinct
names, clean comments, canonical argument and value shapes, at least one
attribute besides name/visibility), empty-rule list of canonical calls
with names disjoint from the generated names, and existing document whose
rules are canonical old-side rules, if `MergeFile(gen, empty, D, attrs)`
produces document `D'`, then `MergeFile(gen, empty, D', attrs)` produces a
document equal to `D'`. -/
theorem claim_C2_amended_idempotent {genRules : List Call} {empty : List Expr}
    {D D' : BzlFile} {r : List Expr} {attrs : MergeableAttrs}
    (hga : genRules.all genRuleOK = true)
    (hnd : nodupStr (genRules.map nameOf) = true)
    (hde : genRules.all (fun g => empty.all (fun e => nameDisjoint g e)) = true)
    (hes : empty.all emptyStmtOK = true)
    (hok : D.stmts.all (stmtOK attrs) = true)
    (hrun : mergeFile genRules empty (some D) attrs = (some D', r)) :
    (mergeFile genRules empty (some D') attrs).1 = some D' := by
  have hga' : ∀ g ∈ genRules, genRuleOK g = true := List.all_eq_true.mp hga
  have hde' : ∀ g ∈ genRules, ∀ e ∈ empty, nameDisjoint g e = true := by
    intro g hg e he
    exact List.all_eq_true.mp (List.all_eq_true.mp hde g hg) e he
  have hes' : ∀ e ∈ empty, emptyStmtOK e = true := List.all_eq_true.mp hes
  have hok' : ∀ s ∈ D.stmts, stmtOK attrs s = true := List.all_eq_true.mp hok
  cases hig : shouldIgnoreF D with
  | true =>
    simp only [mergeFile, hig, if_true] at hrun
    injection hrun with h1 h2
    exact Option.noConfusion h1
  | false =>
    simp only [mergeFile, hig, if_false] at hrun
    injection hrun with h1 h2
    injection h1 with h1e
    have hnoig : ∀ s ∈ D.stmts, stmtHasIgnoreDir s = false := by
      rw [shouldIgnoreF_any] at hig
      intro s hs
      rcases hb : stmtHasIgnoreDir s with _ | _
      · rfl
      · have hany : D.stmts.any stmtHasIgnoreDir = true :=
          List.any_eq_true.mpr ⟨s, hs, hb⟩
        rw [hig] at hany
        exact hany.symm
    have hq1S : ∀ s ∈ D.stmts.filterMap (phase1Step empty attrs D.path),
        phase1Step empty attrs D.path s = some s := by
      intro s hs
      obtain ⟨s0, hs0, hstep⟩ := List.mem_filterMap.mp hs
      exact (phase1_out hes' (hok' s0 hs0) hstep).1
    have hq2S : ∀ s ∈ D.stmts.filterMap (phase1Step empty attrs D.path),
        stmtHasIgnoreDir s = false := by
      intro s hs
      obtain ⟨s0, hs0, hstep⟩ := List.mem_filterMap.mp hs
      rw [(phase1_out hes' (hok' s0 hs0) hstep).2.1]
      exact hnoig s0 hs0
    have hinvS : ∀ s ∈ D.stmts.filterMap (phase1Step empty attrs D.path),
        ∀ c, s.asCall = some c →
        stmtOK attrs s = true ∨ ∀ g ∈ genRules, nameOf c ≠ nameOf g := by
      intro s hs c hc
      obtain ⟨s0, hs0, hstep⟩ := List.mem_filterMap.mp hs
      rcases (phase1_out hes' (hok' s0 hs0) hstep).2.2 with h | h
      · exact Or.inl h
      · obtain ⟨e, he, ec, c', hec, hc', hname⟩ := h
        refine Or.inr ?_
        intro g hg heq
        have hcc : some c = some c' := by rw [← hc, ← hc']
        injection hcc with hcc
        have hd := hde' g hg e he
        unfold nameDisjoint at hd
        rw [hec] at hd
        have hdb : (nameOf ec == nameOf g) = false := by simpa using hd
        rw [← hname, ← hcc, ← heq] at hdb
        simp at hdb
    obtain ⟨_, hP1, hIG, _, _, _, hFX⟩ :=
      phase2_run genRules (D.stmts.filterMap (phase1Step empty attrs D.path)) []
        hga' hnd hde' (Nat.le_refl _)
        (fun j hj1 hj2 => absurd hj2 (Nat.not_lt_of_le hj1))
        hq1S hq2S hinvS
    rw [← h1e]
    simp only [mergeFile]
    have hig2 : shouldIgnoreF ⟨D.path,
        (phase2 attrs D.path
          (D.stmts.filterMap (phase1Step empty attrs D.path)).length genRules
          (D.stmts.filterMap (phase1Step empty attrs D.path)) []).1⟩ = false := by
      rw [shouldIgnoreF_any]
      rcases hb : List.any _ stmtHasIgnoreDir with _ | _
      · rfl
      · rw [List.any_eq_true] at hb
        obtain ⟨s, hs, hsb⟩ := hb
        rw [hIG s hs] at hsb
        exact Bool.noConfusion hsb
    rw [if_neg (by simp [hig2])]
    have hfixS : (phase2 attrs D.path
        (D.stmts.filterMap (phase1Step empty attrs D.path)).length genRules
        (D.stmts.filterMap (phase1Step empty attrs D.path)) []).1.filterMap
          (phase1Step empty attrs D.path) =
        (phase2 attrs D.path
          (D.stmts.filterMap (phase1Step empty attrs D.path)).length genRules
          (D.stmts.filterMap (phase1Step empty attrs D.path)) []).1 :=
      filterMap_eq_self_of hP1
    rw [hfixS, phase2_id genRules _ hFX []]

/-- Witness for the amended C2: a canonical generated rule merged into a
document already holding exactly that rule; the merged document is a
fixpoint of `MergeFile`. -/
theorem claim_C2_witness :
    ([c2wGen].all genRuleOK = true) ∧
    (mergeFile [c2wGen] [] (some c2wDoc) c2attrs).1 = some c2wDoc :=
  ⟨by decide,
    @claim_C2_amended_idempotent [c2wGen] [] c2wDoc c2wDoc [c2wGen.toExpr]
      c2attrs (by decide) (by decide) (by decide) (by decide) (by decide) rfl⟩

end Gazelle
